import Mathlib

/-!
Transportation problem: northwest-corner rule and stepping-stone method.

A shallow embedding of `src/main.go` and a verification of its specification.

Modelling conventions.

* Go `int` is the 64-bit type.  Its values are integers; the sums and the
  difference computed by the balancing step of `newTransport` wrap around
  (`wrapInt`).  The subtraction `supply[r] -= quantity` of
  `northWestCornerRule` is made with `0 < quantity ≤ supply[r]` and cannot
  overflow, so it is the exact one; the same holds for `demand[c]`.
  `exactTotal` is the sum of a capacity vector as an integer.
* `float64` values (quantities, unit costs) are the rationals they denote, and
  every conversion, addition, subtraction and multiplication rounds its exact
  result to the nearest float64, ties to even, subnormals included (`rnd`).
  The two zeros are one value; the program only compares them.  NaN and
  infinities are not represented: the entries `input i j` of a cost block are
  the finite values that `strconv.ParseFloat` returns, and the model agrees
  with Go as long as no result reaches `2^1024` in magnitude.  Theorems that
  depend on the outcome of float64 arithmetic on costs carry the hypothesis
  that no operation of the pass (`finitePass`) or of the run (`finiteRun`)
  overflows.
* Slices are lists.  A read `a[i]` is `List.getD`, a write `a[i] = v` is
  `List.set`; all accesses made by the program are in range on grids whose
  dimensions agree with the capacity vectors.
* `container/list` values are lists of shipments.
* Loops are folds over `List.range`, or structural recursions on the number of
  iterations left; the recursion of `steppingStone` carries explicit fuel.
-/

namespace Transportation

/-! ## Data model (lines 14-26) -/

/-- The record `shipment` of the source. -/
structure shipment where
  quantity : ℚ
  costPerUnit : ℚ
  r : Nat
  c : Nat
deriving DecidableEq

/-- The sentinel `shipZero = shipment{}`: a cell that is not basic. -/
def shipZero : shipment := ⟨0, 0, 0, 0⟩

/-- The record `transport` of the source (the file name plays no role). -/
structure transport where
  supply : List Int
  demand : List Int
  costs : List (List ℚ)
  matrix : List (List shipment)
deriving DecidableEq

/-! ## Machine arithmetic -/

/-- The value of a 64-bit `int` computation whose exact result is `x`. -/
def wrapInt (x : Int) : Int :=
  (x + 9223372036854775808) % 18446744073709551616 - 9223372036854775808

/-- The number of low bits dropped when `n` is cut to 53 significant bits: the
least `k` with `n / 2 ^ k < 2 ^ 53`; `fuel` bounds the search. -/
def shiftCount : Nat → Nat → Nat
  | 0, _ => 0
  | fuel + 1, n => if n < 2 ^ 53 then 0 else shiftCount fuel (n / 2) + 1

/-- The fraction `A / B` rounded to the nearest natural number, ties to even. -/
def nearestEven (A B : Nat) : Nat :=
  if 2 * (A % B) < B then A / B
  else if B < 2 * (A % B) then A / B + 1
  else if (A / B) % 2 = 0 then A / B else A / B + 1

/-- The float64 nearest to the non-negative rational `a`, ties to even.  In
units of `2^-1074` the value `a` is `A / a.den`; its integer part is cut to 53
significant bits by dropping `s` low bits, and the quotient by `2^s` is rounded
to the nearest integer. -/
def roundMag (a : ℚ) : ℚ :=
  let A : Nat := a.num.natAbs * 2 ^ 1074
  let s : Nat := shiftCount (A / a.den) (A / a.den)
  ((nearestEven A (a.den * 2 ^ s) * 2 ^ s : Nat) : ℚ) / 2 ^ 1074

/-- The float64 nearest to the rational `x`, ties to even. -/
def rnd (x : ℚ) : ℚ := if x < 0 then - roundMag (-x) else roundMag x

/-- The float64 sum `x + y`. -/
def fadd (x y : ℚ) : ℚ := rnd (x + y)

/-- The float64 difference `x - y`. -/
def fsub (x y : ℚ) : ℚ := rnd (x - y)

/-- The float64 product `x * y`. -/
def fmul (x y : ℚ) : ℚ := rnd (x * y)

/-- The conversion `float64(n)` of an `int`. -/
def ofInt (n : Int) : ℚ := rnd (n : ℚ)

/-- The function `minOf` (lines 38-43). -/
def minOf (i j : Int) : Int := if i < j then i else j

/-- Read `costs[r][c]`. -/
def costAt (costs : List (List ℚ)) (r c : Nat) : ℚ := (costs.getD r []).getD c 0

/-- Write `costs[r][c] = v`. -/
def setCost (costs : List (List ℚ)) (r c : Nat) (v : ℚ) : List (List ℚ) :=
  costs.set r ((costs.getD r []).set c v)

/-- Read `matrix[r][c]`. -/
def cellAt (m : List (List shipment)) (r c : Nat) : shipment :=
  (m.getD r []).getD c shipZero

/-- Write `matrix[r][c] = v`. -/
def setCell (m : List (List shipment)) (r c : Nat) (v : shipment) : List (List shipment) :=
  m.set r ((m.getD r []).set c v)

/-! ## Balancing and construction (`newTransport`, lines 45-109) -/

/-- The accumulation loops of lines 75-82, in `int` arithmetic. -/
def total (v : List Int) : Int := v.foldl (fun acc x => wrapInt (acc + x)) 0

/-- The balancing step, lines 83-89: a dummy destination or source absorbs the
difference of the totals. -/
def balance (src dst : List Int) : List Int × List Int :=
  let diff := wrapInt (total src - total dst)
  if diff > 0 then (src, dst ++ [diff])
  else if diff < 0 then (src ++ [wrapInt (-diff)], dst)
  else (src, dst)

/-- The loops of lines 101-107: the cost parsed in iteration `(i, j)` is
`input i j`; only the original `numSources x numDests` block is read. -/
def readCosts (input : Nat → Nat → ℚ) (numSources numDests : Nat)
    (costs : List (List ℚ)) : List (List ℚ) :=
  (List.range numSources).foldl
    (fun cs i => (List.range numDests).foldl (fun cs1 j => setCost cs1 i j (input i j)) cs)
    costs

/-- The function `newTransport` after the capacities have been parsed: `src` and
`dst` are the capacity vectors read from the file and `input i j` the cost
entries that follow them. -/
def newTransport (src dst : List Int) (input : Nat → Nat → ℚ) : transport :=
  let b := balance src dst
  { supply := b.1
    demand := b.2
    costs := readCosts input src.length dst.length
      (List.replicate b.1.length (List.replicate b.2.length 0))
    matrix := List.replicate b.1.length (List.replicate b.2.length shipZero) }

/-! ## Northwest-corner rule (lines 111-127) -/

/-- The three assignments of lines 116-118: cell `(r, c)` becomes basic with
`float64(quantity)`, and the quantity is taken from `supply[r]` and
`demand[c]`. -/
def allocate (t : transport) (r c : Nat) (quantity : Int) : transport :=
  { t with
    matrix := setCell t.matrix r c ⟨ofInt quantity, costAt t.costs r c, r, c⟩
    supply := t.supply.set r (t.supply.getD r 0 - quantity)
    demand := t.demand.set c (t.demand.getD c 0 - quantity) }

/-- The inner loop of `northWestCornerRule` for row `r`: `n` iterations are
left, `c` is the current column.  Returns the state and the value of
`northwest` after the loop. -/
def nwInner (r : Nat) : Nat → Nat → Nat → transport → transport × Nat
  | 0, _, northwest, t => (t, northwest)
  | n + 1, c, northwest, t =>
    let quantity := minOf (t.supply.getD r 0) (t.demand.getD c 0)
    if quantity > 0 then
      let t1 := allocate t r c quantity
      if t1.supply.getD r 0 = 0 then (t1, c) else nwInner r n (c + 1) northwest t1
    else nwInner r n (c + 1) northwest t

/-- The outer loop of `northWestCornerRule`: `n` rows are left, `r` is the
current row. -/
def nwOuter : Nat → Nat → Nat → transport → transport
  | 0, _, _, t => t
  | n + 1, r, northwest, t =>
    let res := nwInner r (t.demand.length - northwest) northwest northwest t
    nwOuter n (r + 1) res.2 res.1

/-- The method `northWestCornerRule`. -/
def northWestCornerRule (t : transport) : transport :=
  nwOuter t.supply.length 0 0 t

/-! ## Closed paths (lines 185-245) -/

/-- The method `matrixToList`: the basic cells in row-major order. -/
def matrixToList (m : List (List shipment)) : List shipment :=
  m.flatten.filter (fun s => decide (s ≠ shipZero))

/-- The loop of `getNeighbors` with the array `nbrs` as accumulator. -/
def getNeighborsLoop (s : shipment) : List shipment → shipment × shipment → shipment × shipment
  | [], nbrs => nbrs
  | o :: rest, nbrs =>
    if o ≠ s then
      let nbrs1 : shipment × shipment :=
        if o.r = s.r ∧ nbrs.1 = shipZero then (o, nbrs.2)
        else if o.c = s.c ∧ nbrs.2 = shipZero then (nbrs.1, o)
        else nbrs
      if nbrs1.1 ≠ shipZero ∧ nbrs1.2 ≠ shipZero then nbrs1
      else getNeighborsLoop s rest nbrs1
    else getNeighborsLoop s rest nbrs

/-- The method `getNeighbors`: first component `nbrs[0]` (row), second
component `nbrs[1]` (column). -/
def getNeighbors (s : shipment) (lst : List shipment) : shipment × shipment :=
  getNeighborsLoop s lst (shipZero, shipZero)

/-- One traversal of the list in `getClosedPath` (lines 206-213).  The list at
the moment element `e` is examined is `kept ++ e :: rest`: removals made
earlier in the same traversal are already visible.  Returns the list after the
traversal and the number of removals. -/
def prunePass (kept : List shipment) : List shipment → List shipment × Nat
  | [] => (kept, 0)
  | e :: rest =>
    let nbrs := getNeighbors e (kept ++ e :: rest)
    if nbrs.1 = shipZero ∨ nbrs.2 = shipZero then
      let res := prunePass kept rest
      (res.1, res.2 + 1)
    else prunePass (kept ++ [e]) rest

/-- The loop `for { ... if removals == 0 { break } }` of `getClosedPath`, with
a bound on the number of traversals. -/
def pruneLoop : Nat → List shipment → List shipment
  | 0, path => path
  | fuel + 1, path =>
    let res := prunePass [] path
    if res.2 = 0 then res.1 else pruneLoop fuel res.1

/-- The ordering loop of `getClosedPath` (lines 220-225): `n` entries are left
to fill, `i` is the index, `prev` the entry to store. -/
def orderStones (path : List shipment) : Nat → Nat → shipment → List shipment
  | 0, _, _ => []
  | n + 1, i, prev =>
    prev :: orderStones path n (i + 1)
      (if i % 2 = 0 then (getNeighbors prev path).1 else (getNeighbors prev path).2)

/-- The method `getClosedPath`.  Every traversal that removes something
shortens the list, so `length + 1` traversals always reach the `break`. -/
def getClosedPath (m : List (List shipment)) (s : shipment) : List shipment :=
  let path := pruneLoop ((s :: matrixToList m).length + 1) (s :: matrixToList m)
  orderStones path path.length 0 s

/-! ## Degeneracy repair (lines 247-262) -/

/-- The value of `math.SmallestNonzeroFloat64`. -/
def eps : ℚ := 1 / 2 ^ 1074

/-- The search of `fixDegenerateCase`: the first cell, in row-major order, that
is not basic and whose closed path is empty. -/
def findDegenerateFix (t : transport) : Option shipment :=
  (List.range t.supply.length).findSome? (fun r =>
    (List.range t.demand.length).findSome? (fun c =>
      if cellAt t.matrix r c = shipZero then
        let dummy : shipment := ⟨eps, costAt t.costs r c, r, c⟩
        if (getClosedPath t.matrix dummy).length = 0 then some dummy else none
      else none))

/-- The method `fixDegenerateCase`. -/
def fixDegenerateCase (t : transport) : transport :=
  if (t.supply.length : Int) + t.demand.length - 1 ≠ (matrixToList t.matrix).length then
    match findDegenerateFix t with
    | some dummy => { t with matrix := setCell t.matrix dummy.r dummy.c dummy }
    | none => t
  else t

/-! ## Stepping stone (lines 129-183) -/

/-- The variables of the loop over a path (lines 141-156). -/
structure pathState where
  reduction : ℚ
  lowestQuantity : ℚ
  leavingCandidate : shipment
  plus : Bool

/-- The body of the loop of lines 145-156 for the path entry `s`. -/
def evalStep (st : pathState) (s : shipment) : pathState :=
  if st.plus then
    { st with reduction := fadd st.reduction s.costPerUnit, plus := false }
  else if s.quantity < st.lowestQuantity then
    { reduction := fsub st.reduction s.costPerUnit
      lowestQuantity := s.quantity
      leavingCandidate := s
      plus := true }
  else
    { st with reduction := fsub st.reduction s.costPerUnit, plus := true }

/-- The loop of lines 145-156 over one closed path; `lowestQuantity` starts at
`math.MaxInt32`. -/
def evalPath (path : List shipment) : pathState :=
  path.foldl evalStep ⟨0, 2147483647, shipZero, true⟩

/-- The variables `maxReduction`, `move` and `leaving` of `steppingStone`. -/
structure scanState where
  maxReduction : ℚ
  move : Option (List shipment)
  leaving : shipment

/-- The body of the double loop of lines 134-163 for the cell `(r, c)`. -/
def scanCell (t : transport) (st : scanState) (r c : Nat) : scanState :=
  if cellAt t.matrix r c ≠ shipZero then st
  else
    let trial : shipment := ⟨0, costAt t.costs r c, r, c⟩
    let path := getClosedPath t.matrix trial
    let ev := evalPath path
    if ev.reduction < st.maxReduction then
      { maxReduction := ev.reduction, move := some path, leaving := ev.leavingCandidate }
    else st

/-- The double loop of lines 134-163. -/
def scanCells (t : transport) : scanState :=
  (List.range t.supply.length).foldl
    (fun st r => (List.range t.demand.length).foldl (fun st1 c => scanCell t st1 r c) st)
    ⟨0, none, shipZero⟩

/-- The rotation loop of lines 166-180 along `move` by the amount `q`. -/
def rotate (q : ℚ) (move : List shipment) (m : List (List shipment)) : List (List shipment) :=
  (move.foldl
    (fun (st : List (List shipment) × Bool) s =>
      let s1 : shipment :=
        if st.2 then { s with quantity := fadd s.quantity q }
        else { s with quantity := fsub s.quantity q }
      (if s1.quantity = 0 then setCell st.1 s1.r s1.c shipZero
        else setCell st.1 s1.r s1.c s1, !st.2))
    (m, true)).1

/-- One pass of `steppingStone` up to the recursive call: the grid after the
pass, and whether a rotation was applied (`move != nil`). -/
def steppingStonePass (t : transport) : transport × Bool :=
  let t1 := fixDegenerateCase t
  let sel := scanCells t1
  match sel.move with
  | some move => ({ t1 with matrix := rotate sel.leaving.quantity move t1.matrix }, true)
  | none => (t1, false)

/-- The method `steppingStone`; `none` when the recursion is still running
after `fuel` passes. -/
def steppingStone : Nat → transport → Option transport
  | 0, _ => none
  | fuel + 1, t =>
    let res := steppingStonePass t
    if res.2 then steppingStone fuel res.1 else some res.1

/-! ## Reported quantities (lines 264-288) -/

/-- The accumulation of `totalCosts` in `printResult`. -/
def totalCost (t : transport) : ℚ :=
  (List.range t.supply.length).foldl
    (fun acc r => (List.range t.demand.length).foldl
      (fun acc1 c =>
        let s := cellAt t.matrix r c
        if s ≠ shipZero ∧ s.r = r ∧ s.c = c then fadd acc1 (fmul s.quantity s.costPerUnit)
        else acc1)
      acc)
    0


/-! ## Notions used by the specification -/

/-- The number of basic cells, as `fixDegenerateCase` counts them. -/
def basicCount (m : List (List shipment)) : Nat := (matrixToList m).length

/-- Some other member of `S` lies in the row of `x` and some other member in
its column. -/
def hasMates (S : List shipment) (x : shipment) : Prop :=
  (∃ y ∈ S, y ≠ x ∧ y.r = x.r) ∧ (∃ y ∈ S, y ≠ x ∧ y.c = x.c)

instance hasMatesDecidable (S : List shipment) (x : shipment) : Decidable (hasMates S x) :=
  inferInstanceAs (Decidable ((∃ y ∈ S, y ≠ x ∧ y.r = x.r) ∧ (∃ y ∈ S, y ≠ x ∧ y.c = x.c)))

/-- The cells `B` contain no cycle: there is no non-empty set of them in which
every cell has another cell of the set in its row and another in its column. -/
def noCycle (B : List shipment) : Prop :=
  ∀ S ∈ B.sublists, (∀ x ∈ S, hasMates S x) → S = []

instance noCycleDecidable (B : List shipment) : Decidable (noCycle B) :=
  inferInstanceAs (Decidable (∀ S ∈ B.sublists, (∀ x ∈ S, hasMates S x) → S = []))

/-- Rounding in units of `2^-1074`: the float64 nearest to `M * 2^-1074` is
`roundNat M * 2^-1074`. -/
def roundNat (M : Nat) : Nat :=
  nearestEven M (2 ^ shiftCount M M) * 2 ^ shiftCount M M

/-- A whole quantity: an integer of at least one. -/
def whole (x : ℚ) : Prop := x.den = 1 ∧ 1 ≤ x.num

instance wholeDecidable (x : ℚ) : Decidable (whole x) :=
  inferInstanceAs (Decidable (x.den = 1 ∧ 1 ≤ x.num))

/-- A placeholder quantity: a whole multiple, at most `2^f`, of the smallest
positive float64. -/
def tiny (f : Nat) (x : ℚ) : Prop := whole (x * 2 ^ 1074) ∧ x * 2 ^ 1074 ≤ 2 ^ f

instance tinyDecidable (f : Nat) (x : ℚ) : Decidable (tiny f x) :=
  inferInstanceAs (Decidable (whole (x * 2 ^ 1074) ∧ x * 2 ^ 1074 ≤ 2 ^ f))

/-- A quantity is whole or, when `b` holds, a placeholder. -/
def typed (b : Bool) (f : Nat) (x : ℚ) : Prop := whole x ∨ (b = true ∧ tiny f x)

instance typedDecidable (b : Bool) (f : Nat) (x : ℚ) : Decidable (typed b f x) :=
  inferInstanceAs (Decidable (whole x ∨ (b = true ∧ tiny f x)))

/-- The part of a quantity that counts as allocated: quantities below one are
placeholders. -/
def wholeOf (x : ℚ) : ℚ := if 1 ≤ x then x else 0

/-- The whole quantities of row `r` added up. -/
def wholeRowSum (t : transport) (r : Nat) : ℚ :=
  ((List.range t.demand.length).map (fun c => wholeOf (cellAt t.matrix r c).quantity)).sum

/-- The whole quantities of column `c` added up. -/
def wholeColSum (t : transport) (c : Nat) : ℚ :=
  ((List.range t.supply.length).map (fun r => wholeOf (cellAt t.matrix r c).quantity)).sum

/-- The sum of a capacity vector as an integer, without wrap-around. -/
def exactTotal (v : List Int) : Int := v.sum

/-- The quantity a cell contributes to a sum over basic cells. -/
def basicQuantity (s : shipment) : ℚ := if s ≠ shipZero then s.quantity else 0

/-- The sum of the quantities of the basic cells of row `r`. -/
def rowSum (t : transport) (r : Nat) : ℚ :=
  ((List.range t.demand.length).map (fun c => basicQuantity (cellAt t.matrix r c))).sum

/-- The sum of the quantities of the basic cells of column `c`. -/
def colSum (t : transport) (c : Nat) : ℚ :=
  ((List.range t.supply.length).map (fun r => basicQuantity (cellAt t.matrix r c))).sum

/-- The sum of the quantities of all basic cells. -/
def allocated (t : transport) : ℚ :=
  ((List.range t.supply.length).map (fun r => rowSum t r)).sum

/-- The grid of `t` has one row per supply entry and one cell per demand entry
in each row. -/
def gridShaped (t : transport) : Prop :=
  t.matrix.length = t.supply.length ∧
    ∀ r, r < t.supply.length → (t.matrix.getD r []).length = t.demand.length

instance gridShapedDecidable (t : transport) : Decidable (gridShaped t) :=
  inferInstanceAs (Decidable (t.matrix.length = t.supply.length ∧
    ∀ r, r < t.supply.length → (t.matrix.getD r []).length = t.demand.length))

/-- Every supply entry, or every demand entry, is at most `2^53`, so that every
quantity the northwest-corner rule allocates is converted to `float64` without
rounding. -/
def capped (t : transport) : Prop :=
  (∀ x ∈ t.supply, x ≤ 9007199254740992) ∨ (∀ x ∈ t.demand, x ≤ 9007199254740992)

instance cappedDecidable (t : transport) : Decidable (capped t) :=
  inferInstanceAs (Decidable ((∀ x ∈ t.supply, x ≤ 9007199254740992) ∨
    (∀ x ∈ t.demand, x ≤ 9007199254740992)))

/-- What `northWestCornerRule` maintains between the state `t0` it starts from
and every later state `t`: the shape of the grid, non-negative remaining
capacities that do not exceed the original ones, balance of the remaining
capacities, and, when the capacities of `t0` are capped, for every row and
column the allocated quantity plus the remaining capacity equals the original
one, and every basic quantity is whole. -/
structure nwInv (t0 t : transport) : Prop where
  supply_len : t.supply.length = t0.supply.length
  demand_len : t.demand.length = t0.demand.length
  rows : t.matrix.length = t0.supply.length
  cols : ∀ r, r < t0.supply.length → (t.matrix.getD r []).length = t0.demand.length
  supply_nonneg : ∀ r, 0 ≤ t.supply.getD r 0
  demand_nonneg : ∀ c, 0 ≤ t.demand.getD c 0
  supply_le : ∀ r, t.supply.getD r 0 ≤ t0.supply.getD r 0
  demand_le : ∀ c, t.demand.getD c 0 ≤ t0.demand.getD c 0
  row_sum : capped t0 → ∀ r, r < t0.supply.length →
    rowSum t r + (t.supply.getD r 0 : ℚ) = (t0.supply.getD r 0 : ℚ)
  col_sum : capped t0 → ∀ c, c < t0.demand.length →
    colSum t c + (t.demand.getD c 0 : ℚ) = (t0.demand.getD c 0 : ℚ)
  cell_whole : capped t0 → ∀ r c, cellAt t.matrix r c = shipZero ∨
    whole (cellAt t.matrix r c).quantity
  balanced : exactTotal t.supply = exactTotal t.demand

/-- In the set `S` every member has another member with the same value of `f`
and another with the same value of `g` (for cells: another cell in its row and
another in its column). -/
def closedIn {α : Type} (f g : α → Nat) (S : Finset α) : Prop :=
  ∀ x ∈ S, (∃ y ∈ S, y ≠ x ∧ f y = f x) ∧ (∃ y ∈ S, y ≠ x ∧ g y = g x)

/-- The set `X` contains no cycle: its only closed subset is the empty one. -/
def forestIn {α : Type} (f g : α → Nat) (X : Finset α) : Prop :=
  ∀ S, S ⊆ X → closedIn f g S → S = ∅

/-- The position recorded in a shipment. -/
def position (s : shipment) : Nat × Nat := (s.r, s.c)

/-- The positions of the basic cells of a grid. -/
def basicPositions (m : List (List shipment)) : Finset (Nat × Nat) :=
  ((matrixToList m).map position).toFinset

/-- The basic cells of the grid contain no cycle. -/
def acyclic (m : List (List shipment)) : Prop :=
  forestIn Prod.fst Prod.snd (basicPositions m)

/-- The entry that the ordering loop of `getClosedPath` stores at index `i` when
it starts from `s`: rows are followed from even indices, columns from odd
ones. -/
def walk (path : List shipment) (s : shipment) : Nat → shipment
  | 0 => s
  | i + 1 =>
    if i % 2 = 0 then (getNeighbors (walk path s i) path).1
    else (getNeighbors (walk path s i) path).2

/-- The situation after the pruning of `getClosedPath` when the candidate `s`
has survived: `P` is the pruned list, `X` the cells it was pruned from other
than the candidate. -/
structure cycleData (P : List shipment) (s : shipment) (X : Finset shipment) : Prop where
  nodup : P.Nodup
  mem_s : s ∈ P
  sub : ∀ x ∈ P, x = s ∨ x ∈ X
  forest : forestIn (fun x : shipment => x.r) (fun x : shipment => x.c) X
  inj : ∀ x y, x ∈ P → y ∈ P → x.r = y.r → x.c = y.c → x = y
  fixed : ∀ e ∈ P, (getNeighbors e P).1 ≠ shipZero ∧ (getNeighbors e P).2 ≠ shipZero

/-- The value that the rotation loop stores for the path entry `s`: its
quantity is raised (`plus`) or lowered by `q`, and a cell left with quantity
zero becomes the sentinel. -/
def rotated (q : ℚ) (plus : Bool) (s : shipment) : shipment :=
  if (if plus then fadd s.quantity q else fsub s.quantity q) = 0 then shipZero
  else { s with quantity := if plus then fadd s.quantity q else fsub s.quantity q }

/-- The rotation loop as a recursion on the path: the state is the matrix and
the flag `plus`. -/
def rotateFrom (q : ℚ) : Bool → List shipment → List (List shipment) → List (List shipment)
  | _, [], m => m
  | plus, s :: rest, m => rotateFrom q (!plus) rest (setCell m s.r s.c (rotated q plus s))

/-- The alternating sum of `g` along a path: entries in a plus role count
positively, entries in a minus role negatively. -/
def signedCount (g : shipment → ℚ) : Bool → List shipment → ℚ
  | _, [] => 0
  | plus, s :: rest => (if plus then g s else - g s) + signedCount g (!plus) rest

/-- The rotation by `q` changes the measure `μ` of every entry of the path by
`δ`: upwards for an entry in a plus role, downwards for one in a minus role. -/
def stepsBy (μ : shipment → ℚ) (q δ : ℚ) : Bool → List shipment → Prop
  | _, [] => True
  | plus, s :: rest =>
    μ (rotated q plus s) = μ s + (if plus then δ else - δ) ∧ stepsBy μ q δ (!plus) rest

/-- What the scan of `steppingStone` has found: nothing, or the closed path of a
cell of the grid that is not basic, with a negative net delta, together with
the leaving cell of that path. -/
def selected (t : transport) (st : scanState) : Prop :=
  st.move = none ∨
    ∃ r c, r < t.supply.length ∧ c < t.demand.length ∧ cellAt t.matrix r c = shipZero ∧
      st.move = some (getClosedPath t.matrix ⟨0, costAt t.costs r c, r, c⟩) ∧
      st.leaving
        = (evalPath (getClosedPath t.matrix ⟨0, costAt t.costs r c, r, c⟩)).leavingCandidate ∧
      (evalPath (getClosedPath t.matrix ⟨0, costAt t.costs r c, r, c⟩)).reduction < 0

/-- Every basic cell of the grid records its own row and column. -/
def wellFormed (m : List (List shipment)) : Prop :=
  ∀ r, r < m.length → ∀ c, c < (m.getD r []).length →
    cellAt m r c = shipZero ∨ ((cellAt m r c).r = r ∧ (cellAt m r c).c = c)

instance wellFormedDecidable (m : List (List shipment)) : Decidable (wellFormed m) :=
  inferInstanceAs (Decidable (∀ r, r < m.length → ∀ c, c < (m.getD r []).length →
    cellAt m r c = shipZero ∨ ((cellAt m r c).r = r ∧ (cellAt m r c).c = c)))

/-- The grid of a basic solution: it has the dimensions of the capacity
vectors, its basic cells record their own position, hold positive quantities
and contain no cycle. -/
structure basisInv (t : transport) : Prop where
  shaped : gridShaped t
  wf : wellFormed t.matrix
  pos : ∀ x ∈ matrixToList t.matrix, 0 < x.quantity
  acyc : acyclic t.matrix

/-- A basic solution in float64: the grid has the dimensions of the capacity
vectors, its basic cells record their own position and contain no cycle, every
basic quantity is whole or, when `b` holds, a placeholder of at most `2^f`
times the smallest positive float64, and the whole quantities of a row add up
to at most `2^53`. -/
structure typedInv (b : Bool) (f : Nat) (t : transport) : Prop where
  shaped : gridShaped t
  wf : wellFormed t.matrix
  typed : ∀ x ∈ matrixToList t.matrix, typed b f x.quantity
  acyc : acyclic t.matrix
  row_cap : ∀ r, r < t.supply.length → wholeRowSum t r ≤ 2 ^ 53

/-- What the stepping-stone phase maintains with respect to the original
capacities `sup` and `dem`: a basic solution in float64 in which the whole
quantities of every row and column add up to the original capacity. -/
structure ssInv (sup dem : List Int) (b : Bool) (f : Nat) (t : transport) : Prop where
  supply_len : t.supply.length = sup.length
  demand_len : t.demand.length = dem.length
  inv : typedInv b f t
  row_sum : ∀ r, r < sup.length → wholeRowSum t r = (sup.getD r 0 : ℚ)
  col_sum : ∀ c, c < dem.length → wholeColSum t c = (dem.getD c 0 : ℚ)

/-- The shape of the grid while `northWestCornerRule` runs, with the cursor at
row `rb` and column `cb`: every basic cell records its position and holds a
positive quantity, lies weakly above and to the left of the cursor, and the
basic cells form a staircase. -/
structure nwShape (t : transport) (rb cb : Nat) : Prop where
  cell : ∀ r c, cellAt t.matrix r c = shipZero ∨
    ((cellAt t.matrix r c).r = r ∧ (cellAt t.matrix r c).c = c ∧
      0 < (cellAt t.matrix r c).quantity)
  bound : ∀ r c, cellAt t.matrix r c ≠ shipZero → r ≤ rb ∧ c ≤ cb
  mono : ∀ r1 c1 r2 c2, cellAt t.matrix r1 c1 ≠ shipZero → cellAt t.matrix r2 c2 ≠ shipZero →
    r1 < r2 → c1 ≤ c2

/-- Cell `(r1, c1)` comes before cell `(r2, c2)` in row-major order. -/
def precedes (r1 c1 r2 c2 : Nat) : Prop := r1 < r2 ∨ (r1 = r2 ∧ c1 < c2)

instance precedesDecidable (r1 c1 r2 c2 : Nat) : Decidable (precedes r1 c1 r2 c2) :=
  inferInstanceAs (Decidable (r1 < r2 ∨ (r1 = r2 ∧ c1 < c2)))

/-- Cell `(r, c)` is not basic and the closed path of its candidate with the
infinitesimal quantity is empty. -/
def repairable (t : transport) (r c : Nat) : Prop :=
  cellAt t.matrix r c = shipZero ∧
    getClosedPath t.matrix ⟨eps, costAt t.costs r c, r, c⟩ = []

instance repairableDecidable (t : transport) (r c : Nat) : Decidable (repairable t r c) :=
  inferInstanceAs (Decidable (cellAt t.matrix r c = shipZero ∧
    getClosedPath t.matrix ⟨eps, costAt t.costs r c, r, c⟩ = []))

/-- The net delta of a path: the unit costs of the entries at even positions
(plus role) minus the unit costs of the entries at odd positions (minus
role). -/
def netDelta (path : List shipment) : ℚ :=
  signedCount (fun s => s.costPerUnit) true path

/-- The closed path that `steppingStone` computes for the cell `(r, c)`. -/
def candidatePath (t : transport) (r c : Nat) : List shipment :=
  getClosedPath t.matrix ⟨0, costAt t.costs r c, r, c⟩

/-- The net delta of a path accumulated from left to right in float64,
starting from `acc`: a unit cost is added in a plus role and subtracted in a
minus role, and every intermediate result is rounded. -/
def deltaFrom : ℚ → Bool → List shipment → ℚ
  | acc, _, [] => acc
  | acc, plus, s :: rest =>
    deltaFrom (if plus then fadd acc s.costPerUnit else fsub acc s.costPerUnit) (!plus) rest

/-- The net delta of a path in float64 arithmetic. -/
def floatDelta (path : List shipment) : ℚ := deltaFrom 0 true path

/-- No step of the float64 accumulation of the net delta overflows: every
exact sum or difference stays below `2^1023` in magnitude. -/
def finiteFrom : ℚ → Bool → List shipment → Bool
  | _, _, [] => true
  | acc, plus, s :: rest =>
    decide (|if plus then acc + s.costPerUnit else acc - s.costPerUnit| < 2 ^ 1023) &&
      finiteFrom (if plus then fadd acc s.costPerUnit else fsub acc s.costPerUnit) (!plus) rest

/-- No float64 operation of the pass of `steppingStone` that starts from `t`
overflows: neither the accumulation of a net delta nor an addition or
subtraction of the rotation. -/
def finitePass (t : transport) : Bool :=
  (List.range (fixDegenerateCase t).supply.length).all (fun r =>
    (List.range (fixDegenerateCase t).demand.length).all (fun c =>
      decide (cellAt (fixDegenerateCase t).matrix r c ≠ shipZero) ||
        finiteFrom 0 true (candidatePath (fixDegenerateCase t) r c))) &&
  match (scanCells (fixDegenerateCase t)).move with
  | some move =>
    move.all (fun s =>
      decide (|s.quantity| + |(scanCells (fixDegenerateCase t)).leaving.quantity| < 2 ^ 1023))
  | none => true

/-- No float64 operation of the first `fuel` passes of `steppingStone` from `t`
overflows. -/
def finiteRun : Nat → transport → Bool
  | 0, _ => true
  | fuel + 1, t =>
    finitePass t &&
      (if (steppingStonePass t).2 then finiteRun fuel (steppingStonePass t).1 else true)

/-- What the scan of `steppingStone` holds after the cells in `P` have been
examined: nothing, when no non-basic cell in `P` has a negative net delta, or
the closed path of the first non-basic cell in `P` with the least net delta;
the net deltas are the float64 ones. -/
def scanBest (t : transport) (P : Nat → Nat → Prop) (st : scanState) : Prop :=
  (st.move = none ∧ st.maxReduction = 0 ∧
      ∀ r c, P r c → cellAt t.matrix r c = shipZero → 0 ≤ floatDelta (candidatePath t r c)) ∨
    ∃ r0 c0, P r0 c0 ∧ cellAt t.matrix r0 c0 = shipZero ∧
      st.move = some (candidatePath t r0 c0) ∧
      st.leaving = (evalPath (candidatePath t r0 c0)).leavingCandidate ∧
      st.maxReduction = floatDelta (candidatePath t r0 c0) ∧
      floatDelta (candidatePath t r0 c0) < 0 ∧
      (∀ r c, P r c → cellAt t.matrix r c = shipZero →
        floatDelta (candidatePath t r0 c0) ≤ floatDelta (candidatePath t r c)) ∧
      ∀ r c, P r c → cellAt t.matrix r c = shipZero → precedes r c r0 c0 →
        floatDelta (candidatePath t r0 c0) < floatDelta (candidatePath t r c)

/-- What `northWestCornerRule` maintains on arbitrary capacities, between the
state `t0` it starts from and a later state `t` with the cursor at row `rb` and
column `cb`: the dimensions, the costs, basic cells that record their position
and cost and hold positive quantities, the staircase, and either all basic
cells weakly above and to the left of the cursor or no positive demand left at
all. -/
structure nwStair (t0 t : transport) (rb cb : Nat) : Prop where
  supply_len : t.supply.length = t0.supply.length
  demand_len : t.demand.length = t0.demand.length
  rows : t.matrix.length = t0.supply.length
  cols : ∀ r, r < t0.supply.length → (t.matrix.getD r []).length = t0.demand.length
  costs : t.costs = t0.costs
  cell : ∀ r c, cellAt t.matrix r c = shipZero ∨
    ((cellAt t.matrix r c).r = r ∧ (cellAt t.matrix r c).c = c ∧
      0 < (cellAt t.matrix r c).quantity ∧
      (cellAt t.matrix r c).costPerUnit = costAt t0.costs r c)
  mono : ∀ r1 c1 r2 c2, cellAt t.matrix r1 c1 ≠ shipZero → cellAt t.matrix r2 c2 ≠ shipZero →
    r1 < r2 → c1 ≤ c2
  bound : (∀ r c, cellAt t.matrix r c ≠ shipZero → r ≤ rb ∧ c ≤ cb) ∨
    ∀ j, t.demand.getD j 0 ≤ 0

/-- The grids on which the program calls `getClosedPath`: the grid that the
northwest-corner rule leaves on the transport built from any input, the grid
after `fixDegenerateCase`, and the grid after the rotation loop has run along
the closed path of a non-basic cell by the quantity of the leaving cell of that
path (the path that `steppingStone` rotates is the closed path of such a
cell). -/
inductive programGrid : transport → Prop
  | start (src dst : List Int) (input : Nat → Nat → ℚ) :
    programGrid (northWestCornerRule (newTransport src dst input))
  | repair (t : transport) : programGrid t → programGrid (fixDegenerateCase t)
  | rotation (t : transport) (r c : Nat) : programGrid t → r < t.supply.length →
    c < t.demand.length → cellAt t.matrix r c = shipZero → candidatePath t r c ≠ [] →
    programGrid
      { t with
        matrix := rotate (evalPath (candidatePath t r c)).leavingCandidate.quantity
          (candidatePath t r c) t.matrix }

/-! ## Instances -/

/-- One source and one destination of capacity `2^53 + 1`, cost `1`, no basic
cell. -/
def bigScenario : transport :=
  newTransport [9007199254740993] [9007199254740993] (fun _ _ => 1)

/-- The cost block `[[3,1],[2,4]]` of the concrete scenario. -/
def scenarioCosts : Nat → Nat → ℚ := fun i j => costAt [[3, 1], [2, 4]] i j

/-- The concrete scenario: supplies `[300,400]`, demands `[250,450]`. -/
def scenario : transport := newTransport [300, 400] [250, 450] scenarioCosts

/-- The concrete scenario with every capacity multiplied by ten million. -/
def largeScenario : transport :=
  newTransport [3000000000, 4000000000] [2500000000, 4500000000] scenarioCosts

/-- The scenario capacities with the cost block `[[0,0],[0,10]]`. -/
def originScenario : transport :=
  newTransport [300, 400] [250, 450] (fun i j => costAt [[0, 0], [0, 10]] i j)

/-- Two sources and two destinations of capacity one, unit costs one. -/
def squareScenario : transport := newTransport [1, 1] [1, 1] (fun _ _ => 1)

/-- A source of capacity one and a source of capacity zero serving one
destination of capacity one, unit costs one. -/
def idleScenario : transport := newTransport [1, 0] [1] (fun _ _ => 1)

/-- The scenario capacities with the cost block `0.4 0.5 / 0 0.1`: the entries
are the float64 values that `strconv.ParseFloat` returns for these numerals. -/
def roundingScenario : transport :=
  newTransport [300, 400] [250, 450]
    (fun i j => costAt [[3602879701896397 / 9007199254740992, 1 / 2],
      [0, 3602879701896397 / 36028797018963968]] i j)

/-- Supplies `[1,3]` against demands `[4,3]` with the cost block `2 2 / 3 1`;
the balancing step adds a dummy source of capacity three. -/
def placeholderScenario : transport :=
  newTransport [1, 3] [4, 3] (fun i j => costAt [[2, 2], [3, 1]] i j)

/-- Three sources and three destinations of capacity one, unit costs one. -/
def diagonalScenario : transport := newTransport [1, 1, 1] [1, 1, 1] (fun _ _ => 1)

/-! ## Lists of lists as grids -/

theorem getD_getD_set_set {α : Type} (d : α) (m : List (List α)) (r c r1 c1 : Nat) (v : α) :
    ((m.set r ((m.getD r []).set c v)).getD r1 []).getD c1 d =
      if r1 = r ∧ c1 = c ∧ r < m.length ∧ c < (m.getD r []).length then v
      else (m.getD r1 []).getD c1 d := by
  simp only [List.getD_eq_getElem?_getD, List.getElem?_set]
  by_cases hr : r = r1
  · subst hr
    by_cases hlt : r < m.length
    · simp only [hlt, if_true, Option.getD_some, List.getElem?_set, List.length_set, true_and]
      by_cases hc : c = c1
      · subst hc
        by_cases hcl : c < (m[r]?.getD []).length
        · simp [hcl]
        · have hnone : (m[r]?.getD [])[c]? = none :=
            List.getElem?_eq_none (Nat.le_of_not_lt hcl)
          simp [hcl, hnone]
      · have hc1 : ¬ c1 = c := fun h => hc h.symm
        simp [hc, hc1]
    · have hnone : m[r]? = none := List.getElem?_eq_none (Nat.le_of_not_lt hlt)
      simp [hlt, hnone]
  · have hr1 : ¬ r1 = r := fun h => hr h.symm
    simp [hr, hr1]

theorem length_getD_set_set {α : Type} (m : List (List α)) (r c r1 : Nat) (v : α) :
    ((m.set r ((m.getD r []).set c v)).getD r1 []).length = (m.getD r1 []).length := by
  simp only [List.getD_eq_getElem?_getD, List.getElem?_set]
  by_cases hr : r = r1
  · subst hr
    by_cases hlt : r < m.length
    · simp [hlt]
    · have hnone : m[r]? = none := List.getElem?_eq_none (Nat.le_of_not_lt hlt)
      simp [hlt, hnone]
  · simp [hr]

theorem costAt_setCost (cs : List (List ℚ)) (r c r1 c1 : Nat) (v : ℚ) :
    costAt (setCost cs r c v) r1 c1 =
      if r1 = r ∧ c1 = c ∧ r < cs.length ∧ c < (cs.getD r []).length then v
      else costAt cs r1 c1 :=
  getD_getD_set_set 0 cs r c r1 c1 v

theorem cellAt_setCell (m : List (List shipment)) (r c r1 c1 : Nat) (v : shipment) :
    cellAt (setCell m r c v) r1 c1 =
      if r1 = r ∧ c1 = c ∧ r < m.length ∧ c < (m.getD r []).length then v
      else cellAt m r1 c1 :=
  getD_getD_set_set shipZero m r c r1 c1 v

theorem length_setCost (cs : List (List ℚ)) (r c : Nat) (v : ℚ) :
    (setCost cs r c v).length = cs.length := by
  simp [setCost]

theorem length_setCell (m : List (List shipment)) (r c : Nat) (v : shipment) :
    (setCell m r c v).length = m.length := by
  simp [setCell]

theorem rowLength_setCost (cs : List (List ℚ)) (r c r1 : Nat) (v : ℚ) :
    ((setCost cs r c v).getD r1 []).length = (cs.getD r1 []).length :=
  length_getD_set_set cs r c r1 v

theorem rowLength_setCell (m : List (List shipment)) (r c r1 : Nat) (v : shipment) :
    ((setCell m r c v).getD r1 []).length = (m.getD r1 []).length :=
  length_getD_set_set m r c r1 v

/-! ## Wrap-around of `int` -/

theorem wrapInt_of_range (x : Int) (h1 : -9223372036854775808 ≤ x)
    (h2 : x < 9223372036854775808) : wrapInt x = x := by
  unfold wrapInt
  omega

theorem wrapInt_zero : wrapInt 0 = 0 := by decide

theorem wrapInt_add (a b : Int) : wrapInt (wrapInt a + b) = wrapInt (a + b) := by
  unfold wrapInt
  omega

theorem wrapInt_sub (a b : Int) : wrapInt (wrapInt a - wrapInt b) = wrapInt (a - b) := by
  unfold wrapInt
  omega

theorem wrapInt_neg (a : Int) : wrapInt (- wrapInt a) = wrapInt (- a) := by
  unfold wrapInt
  omega

theorem wrapInt_idem (a : Int) : wrapInt (wrapInt a) = wrapInt a := by
  unfold wrapInt
  omega

theorem foldl_wrapInt (l : List Int) :
    ∀ acc, l.foldl (fun a x => wrapInt (a + x)) (wrapInt acc) = wrapInt (acc + l.sum) := by
  induction l with
  | nil => intro acc; simp
  | cons x xs ih =>
    intro acc
    rw [List.foldl_cons, ih, List.sum_cons, Int.add_assoc, wrapInt_add]

/-- The accumulation loop computes the sum modulo `2^64`. -/
theorem total_eq_wrapInt (l : List Int) : total l = wrapInt (exactTotal l) := by
  unfold total exactTotal
  have := foldl_wrapInt l 0
  rw [wrapInt_zero, Int.zero_add] at this
  exact this

/-! ## Rounding to float64 -/

theorem shiftCount_spec (fuel : Nat) :
    ∀ n, n < 2 ^ 53 * 2 ^ fuel →
      n / 2 ^ shiftCount fuel n < 2 ^ 53 ∧
      ∀ k, k < shiftCount fuel n → 2 ^ 53 ≤ n / 2 ^ k := by
  induction fuel with
  | zero =>
    intro n hn
    simp only [shiftCount]
    refine ⟨by simpa using hn, ?_⟩
    intro k hk
    omega
  | succ fuel ih =>
    intro n hn
    by_cases h : n < 2 ^ 53
    · simp only [shiftCount, h, if_true]
      refine ⟨by simpa using h, ?_⟩
      intro k hk
      omega
    · simp only [shiftCount, h, if_false]
      have hn2 : n / 2 < 2 ^ 53 * 2 ^ fuel := by
        rw [Nat.div_lt_iff_lt_mul (by norm_num)]
        calc n < 2 ^ 53 * 2 ^ (fuel + 1) := hn
          _ = 2 ^ 53 * 2 ^ fuel * 2 := by ring
      obtain ⟨h1, h2⟩ := ih (n / 2) hn2
      have e : ∀ j, n / 2 ^ (j + 1) = n / 2 / 2 ^ j := by
        intro j
        rw [Nat.div_div_eq_div_mul, Nat.pow_succ, Nat.mul_comm]
      refine ⟨?_, ?_⟩
      · rw [e]
        exact h1
      · intro k hk
        cases k with
        | zero => simpa using Nat.le_of_not_lt h
        | succ k =>
          rw [e]
          exact h2 k (by omega)

theorem lt_two_pow_mul (n : Nat) : n < 2 ^ 53 * 2 ^ n := by
  have h1 : n < 2 ^ n := Nat.lt_two_pow n
  have h2 : 0 < 2 ^ 53 := by positivity
  nlinarith

theorem shiftCount_self (n : Nat) :
    n / 2 ^ shiftCount n n < 2 ^ 53 ∧ ∀ k, k < shiftCount n n → 2 ^ 53 ≤ n / 2 ^ k :=
  shiftCount_spec n n (lt_two_pow_mul n)

theorem div_pow_anti (n j k : Nat) (h : j ≤ k) : n / 2 ^ k ≤ n / 2 ^ j :=
  Nat.div_le_div_left (Nat.pow_le_pow_right (by norm_num) h) (by positivity)

theorem shiftCount_le (n k : Nat) (h : n / 2 ^ k < 2 ^ 53) : shiftCount n n ≤ k := by
  by_contra hlt
  have := (shiftCount_self n).2 k (by omega)
  omega

theorem le_shiftCount (n k : Nat) (h : 2 ^ 53 ≤ n / 2 ^ k) : k + 1 ≤ shiftCount n n := by
  by_contra hlt
  have h1 := (shiftCount_self n).1
  have h2 := div_pow_anti n (shiftCount n n) k (by omega)
  omega

theorem nearestEven_of_dvd (A B : Nat) (hB : 0 < B) (h : B ∣ A) : nearestEven A B = A / B := by
  unfold nearestEven
  rw [Nat.mod_eq_zero_of_dvd h]
  simp [hB]

theorem nearestEven_mul_right (A B d : Nat) (hd : 0 < d) :
    nearestEven (A * d) (B * d) = nearestEven A B := by
  unfold nearestEven
  rw [Nat.mul_div_mul_right _ _ hd, Nat.mul_mod_mul_right]
  have e1 : 2 * (A % B * d) < B * d ↔ 2 * (A % B) < B := by
    constructor
    · intro h
      by_contra hc
      have : B * d ≤ 2 * (A % B) * d := Nat.mul_le_mul_right d (by omega)
      nlinarith
    · intro h
      have : 2 * (A % B) * d < B * d := Nat.mul_lt_mul_of_pos_right h hd
      nlinarith
  have e2 : B * d < 2 * (A % B * d) ↔ B < 2 * (A % B) := by
    constructor
    · intro h
      by_contra hc
      have : 2 * (A % B) * d ≤ B * d := Nat.mul_le_mul_right d (by omega)
      nlinarith
    · intro h
      have : B * d < 2 * (A % B) * d := Nat.mul_lt_mul_of_pos_right h hd
      nlinarith
  simp only [e1, e2]

/-- A multiple of `2^k` with at most 53 significant bits is kept. -/
theorem roundNat_of_dvd (M s : Nat) (hs : shiftCount M M = s) (h : 2 ^ s ∣ M) :
    roundNat M = M := by
  unfold roundNat
  rw [hs, nearestEven_of_dvd M _ (by positivity) h]
  exact Nat.div_mul_cancel h

theorem roundNat_representable (v k : Nat) (hv : v < 2 ^ 53) : roundNat (v * 2 ^ k) = v * 2 ^ k := by
  have hle : shiftCount (v * 2 ^ k) (v * 2 ^ k) ≤ k := by
    apply shiftCount_le
    rw [Nat.mul_div_cancel _ (by positivity)]
    exact hv
  apply roundNat_of_dvd _ _ rfl
  exact Dvd.dvd.mul_left (pow_dvd_pow 2 hle) v

theorem nearestEven_add (q B j : Nat) (hj : 2 * j < B) : nearestEven (q * B + j) B = q := by
  have hB : 0 < B := by omega
  have hjB : j < B := by omega
  have h1 : (q * B + j) / B = q := by
    rw [Nat.add_comm, Nat.add_mul_div_right _ _ hB, Nat.div_eq_of_lt hjB, Nat.zero_add]
  have h2 : (q * B + j) % B = j := by
    rw [Nat.add_comm, Nat.add_mul_mod_self_right, Nat.mod_eq_of_lt hjB]
  unfold nearestEven
  rw [h1, h2, if_pos hj]

theorem nearestEven_sub (q B j : Nat) (hq : 1 ≤ q) (hj1 : 1 ≤ j) (hj : 2 * j < B) :
    nearestEven (q * B - j) B = q := by
  have hB : 0 < B := by omega
  obtain ⟨p, rfl⟩ : ∃ p, q = p + 1 := ⟨q - 1, by omega⟩
  have e : (p + 1) * B - j = p * B + (B - j) := by
    have : (p + 1) * B = p * B + B := by ring
    omega
  have hlt : B - j < B := by omega
  have h1 : (p * B + (B - j)) / B = p := by
    rw [Nat.add_comm, Nat.add_mul_div_right _ _ hB, Nat.div_eq_of_lt hlt, Nat.zero_add]
  have h2 : (p * B + (B - j)) % B = B - j := by
    rw [Nat.add_comm, Nat.add_mul_mod_self_right, Nat.mod_eq_of_lt hlt]
  unfold nearestEven
  rw [e, h1, h2, if_neg (by omega), if_pos (by omega)]

theorem two_pow_split (a b : Nat) : 2 ^ (a + b) = 2 ^ a * 2 ^ b := pow_add 2 a b

/-- A whole number of at most `2^53` units keeps its value when fewer than
`2^1020` units of `2^-1074` are added. -/
theorem roundNat_absorb_add (n j : Nat) (hn1 : 1 ≤ n) (hn : n ≤ 2 ^ 53) (hj : j < 2 ^ 1020) :
    roundNat (n * 2 ^ 1074 + j) = n * 2 ^ 1074 := by
  have hj' : j < 2 ^ 1074 := lt_of_lt_of_le hj (Nat.pow_le_pow_right (by norm_num) (by norm_num))
  have hdiv : (n * 2 ^ 1074 + j) / 2 ^ 1074 = n := by
    rw [Nat.add_comm, Nat.add_mul_div_right _ _ (by positivity), Nat.div_eq_of_lt hj',
      Nat.zero_add]
  have hlow : 1022 ≤ shiftCount (n * 2 ^ 1074 + j) (n * 2 ^ 1074 + j) := by
    apply le_shiftCount _ 1021
    rw [Nat.le_div_iff_mul_le (by positivity)]
    have e : 2 ^ 53 * 2 ^ 1021 = 1 * 2 ^ 1074 := by rw [← two_pow_split]; norm_num
    rw [e]
    have : 1 * 2 ^ 1074 ≤ n * 2 ^ 1074 := Nat.mul_le_mul_right _ hn1
    omega
  have hhigh : shiftCount (n * 2 ^ 1074 + j) (n * 2 ^ 1074 + j) ≤ 1075 := by
    apply shiftCount_le
    rw [Nat.div_lt_iff_lt_mul (by positivity)]
    have e : 2 ^ 53 * 2 ^ 1075 = 2 ^ 53 * 2 ^ 1074 + 2 ^ 53 * 2 ^ 1074 := by
      have : (2 : Nat) ^ 1075 = 2 ^ 1074 * 2 := pow_succ 2 1074
      rw [this]
      ring
    have h1 : n * 2 ^ 1074 ≤ 2 ^ 53 * 2 ^ 1074 := Nat.mul_le_mul_right _ hn
    have h2 : (2 : Nat) ^ 1074 ≤ 2 ^ 53 * 2 ^ 1074 := Nat.le_mul_of_pos_left _ (by positivity)
    omega
  generalize hs : shiftCount (n * 2 ^ 1074 + j) (n * 2 ^ 1074 + j) = s at hlow hhigh
  have hdvd : 2 ^ s ∣ n * 2 ^ 1074 := by
    by_cases h : s ≤ 1074
    · exact Dvd.dvd.mul_left (pow_dvd_pow 2 h) n
    · have hs1 : s = 1075 := by omega
      have := (shiftCount_self (n * 2 ^ 1074 + j)).2 1074 (by rw [hs]; omega)
      rw [hdiv] at this
      have hn2 : n = 2 ^ 53 := by omega
      rw [hs1, hn2, ← two_pow_split]
      exact pow_dvd_pow 2 (by norm_num)
  obtain ⟨q, hq⟩ := hdvd
  have h2j : 2 * j < 2 ^ s := by
    have : (2 : Nat) ^ 1022 ≤ 2 ^ s := Nat.pow_le_pow_right (by norm_num) hlow
    have e : (2 : Nat) ^ 1022 = 2 ^ 1020 * 4 := by rw [two_pow_split 1020 2]; norm_num
    omega
  unfold roundNat
  rw [hs, hq, Nat.mul_comm (2 ^ s) q, nearestEven_add q _ j h2j]

/-- A whole number of at most `2^53` units keeps its value when fewer than
`2^1020` units of `2^-1074` are taken away. -/
theorem roundNat_absorb_sub (n j : Nat) (hn1 : 1 ≤ n) (hn : n ≤ 2 ^ 53) (hj1 : 1 ≤ j)
    (hj : j < 2 ^ 1020) :
    roundNat (n * 2 ^ 1074 - j) = n * 2 ^ 1074 := by
  have hW : 1 * 2 ^ 1074 ≤ n * 2 ^ 1074 := Nat.mul_le_mul_right _ hn1
  have e1020 : (2 : Nat) ^ 1074 = 2 ^ 1020 * 2 ^ 54 := by rw [← two_pow_split]
  have h54 : (2 : Nat) ^ 54 = 2 ^ 53 * 2 := pow_succ 2 53
  have hlow : 1021 ≤ shiftCount (n * 2 ^ 1074 - j) (n * 2 ^ 1074 - j) := by
    apply le_shiftCount _ 1020
    rw [Nat.le_div_iff_mul_le (by positivity)]
    have e : (2 : Nat) ^ 1074 = 2 ^ 53 * 2 ^ 1020 + 2 ^ 53 * 2 ^ 1020 := by
      rw [e1020, h54]
      ring
    have hle : (2 : Nat) ^ 1020 ≤ 2 ^ 53 * 2 ^ 1020 := Nat.le_mul_of_pos_left _ (by positivity)
    rw [Nat.one_mul] at hW
    generalize n * 2 ^ 1074 = W at hW
    generalize (2 : Nat) ^ 53 * 2 ^ 1020 = Z at e hle
    generalize (2 : Nat) ^ 1074 = P at e hW
    generalize (2 : Nat) ^ 1020 = X at hj hle
    omega
  have hhigh : shiftCount (n * 2 ^ 1074 - j) (n * 2 ^ 1074 - j) ≤ 1074 := by
    apply shiftCount_le
    rw [Nat.div_lt_iff_lt_mul (by positivity)]
    have h1 : n * 2 ^ 1074 ≤ 2 ^ 53 * 2 ^ 1074 := Nat.mul_le_mul_right _ hn
    have hp : 0 < (2 : Nat) ^ 1074 := by positivity
    omega
  generalize hs : shiftCount (n * 2 ^ 1074 - j) (n * 2 ^ 1074 - j) = s at hlow hhigh
  obtain ⟨q, hq⟩ : 2 ^ s ∣ n * 2 ^ 1074 := Dvd.dvd.mul_left (pow_dvd_pow 2 hhigh) n
  have h2j : 2 * j < 2 ^ s := by
    have : (2 : Nat) ^ 1021 ≤ 2 ^ s := Nat.pow_le_pow_right (by norm_num) hlow
    have e : (2 : Nat) ^ 1021 = 2 ^ 1020 * 2 := pow_succ 2 1020
    omega
  have hq1 : 1 ≤ q := by
    rcases Nat.eq_zero_or_pos q with h0 | h0
    · rw [h0, Nat.mul_zero] at hq
      have hp : 0 < (2 : Nat) ^ 1074 := by positivity
      omega
    · exact h0
  unfold roundNat
  rw [hs, hq, Nat.mul_comm (2 ^ s) q, nearestEven_sub q _ j hq1 hj1 h2j]

theorem roundNat_pos (M : Nat) (hM : 0 < M) : 0 < roundNat M := by
  have hf : 1 ≤ M / 2 ^ shiftCount M M := by
    rcases Nat.eq_zero_or_pos (shiftCount M M) with h0 | h0
    · rw [h0]
      simpa using hM
    · have := (shiftCount_self M).2 (shiftCount M M - 1) (by omega)
      have h2 := div_pow_anti M (shiftCount M M - 1) (shiftCount M M) (by omega)
      have e : M / 2 ^ (shiftCount M M - 1) / 2 = M / 2 ^ shiftCount M M := by
        rw [Nat.div_div_eq_div_mul, ← pow_succ]
        congr 2
        omega
      have h53 : (2 : Nat) ^ 53 = 2 ^ 52 * 2 := pow_succ 2 52
      have : 2 ^ 52 ≤ M / 2 ^ (shiftCount M M - 1) / 2 := by
        rw [Nat.le_div_iff_mul_le (by norm_num)]
        omega
      rw [e] at this
      have hp : 0 < (2 : Nat) ^ 52 := by positivity
      omega
  have hne : M / 2 ^ shiftCount M M ≤ nearestEven M (2 ^ shiftCount M M) := by
    unfold nearestEven
    split_ifs <;> omega
  unfold roundNat
  have hp : 0 < 2 ^ shiftCount M M := by positivity
  exact Nat.mul_pos (by omega) hp

theorem roundNat_zero : roundNat 0 = 0 := by
  simp [roundNat, nearestEven]

theorem roundMag_units (M : Nat) :
    roundMag ((M : ℚ) / 2 ^ 1074) = (roundNat M : ℚ) / 2 ^ 1074 := by
  generalize ha : (M : ℚ) / 2 ^ 1074 = a
  have hnonneg : 0 ≤ a := by rw [← ha]; positivity
  have hnum : 0 ≤ a.num := Rat.num_nonneg.mpr hnonneg
  have hden : 0 < a.den := a.den_pos
  have hcross : a.num.natAbs * 2 ^ 1074 = M * a.den := by
    have h1 : (a.num : ℚ) / (a.den : ℚ) = (M : ℚ) / 2 ^ 1074 := by rw [Rat.num_div_den, ha]
    have hd : (a.den : ℚ) ≠ 0 := by exact_mod_cast hden.ne'
    rw [div_eq_div_iff hd (by positivity)] at h1
    have h2 : (a.num : ℤ) * 2 ^ 1074 = (M : ℤ) * (a.den : ℤ) := by exact_mod_cast h1
    have h3 : ((a.num.natAbs : ℕ) : ℤ) = a.num := Int.natAbs_of_nonneg hnum
    have h4 : ((a.num.natAbs * 2 ^ 1074 : ℕ) : ℤ) = ((M * a.den : ℕ) : ℤ) := by
      rw [Nat.cast_mul, Nat.cast_mul, h3]
      exact_mod_cast h2
    exact_mod_cast h4
  unfold roundMag
  simp only []
  rw [hcross, Nat.mul_div_cancel _ hden, Nat.mul_comm a.den, nearestEven_mul_right _ _ _ hden]
  rfl

theorem rnd_units (M : Nat) : rnd ((M : ℚ) / 2 ^ 1074) = (roundNat M : ℚ) / 2 ^ 1074 := by
  unfold rnd
  have : ¬ ((M : ℚ) / 2 ^ 1074 < 0) := not_lt.mpr (by positivity)
  rw [if_neg this, roundMag_units]

theorem rnd_neg_units (M : Nat) :
    rnd (-((M : ℚ) / 2 ^ 1074)) = -((roundNat M : ℚ) / 2 ^ 1074) := by
  rcases Nat.eq_zero_or_pos M with h0 | h0
  · subst h0
    simp only [Nat.cast_zero, zero_div, neg_zero]
    have := rnd_units 0
    simp only [Nat.cast_zero, zero_div] at this
    rw [this, roundNat_zero]
    simp
  · unfold rnd
    have hpos : (0 : ℚ) < (M : ℚ) / 2 ^ 1074 := by positivity
    rw [if_pos (by linarith), neg_neg, roundMag_units]

theorem rnd_zero : rnd 0 = 0 := by
  have := rnd_units 0
  simp only [Nat.cast_zero, zero_div] at this
  rw [this, roundNat_zero]
  simp

theorem rnd_nonneg (x : ℚ) (h : 0 ≤ x) : 0 ≤ rnd x := by
  unfold rnd
  rw [if_neg (not_lt.mpr h)]
  unfold roundMag
  positivity

theorem roundNat_whole (n : Nat) (hn : n ≤ 2 ^ 53) : roundNat (n * 2 ^ 1074) = n * 2 ^ 1074 := by
  rcases Nat.lt_or_ge n (2 ^ 53) with h | h
  · exact roundNat_representable n 1074 h
  · have e : n = 2 ^ 53 := le_antisymm hn h
    have e2 : n * 2 ^ 1074 = 2 ^ 52 * 2 ^ 1075 := by
      rw [e, ← two_pow_split, ← two_pow_split]
    rw [e2]
    exact roundNat_representable (2 ^ 52) 1075 (Nat.pow_lt_pow_right (by norm_num) (by norm_num))

theorem roundNat_tiny (j : Nat) (hj : j ≤ 2 ^ 53) : roundNat j = j := by
  rcases Nat.lt_or_ge j (2 ^ 53) with h | h
  · have := roundNat_representable j 0 h
    simpa using this
  · have e : j = 2 ^ 52 * 2 ^ 1 := by
      rw [← two_pow_split]
      exact le_antisymm hj h
    rw [e]
    exact roundNat_representable (2 ^ 52) 1 (Nat.pow_lt_pow_right (by norm_num) (by norm_num))

theorem natCast_units (n : Nat) : (n : ℚ) = ((n * 2 ^ 1074 : Nat) : ℚ) / 2 ^ 1074 := by
  push_cast
  field_simp

theorem mul_eps_units (j : Nat) : (j : ℚ) * eps = (j : ℚ) / 2 ^ 1074 := by
  unfold eps
  ring

/-- A whole number of at most `2^53` is a float64. -/
theorem rnd_natCast (n : Nat) (hn : n ≤ 2 ^ 53) : rnd (n : ℚ) = n := by
  rw [natCast_units n, rnd_units, roundNat_whole n hn]

/-- A multiple of `2^-1074` with at most 53 significant bits is a float64. -/
theorem rnd_tiny (j : Nat) (hj : j ≤ 2 ^ 53) : rnd ((j : ℚ) * eps) = (j : ℚ) * eps := by
  rw [mul_eps_units, rnd_units, roundNat_tiny j hj]

theorem rnd_absorb_add (n j : Nat) (hn1 : 1 ≤ n) (hn : n ≤ 2 ^ 53) (hj : j < 2 ^ 1020) :
    rnd ((n : ℚ) + (j : ℚ) * eps) = n := by
  have e : (n : ℚ) + (j : ℚ) * eps = ((n * 2 ^ 1074 + j : Nat) : ℚ) / 2 ^ 1074 := by
    rw [mul_eps_units]
    push_cast
    field_simp
  rw [e, rnd_units, roundNat_absorb_add n j hn1 hn hj, ← natCast_units]

theorem rnd_absorb_sub (n j : Nat) (hn1 : 1 ≤ n) (hn : n ≤ 2 ^ 53) (hj : j < 2 ^ 1020) :
    rnd ((n : ℚ) - (j : ℚ) * eps) = n := by
  rcases Nat.eq_zero_or_pos j with h0 | h0
  · subst h0
    simp only [Nat.cast_zero, zero_mul, sub_zero]
    exact rnd_natCast n hn
  · have hle : j ≤ n * 2 ^ 1074 := by
      have h1 : j < 2 ^ 1074 :=
        lt_of_lt_of_le hj (Nat.pow_le_pow_right (by norm_num) (by norm_num))
      have h2 : 1 * 2 ^ 1074 ≤ n * 2 ^ 1074 := Nat.mul_le_mul_right _ hn1
      omega
    have e : (n : ℚ) - (j : ℚ) * eps = ((n * 2 ^ 1074 - j : Nat) : ℚ) / 2 ^ 1074 := by
      rw [mul_eps_units, Nat.cast_sub hle]
      push_cast
      field_simp
    rw [e, rnd_units, roundNat_absorb_sub n j hn1 hn h0 hj, ← natCast_units]

theorem rnd_pos_natCast (n : Nat) (hn : 0 < n) : 0 < rnd (n : ℚ) := by
  rw [natCast_units n, rnd_units]
  have h1 : (0 : ℚ) < (roundNat (n * 2 ^ 1074) : ℚ) := by
    exact_mod_cast roundNat_pos (n * 2 ^ 1074) (Nat.mul_pos hn (by positivity))
  exact div_pos h1 (by positivity)

theorem ofInt_nonneg (n : Int) (h0 : 0 ≤ n) (hn : n ≤ 2 ^ 53) : ofInt n = (n : ℚ) := by
  obtain ⟨k, rfl⟩ := Int.eq_ofNat_of_zero_le h0
  unfold ofInt
  have hk : k ≤ 2 ^ 53 := by exact_mod_cast hn
  simpa using rnd_natCast k hk

theorem ofInt_pos (n : Int) (h0 : 0 < n) : 0 < ofInt n := by
  obtain ⟨k, rfl⟩ := Int.eq_ofNat_of_zero_le (le_of_lt h0)
  unfold ofInt
  have hk : 0 < k := by exact_mod_cast h0
  simpa using rnd_pos_natCast k hk

theorem nearestEven_le (A B : Nat) : nearestEven A B ≤ A / B + 1 := by
  unfold nearestEven
  split_ifs <;> omega

/-- Rounding does not pass a power of two. -/
theorem roundNat_le_pow (M e : Nat) (h : M ≤ 2 ^ e) : roundNat M ≤ 2 ^ e := by
  rcases Nat.lt_or_ge M (2 ^ 53) with hlt | hge
  · have := roundNat_tiny M (le_of_lt hlt)
    rw [this]
    exact h
  · -- the shift is at most `e`
    have hs : shiftCount M M ≤ e := by
      apply shiftCount_le
      have h1 : M / 2 ^ e ≤ 1 := by
        calc M / 2 ^ e ≤ 2 ^ e / 2 ^ e := Nat.div_le_div_right h
          _ = 1 := Nat.div_self (by positivity)
      have h2 : (1 : Nat) < 2 ^ 53 := by norm_num
      omega
    unfold roundNat
    generalize shiftCount M M = s at hs ⊢
    obtain ⟨d, hd⟩ : ∃ d, e = s + d := ⟨e - s, by omega⟩
    have hpow : 2 ^ e = 2 ^ d * 2 ^ s := by
      rw [hd, Nat.add_comm, two_pow_split]
    rw [hpow]
    apply Nat.mul_le_mul_right
    rcases Nat.eq_or_lt_of_le h with heq | hlt
    · rw [heq, hpow, nearestEven_of_dvd _ _ (by positivity) (Dvd.intro_left _ rfl),
        Nat.mul_div_cancel _ (by positivity)]
    · have h3 : M / 2 ^ s < 2 ^ d := by
        rw [Nat.div_lt_iff_lt_mul (by positivity), ← hpow]
        exact hlt
      have := nearestEven_le M (2 ^ s)
      omega

/-- The float64 nearest to a positive multiple of `2^-1074` is again one, and
does not pass a power of two. -/
theorem rnd_tiny_bound (M e : Nat) (h1 : 1 ≤ M) (h : M ≤ 2 ^ e) :
    ∃ j : Nat, 1 ≤ j ∧ j ≤ 2 ^ e ∧ rnd ((M : ℚ) * eps) = (j : ℚ) * eps :=
  ⟨roundNat M, roundNat_pos M h1, roundNat_le_pow M e h, by
    rw [mul_eps_units, rnd_units, mul_eps_units]⟩

theorem rnd_add_natCast (n m : Nat) (h : n + m ≤ 2 ^ 53) :
    rnd ((n : ℚ) + (m : ℚ)) = ((n + m : Nat) : ℚ) := by
  have := rnd_natCast (n + m) h
  push_cast at this ⊢
  exact this

theorem rnd_sub_natCast (n m : Nat) (hm : m ≤ n) (h : n ≤ 2 ^ 53) :
    rnd ((n : ℚ) - (m : ℚ)) = ((n - m : Nat) : ℚ) := by
  have := rnd_natCast (n - m) (by omega)
  rw [Nat.cast_sub hm] at this ⊢
  exact this

theorem eps_pos : 0 < eps := by
  unfold eps
  positivity

/-- At most `2^1020` units of `2^-1074` stay below one. -/
theorem tiny_lt_one (j : Nat) (h : j ≤ 2 ^ 1020) : (j : ℚ) * eps < 1 := by
  rw [mul_eps_units, div_lt_one (by positivity)]
  have h1 : (j : ℚ) ≤ 2 ^ 1020 := by exact_mod_cast h
  have h2 : (2 : ℚ) ^ 1020 < 2 ^ 1074 := by
    apply pow_lt_pow_right₀ (by norm_num) (by norm_num)
  linarith

/-! ## Whole and placeholder quantities -/

theorem whole_iff (x : ℚ) : whole x ↔ ∃ n : Nat, 1 ≤ n ∧ x = (n : ℚ) := by
  unfold whole
  constructor
  · rintro ⟨h1, h2⟩
    refine ⟨x.num.toNat, by omega, ?_⟩
    have e : ((x.num.toNat : Int) : ℚ) = (x.num : ℚ) := by
      rw [Int.toNat_of_nonneg (by omega)]
    rw [← Int.cast_natCast, e]
    exact ((Rat.den_eq_one_iff x).mp h1).symm
  · rintro ⟨n, h1, rfl⟩
    exact ⟨Rat.den_natCast n, by rw [Rat.num_natCast]; exact_mod_cast h1⟩

theorem tiny_iff (f : Nat) (x : ℚ) :
    tiny f x ↔ ∃ j : Nat, 1 ≤ j ∧ j ≤ 2 ^ f ∧ x = (j : ℚ) * eps := by
  unfold tiny
  rw [whole_iff]
  have hp : (0 : ℚ) < 2 ^ 1074 := by positivity
  constructor
  · rintro ⟨⟨j, h1, e⟩, h2⟩
    refine ⟨j, h1, ?_, ?_⟩
    · rw [e] at h2
      exact_mod_cast h2
    · rw [mul_eps_units, ← e]
      field_simp
  · rintro ⟨j, h1, h2, rfl⟩
    have e : (j : ℚ) * eps * 2 ^ 1074 = (j : ℚ) := by
      rw [mul_eps_units]
      field_simp
    rw [e]
    exact ⟨⟨j, h1, rfl⟩, by exact_mod_cast h2⟩

theorem typed_iff (b : Bool) (f : Nat) (x : ℚ) :
    typed b f x ↔ (∃ n : Nat, 1 ≤ n ∧ x = (n : ℚ)) ∨
      (b = true ∧ ∃ j : Nat, 1 ≤ j ∧ j ≤ 2 ^ f ∧ x = (j : ℚ) * eps) := by
  unfold typed
  rw [whole_iff, tiny_iff]

theorem wholeOf_zero : wholeOf 0 = 0 := by
  unfold wholeOf
  norm_num

theorem wholeOf_natCast (n : Nat) : wholeOf (n : ℚ) = (n : ℚ) := by
  unfold wholeOf
  rcases Nat.eq_zero_or_pos n with h | h
  · subst h
    norm_num
  · have : (1 : ℚ) ≤ (n : ℚ) := by exact_mod_cast h
    rw [if_pos this]

theorem wholeOf_tiny (j : Nat) (h : j ≤ 2 ^ 1020) : wholeOf ((j : ℚ) * eps) = 0 := by
  unfold wholeOf
  rw [if_neg (not_le.mpr (tiny_lt_one j h))]

theorem wholeOf_nonneg (x : ℚ) : 0 ≤ wholeOf x := by
  unfold wholeOf
  split_ifs with h
  · linarith
  · exact le_refl _

theorem pow_le_1020 (f : Nat) (hf : f ≤ 1020) : 2 ^ f ≤ 2 ^ 1020 :=
  Nat.pow_le_pow_right (by norm_num) hf

theorem pow_lt_1020 (f : Nat) (hf : f ≤ 1019) : 2 ^ f < 2 ^ 1020 :=
  Nat.pow_lt_pow_right (by norm_num) (by omega)

theorem typed_mono (b : Bool) (f g : Nat) (hfg : f ≤ g) (x : ℚ) (h : typed b f x) :
    typed b g x := by
  rw [typed_iff] at h ⊢
  rcases h with h | ⟨hb, j, h1, h2, e⟩
  · exact Or.inl h
  · exact Or.inr ⟨hb, j, h1, le_trans h2 (Nat.pow_le_pow_right (by norm_num) hfg), e⟩

theorem typed_pos (b : Bool) (f : Nat) (x : ℚ) (h : typed b f x) : 0 < x := by
  rw [typed_iff] at h
  rcases h with ⟨n, h1, e⟩ | ⟨_, j, h1, _, e⟩
  · rw [e]
    exact_mod_cast h1
  · rw [e]
    have : (0 : ℚ) < (j : ℚ) := by exact_mod_cast h1
    exact mul_pos this eps_pos

/-- The quantity stored for a plus entry of a rotation. -/
theorem typed_plus (b : Bool) (f : Nat) (hf : f ≤ 1019) (x q : ℚ)
    (hx : x = 0 ∨ typed b f x) (hq : q = 0 ∨ typed b f q)
    (hcap : wholeOf x + wholeOf q ≤ 2 ^ 53) :
    (fadd x q = 0 ∨ typed b (f + 1) (fadd x q)) ∧ wholeOf (fadd x q) = wholeOf x + wholeOf q := by
  have hf1 : 2 ^ f < 2 ^ 1020 := pow_lt_1020 f hf
  have hcast : ∀ n : Nat, (n : ℚ) ≤ 2 ^ 53 → n ≤ 2 ^ 53 := fun n h => by exact_mod_cast h
  simp only [typed_iff] at hx hq ⊢
  -- the three kinds of a value, with its rounding
  have hself : ∀ y, (y = 0 ∨ (∃ n : Nat, 1 ≤ n ∧ y = (n : ℚ)) ∨
        (b = true ∧ ∃ j : Nat, 1 ≤ j ∧ j ≤ 2 ^ f ∧ y = (j : ℚ) * eps)) → wholeOf y ≤ 2 ^ 53 →
      (rnd y = 0 ∨ (∃ n : Nat, 1 ≤ n ∧ rnd y = (n : ℚ)) ∨
        (b = true ∧ ∃ j : Nat, 1 ≤ j ∧ j ≤ 2 ^ (f + 1) ∧ rnd y = (j : ℚ) * eps)) ∧
      wholeOf (rnd y) = wholeOf y := by
    intro y hy hc
    rcases hy with rfl | ⟨n, h1, rfl⟩ | ⟨hb, j, h1, h2, rfl⟩
    · rw [rnd_zero]
      exact ⟨Or.inl rfl, rfl⟩
    · rw [wholeOf_natCast] at hc
      rw [rnd_natCast n (hcast n hc)]
      exact ⟨Or.inr (Or.inl ⟨n, h1, rfl⟩), rfl⟩
    · obtain ⟨k, k1, k2, e⟩ := rnd_tiny_bound j f h1 h2
      rw [e, wholeOf_tiny j (by omega), wholeOf_tiny k (by omega)]
      exact ⟨Or.inr (Or.inr ⟨hb, k, k1, le_trans k2 (Nat.pow_le_pow_right (by norm_num)
        (Nat.le_succ f)), rfl⟩), rfl⟩
  unfold fadd
  rcases hq with rfl | ⟨m, m1, rfl⟩ | ⟨hbq, jq, q1, q2, rfl⟩
  · rw [add_zero, wholeOf_zero, add_zero]
    rw [wholeOf_zero, add_zero] at hcap
    exact hself x hx hcap
  · rcases hx with rfl | ⟨n, h1, rfl⟩ | ⟨hb, j, h1, h2, rfl⟩
    · rw [zero_add, wholeOf_zero, zero_add]
      rw [wholeOf_zero, zero_add] at hcap
      exact hself _ (Or.inr (Or.inl ⟨m, m1, rfl⟩)) hcap
    · rw [wholeOf_natCast, wholeOf_natCast] at hcap ⊢
      have hnm : n + m ≤ 2 ^ 53 := by
        have : ((n + m : Nat) : ℚ) ≤ 2 ^ 53 := by push_cast; exact hcap
        exact hcast _ this
      rw [rnd_add_natCast n m hnm, wholeOf_natCast]
      exact ⟨Or.inr (Or.inl ⟨n + m, by omega, rfl⟩), by push_cast; rfl⟩
    · rw [wholeOf_natCast, wholeOf_tiny j (by omega), zero_add] at hcap ⊢
      rw [add_comm, rnd_absorb_add m j m1 (hcast m hcap) (by omega), wholeOf_natCast]
      exact ⟨Or.inr (Or.inl ⟨m, m1, rfl⟩), rfl⟩
  · rcases hx with rfl | ⟨n, h1, rfl⟩ | ⟨hb, j, h1, h2, rfl⟩
    · rw [zero_add, wholeOf_zero, zero_add]
      rw [wholeOf_zero, zero_add] at hcap
      exact hself _ (Or.inr (Or.inr ⟨hbq, jq, q1, q2, rfl⟩)) hcap
    · rw [wholeOf_natCast, wholeOf_tiny jq (by omega), add_zero] at hcap ⊢
      rw [rnd_absorb_add n jq h1 (hcast n hcap) (by omega), wholeOf_natCast]
      exact ⟨Or.inr (Or.inl ⟨n, h1, rfl⟩), rfl⟩
    · have e : (j : ℚ) * eps + (jq : ℚ) * eps = ((j + jq : Nat) : ℚ) * eps := by
        push_cast
        ring
      have hsum : j + jq ≤ 2 ^ (f + 1) := by
        rw [pow_succ]
        omega
      obtain ⟨k, k1, k2, e2⟩ := rnd_tiny_bound (j + jq) (f + 1) (by omega) hsum
      have hk : k ≤ 2 ^ 1020 := le_trans k2 (pow_le_1020 (f + 1) (by omega))
      rw [e, e2, wholeOf_tiny j (by omega), wholeOf_tiny jq (by omega), wholeOf_tiny k hk]
      exact ⟨Or.inr (Or.inr ⟨hb, k, k1, k2, rfl⟩), by norm_num⟩

/-- The quantity stored for a minus entry of a rotation. -/
theorem typed_minus (b : Bool) (f : Nat) (hf : f ≤ 1019) (x q : ℚ)
    (hx : x = 0 ∨ typed b f x) (hq : q = 0 ∨ typed b f q) (hle : q ≤ x)
    (hcap : wholeOf x ≤ 2 ^ 53) :
    (fsub x q = 0 ∨ typed b (f + 1) (fsub x q)) ∧ wholeOf (fsub x q) = wholeOf x - wholeOf q := by
  have hf1 : 2 ^ f < 2 ^ 1020 := pow_lt_1020 f hf
  have hcast : ∀ n : Nat, (n : ℚ) ≤ 2 ^ 53 → n ≤ 2 ^ 53 := fun n h => by exact_mod_cast h
  simp only [typed_iff] at hx hq ⊢
  unfold fsub
  rcases hq with rfl | ⟨m, m1, rfl⟩ | ⟨hbq, jq, q1, q2, rfl⟩
  · rw [sub_zero, wholeOf_zero, sub_zero]
    rcases hx with rfl | ⟨n, h1, rfl⟩ | ⟨hb, j, h1, h2, rfl⟩
    · rw [rnd_zero]
      exact ⟨Or.inl rfl, rfl⟩
    · rw [wholeOf_natCast] at hcap
      rw [rnd_natCast n (hcast n hcap)]
      exact ⟨Or.inr (Or.inl ⟨n, h1, rfl⟩), rfl⟩
    · obtain ⟨k, k1, k2, e⟩ := rnd_tiny_bound j f h1 h2
      rw [e, wholeOf_tiny j (by omega), wholeOf_tiny k (by omega)]
      exact ⟨Or.inr (Or.inr ⟨hb, k, k1, le_trans k2 (Nat.pow_le_pow_right (by norm_num)
        (Nat.le_succ f)), rfl⟩), rfl⟩
  · have hm1 : (1 : ℚ) ≤ (m : ℚ) := by exact_mod_cast m1
    rcases hx with rfl | ⟨n, h1, rfl⟩ | ⟨hb, j, h1, h2, rfl⟩
    · linarith
    · have hmn : m ≤ n := by exact_mod_cast hle
      rw [wholeOf_natCast] at hcap
      rw [rnd_sub_natCast n m hmn (hcast n hcap), wholeOf_natCast, wholeOf_natCast,
        wholeOf_natCast, Nat.cast_sub hmn]
      refine ⟨?_, rfl⟩
      rcases Nat.eq_zero_or_pos (n - m) with h0 | h0
      · left
        rw [← Nat.cast_sub hmn, h0]
        rfl
      · right
        rw [← Nat.cast_sub hmn]
        exact Or.inl ⟨n - m, h0, rfl⟩
    · have := tiny_lt_one j (by omega)
      linarith
  · have hq0 : (0 : ℚ) < (jq : ℚ) * eps := by
      have : (0 : ℚ) < (jq : ℚ) := by exact_mod_cast q1
      exact mul_pos this eps_pos
    rcases hx with rfl | ⟨n, h1, rfl⟩ | ⟨hb, j, h1, h2, rfl⟩
    · linarith
    · rw [wholeOf_natCast, wholeOf_tiny jq (by omega), sub_zero] at *
      rw [rnd_absorb_sub n jq h1 (hcast n hcap) (by omega), wholeOf_natCast]
      exact ⟨Or.inr (Or.inl ⟨n, h1, rfl⟩), rfl⟩
    · have hjj : jq ≤ j := by
        have h3 : (jq : ℚ) ≤ (j : ℚ) := le_of_mul_le_mul_right hle eps_pos
        exact_mod_cast h3
      have e : (j : ℚ) * eps - (jq : ℚ) * eps = ((j - jq : Nat) : ℚ) * eps := by
        rw [Nat.cast_sub hjj]
        ring
      rw [e, wholeOf_tiny j (by omega), wholeOf_tiny jq (by omega), sub_zero]
      rcases Nat.eq_zero_or_pos (j - jq) with h0 | h0
      · rw [h0]
        simp only [Nat.cast_zero, zero_mul]
        rw [rnd_zero]
        exact ⟨Or.inl rfl, wholeOf_zero⟩
      · obtain ⟨k, k1, k2, e2⟩ := rnd_tiny_bound (j - jq) f h0 (by omega)
        rw [e2, wholeOf_tiny k (by omega)]
        exact ⟨Or.inr (Or.inr ⟨hb, k, k1, le_trans k2 (Nat.pow_le_pow_right (by norm_num)
          (Nat.le_succ f)), rfl⟩), rfl⟩

/-! ## Balancing -/

theorem exactTotal_append (l : List Int) (x : Int) :
    exactTotal (l ++ [x]) = exactTotal l + x := by
  simp [exactTotal]

theorem total_balance (src dst : List Int) :
    total (balance src dst).1 = total (balance src dst).2 := by
  have key : wrapInt (total src - total dst) = wrapInt (exactTotal src - exactTotal dst) := by
    rw [total_eq_wrapInt, total_eq_wrapInt, wrapInt_sub]
  simp only [balance, key]
  split_ifs with h1 h2 <;> dsimp only <;>
    simp only [total_eq_wrapInt, exactTotal_append] <;> unfold wrapInt at * <;> omega

theorem balance_exact (src dst : List Int)
    (hS1 : -9223372036854775808 ≤ exactTotal src) (hS2 : exactTotal src < 9223372036854775808)
    (hD1 : -9223372036854775808 ≤ exactTotal dst) (hD2 : exactTotal dst < 9223372036854775808)
    (h1 : -9223372036854775808 < exactTotal src - exactTotal dst)
    (h2 : exactTotal src - exactTotal dst < 9223372036854775808) :
    wrapInt (total src - total dst) = exactTotal src - exactTotal dst ∧
    wrapInt (- wrapInt (total src - total dst)) = - (exactTotal src - exactTotal dst) := by
  rw [total_eq_wrapInt, total_eq_wrapInt, wrapInt_of_range _ hS1 hS2, wrapInt_of_range _ hD1 hD2,
    wrapInt_of_range _ (le_of_lt h1) h2]
  exact ⟨rfl, wrapInt_of_range _ (by omega) (by omega)⟩


/-! ## Reading the cost block -/

theorem rowFill_spec (input : Nat → Nat → ℚ) (i : Nat) (cs : List (List ℚ)) (n : Nat) :
    ((List.range n).foldl (fun cs1 j => setCost cs1 i j (input i j)) cs).length = cs.length ∧
    (∀ r, (((List.range n).foldl (fun cs1 j => setCost cs1 i j (input i j)) cs).getD r []).length
        = (cs.getD r []).length) ∧
    (∀ r c, costAt ((List.range n).foldl (fun cs1 j => setCost cs1 i j (input i j)) cs) r c =
      if r = i ∧ c < n ∧ i < cs.length ∧ c < (cs.getD i []).length then input i c
      else costAt cs r c) := by
  induction n with
  | zero => simp
  | succ n ih =>
    obtain ⟨h1, h2, h3⟩ := ih
    rw [List.range_succ, List.foldl_append]
    simp only [List.foldl_cons, List.foldl_nil]
    refine ⟨?_, ?_, ?_⟩
    · rw [length_setCost, h1]
    · intro r
      rw [rowLength_setCost, h2]
    · intro r c
      rw [costAt_setCost, h1, h2, h3]
      by_cases hr : r = i
      · by_cases hc : c = n
        · subst hr; subst hc
          by_cases hA : r < cs.length ∧ c < (cs.getD r []).length
          · simp [hA.1, hA.2]
          · have hne : ¬ (r < cs.length ∧ c < (cs.getD r []).length) := hA
            by_cases hx : r < cs.length
            · have hy : ¬ c < (cs.getD r []).length := fun h => hA ⟨hx, h⟩
              simp [hx, hy]
            · simp [hx]
        · have hlt : c < n + 1 ↔ c < n := by omega
          simp [hr, hc, hlt]
      · simp [hr]

theorem readCosts_spec (input : Nat → Nat → ℚ) (m : Nat) (cs : List (List ℚ)) (n : Nat) :
    (readCosts input n m cs).length = cs.length ∧
    (∀ r, ((readCosts input n m cs).getD r []).length = (cs.getD r []).length) ∧
    (∀ r c, costAt (readCosts input n m cs) r c =
      if r < n ∧ c < m ∧ r < cs.length ∧ c < (cs.getD r []).length then input r c
      else costAt cs r c) := by
  unfold readCosts
  induction n with
  | zero => simp
  | succ n ih =>
    obtain ⟨h1, h2, h3⟩ := ih
    rw [List.range_succ, List.foldl_append]
    simp only [List.foldl_cons, List.foldl_nil]
    obtain ⟨g1, g2, g3⟩ := rowFill_spec input n
      ((List.range n).foldl
        (fun cs i => (List.range m).foldl (fun cs1 j => setCost cs1 i j (input i j)) cs) cs) m
    refine ⟨?_, ?_, ?_⟩
    · rw [g1, h1]
    · intro r
      rw [g2, h2]
    · intro r c
      rw [g3, h1, h2, h3]
      by_cases hr : r = n
      · subst hr
        simp
      · have hlt : r < n + 1 ↔ r < n := by omega
        simp [hr, hlt]

theorem costAt_replicate (R C r c : Nat) :
    costAt (List.replicate R (List.replicate C (0 : ℚ))) r c = 0 := by
  unfold costAt
  simp only [List.getD_eq_getElem?_getD, List.getElem?_replicate]
  by_cases hr : r < R
  · by_cases hc : c < C
    · simp [hr, hc]
    · simp [hr, hc]
  · simp [hr]

theorem rowLength_replicate {α : Type} (R C r : Nat) (a : α) (h : r < R) :
    ((List.replicate R (List.replicate C a)).getD r []).length = C := by
  simp [List.getD_eq_getElem?_getD, List.getElem?_replicate, h]

theorem length_balance_fst (src dst : List Int) : src.length ≤ (balance src dst).1.length := by
  simp only [balance]
  split_ifs <;> simp

theorem length_balance_snd (src dst : List Int) : dst.length ≤ (balance src dst).2.length := by
  simp only [balance]
  split_ifs <;> simp

theorem newTransport_costs (src dst : List Int) (input : Nat → Nat → ℚ) :
    (newTransport src dst input).costs.length = (newTransport src dst input).supply.length ∧
    (∀ r, r < (newTransport src dst input).supply.length →
      ((newTransport src dst input).costs.getD r []).length
        = (newTransport src dst input).demand.length) ∧
    (∀ i j, i < src.length → j < dst.length →
      costAt (newTransport src dst input).costs i j = input i j) ∧
    (∀ r c, src.length ≤ r ∨ dst.length ≤ c →
      costAt (newTransport src dst input).costs r c = 0) := by
  obtain ⟨h1, h2, h3⟩ := readCosts_spec input dst.length
    (List.replicate (balance src dst).1.length
      (List.replicate (balance src dst).2.length (0 : ℚ))) src.length
  have hb1 := length_balance_fst src dst
  have hb2 := length_balance_snd src dst
  simp only [newTransport]
  refine ⟨?_, ?_, ?_, ?_⟩
  · rw [h1, List.length_replicate]
  · intro r hr
    rw [h2, rowLength_replicate _ _ _ _ hr]
  · intro i j hi hj
    rw [h3, List.length_replicate, rowLength_replicate _ _ _ _ (by omega)]
    have hi1 : i < (balance src dst).1.length := by omega
    have hj1 : j < (balance src dst).2.length := by omega
    simp [hi, hj, hi1, hj1]
  · intro r c hrc
    rw [h3, costAt_replicate]
    have : ¬ (r < src.length ∧ c < dst.length ∧
        r < (List.replicate (balance src dst).1.length
          (List.replicate (balance src dst).2.length (0 : ℚ))).length ∧
        c < ((List.replicate (balance src dst).1.length
          (List.replicate (balance src dst).2.length (0 : ℚ))).getD r []).length) := by
      rintro ⟨a, b, _⟩
      omega
    rw [if_neg this]

/-- C5 (counterexample). For supplies `[MaxInt64, MaxInt64]` and the demand `[1]`
the sum of the supplies wraps around to `-2`, the difference is `-3`, and the
balancing step appends the dummy source `3`: the supplies then add up to
`2^64 + 1` and the demands to `1`. -/
theorem overflow_totals_differ :
    (newTransport [9223372036854775807, 9223372036854775807] [1] (fun _ _ => 0)).supply
      = [9223372036854775807, 9223372036854775807, 3] ∧
    (newTransport [9223372036854775807, 9223372036854775807] [1] (fun _ _ => 0)).demand = [1] ∧
    exactTotal
      (newTransport [9223372036854775807, 9223372036854775807] [1] (fun _ _ => 0)).supply
      = 18446744073709551617 ∧
    exactTotal
      (newTransport [9223372036854775807, 9223372036854775807] [1] (fun _ _ => 0)).demand
      = 1 := by
  decide

/-- C5 (amended). The capacity vectors produced by the balancing step of
`newTransport` have the same total in the wrapping `int` arithmetic of the
program, for every pair of vectors; their totals are equal as integers when the
totals of the input vectors and the difference of these totals lie within the
range of `int`. -/
theorem newTransport_totals_equal (src dst : List Int) (input : Nat → Nat → ℚ) :
    total (newTransport src dst input).supply = total (newTransport src dst input).demand ∧
    (-9223372036854775808 ≤ exactTotal src → exactTotal src < 9223372036854775808 →
      -9223372036854775808 ≤ exactTotal dst → exactTotal dst < 9223372036854775808 →
      -9223372036854775808 < exactTotal src - exactTotal dst →
      exactTotal src - exactTotal dst < 9223372036854775808 →
      exactTotal (newTransport src dst input).supply
        = exactTotal (newTransport src dst input).demand) := by
  constructor
  · simp only [newTransport]
    exact total_balance src dst
  · intro hS1 hS2 hD1 hD2 h1 h2
    obtain ⟨e1, e2⟩ := balance_exact src dst hS1 hS2 hD1 hD2 h1 h2
    rw [e1] at e2
    simp only [newTransport, balance, e1, e2]
    split_ifs with g1 g2 <;> dsimp only <;> (try simp only [exactTotal_append]) <;> omega

/-- Supplies `[300,500]` against demands `[250,450]`: the totals `800` and `700`
and their difference are within the range of `int`. -/
theorem newTransport_totals_equal_witness :
    exactTotal (newTransport [300, 500] [250, 450] scenarioCosts).supply
      = exactTotal (newTransport [300, 500] [250, 450] scenarioCosts).demand :=
  (newTransport_totals_equal [300, 500] [250, 450] scenarioCosts).2 (by decide) (by decide)
    (by decide) (by decide) (by decide) (by decide)

/-- C6 (counterexample). For supplies `[MaxInt64, MaxInt64]` and the demand `[1]`
the difference of the sums is `2^64 - 3 > 0`, but the supply is not returned
unchanged and no entry is appended to the demand: the program computes the
difference `-3` and appends the dummy source `3`. -/
theorem overflow_balancing :
    0 < exactTotal [9223372036854775807, 9223372036854775807] - exactTotal [1] ∧
    (newTransport [9223372036854775807, 9223372036854775807] [1] (fun _ _ => 0)).supply
      ≠ [9223372036854775807, 9223372036854775807] ∧
    (newTransport [9223372036854775807, 9223372036854775807] [1] (fun _ _ => 0)).demand
      ≠ [1] ++ [exactTotal [9223372036854775807, 9223372036854775807] - exactTotal [1]] ∧
    (newTransport [9223372036854775807, 9223372036854775807] [1] (fun _ _ => 0)).supply
      = [9223372036854775807, 9223372036854775807, 3] ∧
    (newTransport [9223372036854775807, 9223372036854775807] [1] (fun _ _ => 0)).demand
      = [1] := by
  decide

/-- C6 (amended). Let `diff` be the difference of the sums as the program
computes it, in wrapping `int` arithmetic.  A positive `diff` leaves the supply
unchanged and appends `diff` to the demand; a negative `diff` leaves the demand
unchanged and appends `-diff`, computed in the same arithmetic, to the supply.
When the sums and their difference lie within the range of `int`, `diff` is the
difference of the sums and `-diff` its negative.  The cost matrix has one row
per supply entry and one column per demand entry, agrees with the input on the
original block and is zero on the dummy row or column. -/
theorem newTransport_balancing (src dst : List Int) (input : Nat → Nat → ℚ) :
    (0 < wrapInt (total src - total dst) →
      (newTransport src dst input).supply = src ∧
      (newTransport src dst input).demand = dst ++ [wrapInt (total src - total dst)]) ∧
    (wrapInt (total src - total dst) < 0 →
      (newTransport src dst input).demand = dst ∧
      (newTransport src dst input).supply
        = src ++ [wrapInt (- wrapInt (total src - total dst))]) ∧
    (-9223372036854775808 ≤ exactTotal src → exactTotal src < 9223372036854775808 →
      -9223372036854775808 ≤ exactTotal dst → exactTotal dst < 9223372036854775808 →
      -9223372036854775808 < exactTotal src - exactTotal dst →
      exactTotal src - exactTotal dst < 9223372036854775808 →
      wrapInt (total src - total dst) = exactTotal src - exactTotal dst ∧
      wrapInt (- wrapInt (total src - total dst)) = - (exactTotal src - exactTotal dst)) ∧
    (newTransport src dst input).costs.length = (newTransport src dst input).supply.length ∧
    (∀ r, r < (newTransport src dst input).supply.length →
      ((newTransport src dst input).costs.getD r []).length
        = (newTransport src dst input).demand.length) ∧
    (∀ i j, i < src.length → j < dst.length →
      costAt (newTransport src dst input).costs i j = input i j) ∧
    (∀ r c, src.length ≤ r ∨ dst.length ≤ c →
      costAt (newTransport src dst input).costs r c = 0) := by
  refine ⟨?_, ?_, balance_exact src dst, newTransport_costs src dst input⟩
  · intro h
    have h1 : wrapInt (total src - total dst) > 0 := h
    simp [newTransport, balance, h1]
  · intro h
    have h1 : ¬ wrapInt (total src - total dst) > 0 := by omega
    simp [newTransport, balance, h1, h]

/-- Supplies `[300,500]` against demands `[250,450]`: the difference `100` is
appended to the demand. -/
theorem newTransport_balancing_witness :
    (newTransport [300, 500] [250, 450] scenarioCosts).supply = [300, 500] ∧
    (newTransport [300, 500] [250, 450] scenarioCosts).demand
      = [250, 450] ++ [wrapInt (total [300, 500] - total [250, 450])] :=
  (newTransport_balancing [300, 500] [250, 450] scenarioCosts).1 (by decide)


/-! ## The concrete scenario -/

theorem steppingStone_converged (t : transport) (fuel : Nat)
    (h : (steppingStonePass t).2 = false) :
    steppingStone (fuel + 1) t = some (steppingStonePass t).1 := by
  simp [steppingStone, h]

theorem steppingStone_rotated (t : transport) (fuel : Nat)
    (h : (steppingStonePass t).2 = true) :
    steppingStone (fuel + 1) t = steppingStone fuel (steppingStonePass t).1 := by
  simp [steppingStone, h]

theorem steppingStone_stuck (t : transport) (h : steppingStonePass t = (t, true)) :
    ∀ fuel, steppingStone fuel t = none := by
  intro fuel
  induction fuel with
  | zero => rfl
  | succ n ih =>
    rw [steppingStone_rotated t n (by rw [h]), h]
    exact ih

theorem scenario_first_pass :
    steppingStonePass (northWestCornerRule scenario) =
      ({ supply := [0, 0], demand := [0, 0], costs := [[3, 1], [2, 4]],
         matrix := [[shipZero, ⟨300, 1, 0, 1⟩], [⟨250, 2, 1, 0⟩, ⟨150, 4, 1, 1⟩]] }, true) := by
  decide!

theorem scenario_second_pass :
    steppingStonePass
      { supply := [0, 0], demand := [0, 0], costs := [[3, 1], [2, 4]],
        matrix := [[shipZero, ⟨300, 1, 0, 1⟩], [⟨250, 2, 1, 0⟩, ⟨150, 4, 1, 1⟩]] } =
      ({ supply := [0, 0], demand := [0, 0], costs := [[3, 1], [2, 4]],
         matrix := [[shipZero, ⟨300, 1, 0, 1⟩], [⟨250, 2, 1, 0⟩, ⟨150, 4, 1, 1⟩]] }, false) := by
  decide!

theorem scenario_run (fuel : Nat) :
    steppingStone (fuel + 2) (northWestCornerRule scenario) =
      some { supply := [0, 0], demand := [0, 0], costs := [[3, 1], [2, 4]],
             matrix := [[shipZero, ⟨300, 1, 0, 1⟩], [⟨250, 2, 1, 0⟩, ⟨150, 4, 1, 1⟩]] } := by
  rw [steppingStone_rotated _ _ (by rw [scenario_first_pass]), scenario_first_pass,
    steppingStone_converged _ _ (by rw [scenario_second_pass]), scenario_second_pass]

theorem scenario_lower_bound (x00 x01 x10 x11 : ℚ) (h00 : 0 ≤ x00)
    (hr0 : x00 + x01 = 300) (hr1 : x10 + x11 = 400) (hc0 : x00 + x10 = 250) :
    1400 ≤ 3 * x00 + 1 * x01 + 2 * x10 + 4 * x11 := by
  linarith


/-- C10. On the scenario with supplies `[300,400]`, demands `[250,450]` and
costs `[[3,1],[2,4]]`, the northwest-corner rule followed by `steppingStone`
returns (two passes suffice, and any larger bound gives the same result) a grid
with `(0,1)=300`, `(1,0)=250`, `(1,1)=150` and `(0,0)` not basic, of total cost
`1400`; and every allocation with non-negative quantities, row sums `300`,
`400` and column sums `250`, `450` costs at least `1400`. -/
theorem scenario_optimum :
    (∀ fuel, ∃ t, steppingStone (fuel + 2) (northWestCornerRule scenario) = some t ∧
      cellAt t.matrix 0 0 = shipZero ∧
      cellAt t.matrix 0 1 = ⟨300, 1, 0, 1⟩ ∧
      cellAt t.matrix 1 0 = ⟨250, 2, 1, 0⟩ ∧
      cellAt t.matrix 1 1 = ⟨150, 4, 1, 1⟩ ∧
      totalCost t = 1400) ∧
    (∀ x00 x01 x10 x11 : ℚ, 0 ≤ x00 → 0 ≤ x01 → 0 ≤ x10 → 0 ≤ x11 →
      x00 + x01 = 300 → x10 + x11 = 400 → x00 + x10 = 250 → x01 + x11 = 450 →
      1400 ≤ scenarioCosts 0 0 * x00 + scenarioCosts 0 1 * x01
        + scenarioCosts 1 0 * x10 + scenarioCosts 1 1 * x11) := by
  constructor
  · intro fuel
    refine ⟨_, scenario_run fuel, ?_, ?_, ?_, ?_, ?_⟩ <;> decide!
  · intro x00 x01 x10 x11 h00 _ _ _ hr0 hr1 hc0 _
    have e00 : scenarioCosts 0 0 = 3 := by decide!
    have e01 : scenarioCosts 0 1 = 1 := by decide!
    have e10 : scenarioCosts 1 0 = 2 := by decide!
    have e11 : scenarioCosts 1 1 = 4 := by decide!
    rw [e00, e01, e10, e11]
    exact scenario_lower_bound x00 x01 x10 x11 h00 hr0 hr1 hc0

/-- The northwest-corner allocation of the scenario is feasible, hence costs at
least the optimum. -/
theorem scenario_optimum_witness :
    1400 ≤ scenarioCosts 0 0 * 250 + scenarioCosts 0 1 * 50
        + scenarioCosts 1 0 * 0 + scenarioCosts 1 1 * 400 :=
  scenario_optimum.2 250 50 0 400 (by norm_num) (by norm_num) (by norm_num) (by norm_num)
    (by norm_num) (by norm_num) (by norm_num) (by norm_num)

/-! ## Quantities at or above `math.MaxInt32` -/

theorem largeScenario_pass :
    steppingStonePass (northWestCornerRule largeScenario) =
      (northWestCornerRule largeScenario, true) := by
  decide!

/-- C4 (failing input). On supplies `[3000000000,4000000000]`, demands
`[2500000000,4500000000]` and costs `[[3,1],[2,4]]` the first pass finds the
closed path of cell `(1,0)` with net delta `-4` and applies a rotation, but no
quantity on the path is below `math.MaxInt32`, so the leaving cell stays the
sentinel, the amount rotated is zero, the grid and its total cost are unchanged
and the recursion never ends. -/
theorem largeScenario_rotation_keeps_cost :
    (scanCells (fixDegenerateCase (northWestCornerRule largeScenario))).maxReduction = -4 ∧
    (scanCells (fixDegenerateCase (northWestCornerRule largeScenario))).leaving = shipZero ∧
    (steppingStonePass (northWestCornerRule largeScenario)).2 = true ∧
    totalCost (steppingStonePass (northWestCornerRule largeScenario)).1
      = totalCost (northWestCornerRule largeScenario) ∧
    ∀ fuel, steppingStone fuel (northWestCornerRule largeScenario) = none := by
  refine ⟨by decide!, by decide!, by rw [largeScenario_pass], by rw [largeScenario_pass], ?_⟩
  exact steppingStone_stuck _ largeScenario_pass

/-! ## The candidate at the origin -/

/-- C9 (failing input). After the first pass on supplies `[300,400]`, demands
`[250,450]` and costs `[[0,0],[0,10]]` the basic cells are `(0,1)`, `(1,0)`,
`(1,1)`: they number `rows+cols-1` and contain no cycle, and `(0,0)` is not
basic.  Its candidate `{0, costs[0][0], 0, 0}` equals the sentinel, and
`getClosedPath` returns the empty path although the four cells form a cycle
(which the same call finds when the candidate carries another cost). -/
theorem origin_candidate_path_empty :
    (steppingStonePass (northWestCornerRule originScenario)).1.supply.length = 2 ∧
    (steppingStonePass (northWestCornerRule originScenario)).1.demand.length = 2 ∧
    basicCount (steppingStonePass (northWestCornerRule originScenario)).1.matrix = 2 + 2 - 1 ∧
    noCycle (matrixToList (steppingStonePass (northWestCornerRule originScenario)).1.matrix) ∧
    cellAt (steppingStonePass (northWestCornerRule originScenario)).1.matrix 0 0 = shipZero ∧
    getClosedPath (steppingStonePass (northWestCornerRule originScenario)).1.matrix
      ⟨0, costAt (steppingStonePass (northWestCornerRule originScenario)).1.costs 0 0, 0, 0⟩ = [] ∧
    (getClosedPath (steppingStonePass (northWestCornerRule originScenario)).1.matrix
      ⟨0, 1, 0, 0⟩).length = 4 := by
  decide!

/-! ## Grids with cycles, and grids short of two basic cells -/

/-- C7 (counterexample). With three sources and three destinations of capacity
one the northwest-corner rule leaves three basic cells; `fixDegenerateCase`
adds one cell and returns, leaving four basic cells where `3 + 3 - 1 = 5` are
claimed. -/
theorem diagonalScenario_still_degenerate :
    (northWestCornerRule diagonalScenario).supply.length = 3 ∧
    (northWestCornerRule diagonalScenario).demand.length = 3 ∧
    basicCount (northWestCornerRule diagonalScenario).matrix = 3 ∧
    basicCount (fixDegenerateCase (northWestCornerRule diagonalScenario)).matrix = 4 ∧
    basicCount (fixDegenerateCase (northWestCornerRule diagonalScenario)).matrix ≠ 3 + 3 - 1 := by
  decide!


/-! ## Counting basic cells -/

theorem countP_flatten_set {α : Type} (p : α → Bool) (m : List (List α)) (r : Nat)
    (row : List α) (h : r < m.length) :
    List.countP p (m.set r row).flatten + List.countP p (m.getD r [])
      = List.countP p m.flatten + List.countP p row := by
  induction m generalizing r with
  | nil => simp at h
  | cons x xs ih =>
    cases r with
    | zero =>
      simp only [List.set_cons_zero, List.flatten_cons, List.countP_append, List.getD_cons_zero]
      omega
    | succ k =>
      have hk : k < xs.length := by simpa using h
      have := ih k hk
      simp only [List.set_cons_succ, List.flatten_cons, List.countP_append, List.getD_cons_succ]
      omega

theorem basicCount_eq_countP (m : List (List shipment)) :
    basicCount m = List.countP (fun s => decide (s ≠ shipZero)) m.flatten := by
  simp [basicCount, matrixToList, List.countP_eq_length_filter]

theorem basicCount_setCell (m : List (List shipment)) (r c : Nat) (v : shipment)
    (hr : r < m.length) (hc : c < (m.getD r []).length)
    (hold : cellAt m r c = shipZero) (hv : v ≠ shipZero) :
    basicCount (setCell m r c v) = basicCount m + 1 := by
  rw [basicCount_eq_countP, basicCount_eq_countP]
  have h1 := countP_flatten_set (fun s => decide (s ≠ shipZero)) m r ((m.getD r []).set c v) hr
  have h2 := List.countP_set (fun s => decide (s ≠ shipZero)) (m.getD r []) c v hc
  have h3 : (m.getD r [])[c] = shipZero := by
    have : cellAt m r c = (m.getD r [])[c] := by
      unfold cellAt
      exact List.getD_eq_getElem _ _ hc
    rw [← this, hold]
  have hp0 : decide (shipZero ≠ shipZero) = false := by simp
  have hp1 : decide (v ≠ shipZero) = true := by simpa using hv
  rw [h3, hp0, hp1] at h2
  simp only [Bool.false_eq_true, if_false, if_true, Nat.sub_zero] at h2
  unfold setCell
  omega

theorem findDegenerateFix_some (t : transport) (d : shipment)
    (h : findDegenerateFix t = some d) :
    d.r < t.supply.length ∧ d.c < t.demand.length ∧ cellAt t.matrix d.r d.c = shipZero ∧
      d = ⟨eps, costAt t.costs d.r d.c, d.r, d.c⟩ ∧ getClosedPath t.matrix d = [] := by
  unfold findDegenerateFix at h
  obtain ⟨r, hr, h1⟩ := List.exists_of_findSome?_eq_some h
  obtain ⟨c, hc, h2⟩ := List.exists_of_findSome?_eq_some h1
  rw [List.mem_range] at hr hc
  by_cases hz : cellAt t.matrix r c = shipZero
  · rw [if_pos hz] at h2
    by_cases hp : (getClosedPath t.matrix ⟨eps, costAt t.costs r c, r, c⟩).length = 0
    · simp only [hp, if_true, Option.some.injEq] at h2
      subst h2
      exact ⟨hr, hc, hz, rfl, List.length_eq_zero.mp hp⟩
    · simp [hp] at h2
  · simp [hz] at h2

theorem eps_ne_zero : eps ≠ 0 := by
  unfold eps
  positivity

theorem fixDegenerateCase_count (t : transport)
    (hrows : t.matrix.length = t.supply.length)
    (hcols : ∀ r, r < t.supply.length → (t.matrix.getD r []).length = t.demand.length) :
    basicCount (fixDegenerateCase t).matrix =
      if (t.supply.length : Int) + t.demand.length - 1 ≠ basicCount t.matrix ∧
          (findDegenerateFix t).isSome = true
      then basicCount t.matrix + 1 else basicCount t.matrix := by
  unfold fixDegenerateCase
  by_cases hcnt : (t.supply.length : Int) + t.demand.length - 1 ≠ (matrixToList t.matrix).length
  · rw [if_pos hcnt]
    cases hf : findDegenerateFix t with
    | none => simp
    | some d =>
      obtain ⟨hr, hc, hz, hd, _⟩ := findDegenerateFix_some t d hf
      have hne : d ≠ shipZero := by
        intro h0
        have : d.quantity = eps := by rw [hd]
        rw [h0] at this
        exact eps_ne_zero this.symm
      have := basicCount_setCell t.matrix d.r d.c d (by omega) (by rw [hcols _ hr]; exact hc) hz hne
      have hcnt1 : (t.supply.length : Int) + t.demand.length - 1 ≠ basicCount t.matrix := hcnt
      simp only [Option.isSome_some, and_true]
      rw [if_pos hcnt1]
      exact this
  · rw [if_neg hcnt]
    have : ¬ ((t.supply.length : Int) + t.demand.length - 1 ≠ basicCount t.matrix ∧
          (findDegenerateFix t).isSome = true) := fun h => hcnt h.1
    rw [if_neg this]

/-- C7 (amended). On a grid whose matrix has one row per supply entry and one
cell per demand entry in every row, `fixDegenerateCase` leaves the number of
basic cells unchanged, or raises it by one when it differed from
`len(supply) + len(demand) - 1` and some cell that is not basic has an empty
closed path.  Hence the number is `len(supply) + len(demand) - 1` after the call
when it was so before, or when it was one less and such a cell exists. -/
theorem fixDegenerateCase_basicCount (t : transport)
    (hrows : t.matrix.length = t.supply.length)
    (hcols : ∀ r, r < t.supply.length → (t.matrix.getD r []).length = t.demand.length) :
    (basicCount (fixDegenerateCase t).matrix =
      if (t.supply.length : Int) + t.demand.length - 1 ≠ basicCount t.matrix ∧
          (findDegenerateFix t).isSome = true
      then basicCount t.matrix + 1 else basicCount t.matrix) ∧
    ((basicCount t.matrix : Int) = t.supply.length + t.demand.length - 1 →
      (basicCount (fixDegenerateCase t).matrix : Int)
        = t.supply.length + t.demand.length - 1) ∧
    ((basicCount t.matrix : Int) + 1 = t.supply.length + t.demand.length - 1 →
      (findDegenerateFix t).isSome = true →
      (basicCount (fixDegenerateCase t).matrix : Int)
        = t.supply.length + t.demand.length - 1) := by
  have h := fixDegenerateCase_count t hrows hcols
  refine ⟨h, ?_, ?_⟩
  · intro h1
    have : ¬ ((t.supply.length : Int) + t.demand.length - 1 ≠ basicCount t.matrix ∧
          (findDegenerateFix t).isSome = true) := fun hh => hh.1 h1.symm
    rw [if_neg this] at h
    rw [h, h1]
  · intro h1 h2
    have : (t.supply.length : Int) + t.demand.length - 1 ≠ basicCount t.matrix ∧
          (findDegenerateFix t).isSome = true := ⟨by omega, h2⟩
    rw [if_pos this] at h
    rw [h]
    push_cast
    omega


/-- On the square scenario the northwest-corner rule leaves two basic cells and
the repair brings them to `2 + 2 - 1`. -/
theorem fixDegenerateCase_basicCount_witness :
    (northWestCornerRule squareScenario).matrix.length
      = (northWestCornerRule squareScenario).supply.length ∧
    (basicCount (northWestCornerRule squareScenario).matrix : Int) + 1
      = (northWestCornerRule squareScenario).supply.length
        + (northWestCornerRule squareScenario).demand.length - 1 ∧
    (basicCount (fixDegenerateCase (northWestCornerRule squareScenario)).matrix : Int)
      = (northWestCornerRule squareScenario).supply.length
        + (northWestCornerRule squareScenario).demand.length - 1 :=
  ⟨by decide!, by decide!,
    (fixDegenerateCase_basicCount (northWestCornerRule squareScenario) (by decide!)
      (by decide!)).2.2 (by decide!) (by decide!)⟩


/-! ## Capacity vectors -/

theorem getD_set_int (l : List Int) (i j : Nat) (v : Int) :
    (l.set i v).getD j 0 = if i = j ∧ i < l.length then v else l.getD j 0 := by
  simp only [List.getD_eq_getElem?_getD, List.getElem?_set]
  by_cases h : i = j
  · subst h
    by_cases hl : i < l.length
    · simp [hl]
    · have : l[i]? = none := List.getElem?_eq_none (Nat.le_of_not_lt hl)
      simp [hl, this]
  · simp [h]

theorem total_eq_sum (l : List Int) : exactTotal l = l.sum := rfl

theorem total_cons (x : Int) (l : List Int) : exactTotal (x :: l) = x + exactTotal l := by
  simp [total_eq_sum]

theorem total_set (l : List Int) (i : Nat) (v : Int) (h : i < l.length) :
    exactTotal (l.set i v) = exactTotal l - l.getD i 0 + v := by
  induction l generalizing i with
  | nil => simp at h
  | cons x xs ih =>
    cases i with
    | zero => simp only [List.set_cons_zero, total_cons, List.getD_cons_zero]; omega
    | succ k =>
      have hk : k < xs.length := by simpa using h
      simp only [List.set_cons_succ, total_cons, List.getD_cons_succ, ih k hk]
      omega

theorem getD_le_total (l : List Int) (h : ∀ j, 0 ≤ l.getD j 0) (r : Nat) :
    l.getD r 0 ≤ exactTotal l := by
  induction l generalizing r with
  | nil => simp [exactTotal]
  | cons x xs ih =>
    have hx : 0 ≤ x := by simpa using h 0
    have hxs : ∀ j, 0 ≤ xs.getD j 0 := fun j => by simpa using h (j + 1)
    have h0 : 0 ≤ exactTotal xs := by
      have := ih hxs xs.length
      rw [List.getD_eq_default _ _ (le_refl _)] at this
      exact this
    rw [total_cons]
    cases r with
    | zero => simp only [List.getD_cons_zero]; omega
    | succ k =>
      have := ih hxs k
      simp only [List.getD_cons_succ]
      omega

theorem total_eq_zero (l : List Int) (h : ∀ j, j < l.length → l.getD j 0 = 0) :
    exactTotal l = 0 := by
  induction l with
  | nil => simp [exactTotal]
  | cons x xs ih =>
    have hx : x = 0 := by simpa using h 0 (by simp)
    have hxs : ∀ j, j < xs.length → xs.getD j 0 = 0 := fun j hj => by
      simpa using h (j + 1) (by simpa using hj)
    rw [total_cons, ih hxs, hx]
    rfl

theorem getD_eq_zero_of_total (l : List Int) (h : ∀ j, 0 ≤ l.getD j 0) (h0 : exactTotal l = 0)
    (r : Nat) : l.getD r 0 = 0 := by
  have h1 := getD_le_total l h r
  have h2 := h r
  omega

theorem mem_eq_zero (l : List Int) (h : ∀ j, l.getD j 0 = 0) : ∀ x ∈ l, x = 0 := by
  intro x hx
  obtain ⟨n, hn, rfl⟩ := List.mem_iff_getElem.mp hx
  have := h n
  rwa [List.getD_eq_getElem _ _ hn] at this

theorem getD_nonneg (l : List Int) (h : ∀ x ∈ l, 0 ≤ x) (j : Nat) : 0 ≤ l.getD j 0 := by
  by_cases hj : j < l.length
  · rw [List.getD_eq_getElem _ _ hj]
    exact h _ (List.getElem_mem hj)
  · rw [List.getD_eq_default _ _ (Nat.le_of_not_lt hj)]

theorem getD_le_of_mem (l : List Int) (B : Int) (hB : 0 ≤ B) (h : ∀ x ∈ l, x ≤ B) (j : Nat) :
    l.getD j 0 ≤ B := by
  by_cases hj : j < l.length
  · rw [List.getD_eq_getElem _ _ hj]
    exact h _ (List.getElem_mem hj)
  · rw [List.getD_eq_default _ _ (Nat.le_of_not_lt hj)]
    exact hB

theorem sum_range_getD (l : List Int) :
    ((List.range l.length).map (fun r => (l.getD r 0 : ℚ))).sum = (exactTotal l : ℚ) := by
  induction l using List.reverseRecOn with
  | nil => simp [exactTotal]
  | append_singleton xs x ih =>
    rw [List.length_append, List.length_singleton, List.sum_range_succ, exactTotal_append]
    have h1 : (List.map (fun r => ((xs ++ [x]).getD r 0 : ℚ)) (List.range xs.length))
        = List.map (fun r => (xs.getD r 0 : ℚ)) (List.range xs.length) := by
      apply List.map_congr_left
      intro r hr
      rw [List.mem_range] at hr
      simp [List.getD_eq_getElem?_getD, List.getElem?_append, hr]
    have h2 : (xs ++ [x]).getD xs.length 0 = x := by
      simp [List.getD_eq_getElem?_getD, List.getElem?_append]
    rw [h1, ih, h2]
    push_cast
    ring

/-! ## Sums over a range -/

theorem sum_range_congr (f g : Nat → ℚ) (n : Nat) (h : ∀ c, c < n → g c = f c) :
    ((List.range n).map g).sum = ((List.range n).map f).sum := by
  congr 1
  apply List.map_congr_left
  intro c hc
  exact h c (List.mem_range.mp hc)

theorem sum_range_update (f g : Nat → ℚ) (n c0 : Nat) (hc0 : c0 < n)
    (h : ∀ c, c ≠ c0 → g c = f c) :
    ((List.range n).map g).sum = ((List.range n).map f).sum - f c0 + g c0 := by
  induction n with
  | zero => omega
  | succ n ih =>
    rw [List.sum_range_succ, List.sum_range_succ]
    by_cases hn : c0 = n
    · subst hn
      rw [sum_range_congr f g c0 (fun c hc => h c (by omega))]
      ring
    · rw [ih (by omega), h n (fun e => hn e.symm)]
      ring


/-! ## One allocation of the northwest-corner rule -/

theorem basicQuantity_eq (s : shipment) : basicQuantity s = s.quantity := by
  unfold basicQuantity
  by_cases h : s = shipZero
  · subst h
    simp [shipZero]
  · simp [h]

theorem minOf_le_left (a b : Int) : minOf a b ≤ a := by
  unfold minOf
  split_ifs <;> omega

theorem minOf_le_right (a b : Int) : minOf a b ≤ b := by
  unfold minOf
  split_ifs <;> omega

theorem minOf_eq (a b : Int) : minOf a b = a ∨ minOf a b = b := by
  unfold minOf
  split_ifs
  · exact Or.inl rfl
  · exact Or.inr rfl

theorem cellAt_allocate (t0 t : transport) (h : nwInv t0 t) (r c : Nat) (q : Int)
    (hr : r < t0.supply.length) (hc : c < t0.demand.length) (r1 c1 : Nat) :
    cellAt (allocate t r c q).matrix r1 c1 =
      if r1 = r ∧ c1 = c then ⟨ofInt q, costAt t.costs r c, r, c⟩ else cellAt t.matrix r1 c1 := by
  simp only [allocate]
  rw [cellAt_setCell]
  have h1 : r < t.matrix.length := by rw [h.rows]; exact hr
  have h2 : c < (t.matrix.getD r []).length := by rw [h.cols r hr]; exact hc
  by_cases hrc : r1 = r ∧ c1 = c
  · rw [if_pos hrc, if_pos ⟨hrc.1, hrc.2, h1, h2⟩]
  · rw [if_neg hrc, if_neg (fun hh => hrc ⟨hh.1, hh.2.1⟩)]

theorem rowSum_allocate (t0 t : transport) (h : nwInv t0 t) (r c : Nat) (q : Int)
    (hr : r < t0.supply.length) (hc : c < t0.demand.length)
    (hcell : cellAt t.matrix r c = shipZero) (r1 : Nat) :
    rowSum (allocate t r c q) r1 = if r1 = r then rowSum t r + ofInt q else rowSum t r1 := by
  have hlen : (allocate t r c q).demand.length = t.demand.length := by simp [allocate]
  unfold rowSum
  rw [hlen]
  by_cases hr1 : r1 = r
  · subst hr1
    rw [if_pos rfl, sum_range_update (fun c1 => basicQuantity (cellAt t.matrix r1 c1))
      (fun c1 => basicQuantity (cellAt (allocate t r1 c q).matrix r1 c1)) t.demand.length c
      (by rw [h.demand_len]; exact hc)]
    · rw [cellAt_allocate t0 t h r1 c q hr hc, if_pos ⟨rfl, rfl⟩, hcell, basicQuantity_eq,
        basicQuantity_eq]
      simp [shipZero]
    · intro c1 hc1
      show basicQuantity (cellAt (allocate t r1 c q).matrix r1 c1) = _
      rw [cellAt_allocate t0 t h r1 c q hr hc, if_neg (fun hh => hc1 hh.2)]
  · rw [if_neg hr1]
    apply sum_range_congr
    intro c1 _
    rw [cellAt_allocate t0 t h r c q hr hc, if_neg (fun hh => hr1 hh.1)]

theorem colSum_allocate (t0 t : transport) (h : nwInv t0 t) (r c : Nat) (q : Int)
    (hr : r < t0.supply.length) (hc : c < t0.demand.length)
    (hcell : cellAt t.matrix r c = shipZero) (c1 : Nat) :
    colSum (allocate t r c q) c1 = if c1 = c then colSum t c + ofInt q else colSum t c1 := by
  have hlen : (allocate t r c q).supply.length = t.supply.length := by simp [allocate]
  unfold colSum
  rw [hlen]
  by_cases hc1 : c1 = c
  · subst hc1
    rw [if_pos rfl, sum_range_update (fun r1 => basicQuantity (cellAt t.matrix r1 c1))
      (fun r1 => basicQuantity (cellAt (allocate t r c1 q).matrix r1 c1)) t.supply.length r
      (by rw [h.supply_len]; exact hr)]
    · rw [cellAt_allocate t0 t h r c1 q hr hc, if_pos ⟨rfl, rfl⟩, hcell, basicQuantity_eq,
        basicQuantity_eq]
      simp [shipZero]
    · intro r1 hr1
      show basicQuantity (cellAt (allocate t r c1 q).matrix r1 c1) = _
      rw [cellAt_allocate t0 t h r c1 q hr hc, if_neg (fun hh => hr1 hh.1)]
  · rw [if_neg hc1]
    apply sum_range_congr
    intro r1 _
    rw [cellAt_allocate t0 t h r c q hr hc, if_neg (fun hh => hc1 hh.2)]

theorem supply_allocate (t : transport) (r c : Nat) (q : Int) (r1 : Nat) :
    (allocate t r c q).supply.getD r1 0 =
      if r = r1 ∧ r < t.supply.length then t.supply.getD r 0 - q else t.supply.getD r1 0 := by
  simp only [allocate]
  rw [getD_set_int]

theorem demand_allocate (t : transport) (r c : Nat) (q : Int) (c1 : Nat) :
    (allocate t r c q).demand.getD c1 0 =
      if c = c1 ∧ c < t.demand.length then t.demand.getD c 0 - q else t.demand.getD c1 0 := by
  simp only [allocate]
  rw [getD_set_int]

theorem nwInv_allocate (t0 t : transport) (h : nwInv t0 t) (r c : Nat)
    (hr : r < t0.supply.length) (hc : c < t0.demand.length)
    (hcell : cellAt t.matrix r c = shipZero)
    (hpos : 0 < minOf (t.supply.getD r 0) (t.demand.getD c 0)) :
    nwInv t0 (allocate t r c (minOf (t.supply.getD r 0) (t.demand.getD c 0))) := by
  have hr1 : r < t.supply.length := by rw [h.supply_len]; exact hr
  have hc1 : c < t.demand.length := by rw [h.demand_len]; exact hc
  have hqs := minOf_le_left (t.supply.getD r 0) (t.demand.getD c 0)
  have hqd := minOf_le_right (t.supply.getD r 0) (t.demand.getD c 0)
  have hq0 : 0 ≤ minOf (t.supply.getD r 0) (t.demand.getD c 0) := by
    have h1 := h.supply_nonneg r
    have h2 := h.demand_nonneg c
    rcases minOf_eq (t.supply.getD r 0) (t.demand.getD c 0) with e | e <;> omega
  have hexact : capped t0 → ofInt (minOf (t.supply.getD r 0) (t.demand.getD c 0))
      = ((minOf (t.supply.getD r 0) (t.demand.getD c 0) : Int) : ℚ) := by
    intro hcap
    apply ofInt_nonneg _ hq0
    rcases hcap with hcap | hcap
    · have h1 := getD_le_of_mem _ _ (by decide) hcap r
      have h2 := h.supply_le r
      have e : (2 : Int) ^ 53 = 9007199254740992 := by norm_num
      rw [e]
      omega
    · have h1 := getD_le_of_mem _ _ (by decide) hcap c
      have h2 := h.demand_le c
      have e : (2 : Int) ^ 53 = 9007199254740992 := by norm_num
      rw [e]
      omega
  refine
    { supply_len := by simp [allocate, h.supply_len]
      demand_len := by simp [allocate, h.demand_len]
      rows := by simp only [allocate]; rw [length_setCell, h.rows]
      cols := ?_
      supply_nonneg := ?_
      demand_nonneg := ?_
      supply_le := ?_
      demand_le := ?_
      row_sum := ?_
      col_sum := ?_
      cell_whole := ?_
      balanced := ?_ }
  · intro r1 hr1
    simp only [allocate]
    rw [rowLength_setCell, h.cols r1 hr1]
  · intro r1
    rw [supply_allocate]
    split_ifs with hh
    · omega
    · exact h.supply_nonneg r1
  · intro c1
    rw [demand_allocate]
    split_ifs with hh
    · omega
    · exact h.demand_nonneg c1
  · intro r1
    rw [supply_allocate]
    split_ifs with hh
    · have := h.supply_le r1
      rw [← hh.1] at this ⊢
      omega
    · exact h.supply_le r1
  · intro c1
    rw [demand_allocate]
    split_ifs with hh
    · have := h.demand_le c1
      rw [← hh.1] at this ⊢
      omega
    · exact h.demand_le c1
  · intro hcap r1 hr1'
    rw [rowSum_allocate t0 t h r c _ hr hc hcell, supply_allocate]
    by_cases e : r1 = r
    · subst e
      rw [if_pos rfl, if_pos ⟨rfl, hr1⟩, ← h.row_sum hcap r1 hr, hexact hcap]
      push_cast
      ring
    · rw [if_neg e, if_neg (fun hh => e hh.1.symm)]
      exact h.row_sum hcap r1 hr1'
  · intro hcap c1 hc1'
    rw [colSum_allocate t0 t h r c _ hr hc hcell, demand_allocate]
    by_cases e : c1 = c
    · subst e
      rw [if_pos rfl, if_pos ⟨rfl, hc1⟩, ← h.col_sum hcap c1 hc, hexact hcap]
      push_cast
      ring
    · rw [if_neg e, if_neg (fun hh => e hh.1.symm)]
      exact h.col_sum hcap c1 hc1'
  · intro hcap r1 c1
    rw [cellAt_allocate t0 t h r c _ hr hc]
    by_cases e : r1 = r ∧ c1 = c
    · rw [if_pos e]
      right
      show whole (ofInt (minOf (t.supply.getD r 0) (t.demand.getD c 0)))
      rw [hexact hcap, whole_iff]
      refine ⟨(minOf (t.supply.getD r 0) (t.demand.getD c 0)).toNat, by omega, ?_⟩
      have e2 : (((minOf (t.supply.getD r 0) (t.demand.getD c 0)).toNat : Int) : ℚ)
          = ((minOf (t.supply.getD r 0) (t.demand.getD c 0) : Int) : ℚ) := by
        rw [Int.toNat_of_nonneg hq0]
      rw [← e2]
      norm_cast
    · rw [if_neg e]
      exact h.cell_whole hcap r1 c1
  · simp only [allocate]
    rw [total_set _ _ _ hr1, total_set _ _ _ hc1, h.balanced]
    omega


theorem nwShape_weaken (t : transport) (rb cb rb1 cb1 : Nat) (h : nwShape t rb cb)
    (hr : rb ≤ rb1) (hc : cb ≤ cb1) : nwShape t rb1 cb1 :=
  { cell := h.cell
    bound := fun r c hne => ⟨le_trans (h.bound r c hne).1 hr, le_trans (h.bound r c hne).2 hc⟩
    mono := h.mono }

theorem nwShape_allocate (t0 t : transport) (hinv : nwInv t0 t) (r c : Nat) (q : Int)
    (hr : r < t0.supply.length) (hc : c < t0.demand.length) (hq : 0 < q)
    (h : nwShape t r c) : nwShape (allocate t r c q) r c := by
  have hcell := cellAt_allocate t0 t hinv r c q hr hc
  have hnew : ∀ r1 c1, cellAt (allocate t r c q).matrix r1 c1 ≠ shipZero →
      (r1 = r ∧ c1 = c) ∨ cellAt t.matrix r1 c1 ≠ shipZero := by
    intro r1 c1 hne
    rw [hcell] at hne
    by_cases e : r1 = r ∧ c1 = c
    · exact Or.inl e
    · rw [if_neg e] at hne
      exact Or.inr hne
  refine { cell := ?_, bound := ?_, mono := ?_ }
  · intro r1 c1
    rw [hcell]
    by_cases e : r1 = r ∧ c1 = c
    · rw [if_pos e]
      right
      refine ⟨e.1.symm, e.2.symm, ?_⟩
      show (0 : ℚ) < ofInt q
      exact ofInt_pos q hq
    · rw [if_neg e]
      exact h.cell r1 c1
  · intro r1 c1 hne
    rcases hnew r1 c1 hne with e | e
    · exact ⟨le_of_eq e.1, le_of_eq e.2⟩
    · exact h.bound r1 c1 e
  · intro r1 c1 r2 c2 h1 h2 hlt
    rcases hnew r1 c1 h1 with e1 | e1
    · rcases hnew r2 c2 h2 with e2 | e2
      · omega
      · have := (h.bound r2 c2 e2).1
        omega
    · rcases hnew r2 c2 h2 with e2 | e2
      · have := (h.bound r1 c1 e1).2
        omega
      · exact h.mono r1 c1 r2 c2 e1 e2 hlt

/-! ## The loops of the northwest-corner rule -/

theorem nwInner_skip (r n c nw : Nat) (t : transport)
    (h : ¬ minOf (t.supply.getD r 0) (t.demand.getD c 0) > 0) :
    nwInner r (n + 1) c nw t = nwInner r n (c + 1) nw t := by
  simp only [nwInner, h, if_false]

theorem nwInner_break (r n c nw : Nat) (t : transport)
    (h : minOf (t.supply.getD r 0) (t.demand.getD c 0) > 0)
    (h0 : (allocate t r c (minOf (t.supply.getD r 0) (t.demand.getD c 0))).supply.getD r 0 = 0) :
    nwInner r (n + 1) c nw t
      = (allocate t r c (minOf (t.supply.getD r 0) (t.demand.getD c 0)), c) := by
  simp only [nwInner, h, h0, if_true]

theorem nwInner_continue (r n c nw : Nat) (t : transport)
    (h : minOf (t.supply.getD r 0) (t.demand.getD c 0) > 0)
    (h0 : ¬ (allocate t r c (minOf (t.supply.getD r 0) (t.demand.getD c 0))).supply.getD r 0 = 0) :
    nwInner r (n + 1) c nw t
      = nwInner r n (c + 1) nw
          (allocate t r c (minOf (t.supply.getD r 0) (t.demand.getD c 0))) := by
  simp only [nwInner, h, h0, if_true, if_false]

theorem nwInner_spec (t0 : transport) (r nw : Nat) (hr : r < t0.supply.length)
    (hnw : nw ≤ t0.demand.length) :
    ∀ (n c : Nat) (t : transport), nwInv t0 t → c + n = t0.demand.length → nw ≤ c →
      (∀ c1, c ≤ c1 → cellAt t.matrix r c1 = shipZero) →
      (∀ r1 c1, r < r1 → cellAt t.matrix r1 c1 = shipZero) →
      ((t.supply.getD r 0 = 0 ∧ ∀ j, j < nw → t.demand.getD j 0 = 0) ∨
        (∀ j, j < c → t.demand.getD j 0 = 0)) →
      (nwShape t r nw ∨ t.supply.getD r 0 ≠ 0) → nwShape t r c →
      nwShape (nwInner r n c nw t).1 r (nwInner r n c nw t).2 ∧
      nwInv t0 (nwInner r n c nw t).1 ∧
      (∀ r1 c1, r < r1 → cellAt (nwInner r n c nw t).1.matrix r1 c1 = shipZero) ∧
      (∀ r1, r1 ≠ r → (nwInner r n c nw t).1.supply.getD r1 0 = t.supply.getD r1 0) ∧
      (nwInner r n c nw t).1.supply.getD r 0 = 0 ∧
      (∀ j, j < (nwInner r n c nw t).2 → (nwInner r n c nw t).1.demand.getD j 0 = 0) ∧
      (nwInner r n c nw t).2 ≤ t0.demand.length := by
  intro n
  induction n with
  | zero =>
    intro c t hinv hcn hnwc _ hbelow hq hsh0 _
    have hc : c = t0.demand.length := by omega
    have e : nwInner r 0 c nw t = (t, nw) := rfl
    rw [e]
    have key : t.supply.getD r 0 = 0 ∧ ∀ j, j < nw → t.demand.getD j 0 = 0 := by
      rcases hq with hq | hq
      · exact hq
      · have hd0 : exactTotal t.demand = 0 :=
          total_eq_zero _ (fun j hj => hq j (by rw [hinv.demand_len] at hj; omega))
        have hs0 : exactTotal t.supply = 0 := by rw [hinv.balanced, hd0]
        exact ⟨getD_eq_zero_of_total _ hinv.supply_nonneg hs0 r, fun j hj => hq j (by omega)⟩
    refine ⟨?_, hinv, hbelow, fun _ _ => rfl, key.1, key.2, hnw⟩
    rcases hsh0 with a | a
    · exact a
    · exact absurd key.1 a
  | succ n ih =>
    intro c t hinv hcn hnwc hrow hbelow hq hsh0 hsh
    have hcC : c < t0.demand.length := by omega
    have hsn := hinv.supply_nonneg r
    have hdn := hinv.demand_nonneg c
    by_cases hpos : minOf (t.supply.getD r 0) (t.demand.getD c 0) > 0
    · -- an allocation is made
      have hqs := minOf_le_left (t.supply.getD r 0) (t.demand.getD c 0)
      have hqd := minOf_le_right (t.supply.getD r 0) (t.demand.getD c 0)
      have hprev : ∀ j, j < c → t.demand.getD j 0 = 0 := by
        rcases hq with hq | hq
        · omega
        · exact hq
      have hinv1 := nwInv_allocate t0 t hinv r c hr hcC (hrow c (le_refl c)) hpos
      have hsh1 := nwShape_allocate t0 t hinv r c _ hr hcC hpos hsh
      have hr1 : r < t.supply.length := by rw [hinv.supply_len]; exact hr
      have hc1 : c < t.demand.length := by rw [hinv.demand_len]; exact hcC
      have hS : ∀ r1, r1 ≠ r →
          (allocate t r c (minOf (t.supply.getD r 0) (t.demand.getD c 0))).supply.getD r1 0
            = t.supply.getD r1 0 := by
        intro r1 hne
        rw [supply_allocate, if_neg (fun hh => hne hh.1.symm)]
      have hD : ∀ j, j ≠ c →
          (allocate t r c (minOf (t.supply.getD r 0) (t.demand.getD c 0))).demand.getD j 0
            = t.demand.getD j 0 := by
        intro j hne
        rw [demand_allocate, if_neg (fun hh => hne hh.1.symm)]
      have hbelow1 : ∀ r1 c1, r < r1 →
          cellAt (allocate t r c (minOf (t.supply.getD r 0) (t.demand.getD c 0))).matrix r1 c1
            = shipZero := by
        intro r1 c1 hlt
        rw [cellAt_allocate t0 t hinv r c _ hr hcC, if_neg (fun hh => by omega)]
        exact hbelow r1 c1 hlt
      by_cases h0 : (allocate t r c (minOf (t.supply.getD r 0) (t.demand.getD c 0))).supply.getD r 0 = 0
      · rw [nwInner_break r n c nw t hpos h0]
        refine ⟨hsh1, hinv1, hbelow1, hS, h0, ?_, le_of_lt hcC⟩
        intro j hj
        rw [hD j (by omega)]
        exact hprev j hj
      · rw [nwInner_continue r n c nw t hpos h0]
        have hdc : (allocate t r c (minOf (t.supply.getD r 0) (t.demand.getD c 0))).demand.getD c 0
            = 0 := by
          rw [demand_allocate, if_pos ⟨rfl, hc1⟩]
          rw [supply_allocate, if_pos ⟨rfl, hr1⟩] at h0
          rcases minOf_eq (t.supply.getD r 0) (t.demand.getD c 0) with e | e
          · omega
          · omega
        have hrow1 : ∀ c1, c + 1 ≤ c1 →
            cellAt (allocate t r c (minOf (t.supply.getD r 0) (t.demand.getD c 0))).matrix r c1
              = shipZero := by
          intro c1 hle
          rw [cellAt_allocate t0 t hinv r c _ hr hcC, if_neg (fun hh => by omega)]
          exact hrow c1 (by omega)
        have hq1 : ∀ j, j < c + 1 →
            (allocate t r c (minOf (t.supply.getD r 0) (t.demand.getD c 0))).demand.getD j 0
              = 0 := by
          intro j hj
          by_cases e : j = c
          · rw [e]; exact hdc
          · rw [hD j e]; exact hprev j (by omega)
        obtain ⟨a0, a1, a2, a3, a4, a5, a6⟩ :=
          ih (c + 1) _ hinv1 (by omega) (by omega) hrow1 hbelow1 (Or.inr hq1) (Or.inr h0)
            (nwShape_weaken _ r c r (c + 1) hsh1 (le_refl r) (by omega))
        refine ⟨a0, a1, a2, ?_, a4, a5, a6⟩
        intro r1 hne
        rw [a3 r1 hne, hS r1 hne]
    · -- nothing to allocate in this column
      rw [nwInner_skip r n c nw t hpos]
      have hq1 : (t.supply.getD r 0 = 0 ∧ ∀ j, j < nw → t.demand.getD j 0 = 0) ∨
          (∀ j, j < c + 1 → t.demand.getD j 0 = 0) := by
        rcases hq with hq | hq
        · exact Or.inl hq
        · rcases minOf_eq (t.supply.getD r 0) (t.demand.getD c 0) with e | e
          · left
            exact ⟨by omega, fun j hj => hq j (by omega)⟩
          · right
            intro j hj
            by_cases e1 : j = c
            · rw [e1]; omega
            · exact hq j (by omega)
      exact ih (c + 1) t hinv (by omega) (by omega) (fun c1 h1 => hrow c1 (by omega)) hbelow hq1
        hsh0 (nwShape_weaken _ r c r (c + 1) hsh (le_refl r) (by omega))

theorem nwOuter_spec (t0 : transport) :
    ∀ (n r nw : Nat) (t : transport), nwInv t0 t → r + n = t0.supply.length →
      nw ≤ t0.demand.length →
      (∀ r1 c1, r ≤ r1 → cellAt t.matrix r1 c1 = shipZero) →
      (∀ r1, r1 < r → t.supply.getD r1 0 = 0) →
      (∀ j, j < nw → t.demand.getD j 0 = 0) →
      nwShape t r nw →
      nwInv t0 (nwOuter n r nw t) ∧
      (∀ r1, r1 < t0.supply.length → (nwOuter n r nw t).supply.getD r1 0 = 0) ∧
      ∃ rb cb, nwShape (nwOuter n r nw t) rb cb := by
  intro n
  induction n with
  | zero =>
    intro r nw t hinv hrn _ _ hdone _ hsh
    simp only [nwOuter]
    exact ⟨hinv, fun r1 h1 => hdone r1 (by omega), r, nw, hsh⟩
  | succ n ih =>
    intro r nw t hinv hrn hnw hempty hdone hdem hsh
    have hr : r < t0.supply.length := by omega
    simp only [nwOuter]
    obtain ⟨a0, a1, a2, a3, a4, a5, a6⟩ :=
      nwInner_spec t0 r nw hr hnw (t.demand.length - nw) nw t hinv
        (by rw [hinv.demand_len]; omega) (le_refl nw)
        (fun c1 _ => hempty r c1 (le_refl r)) (fun r1 c1 h1 => hempty r1 c1 (by omega))
        (Or.inr hdem) (Or.inl hsh) hsh
    refine ih (r + 1) _ _ a1 (by omega) a6 (fun r1 c1 h1 => a2 r1 c1 (by omega)) ?_ a5
      (nwShape_weaken _ r _ (r + 1) _ a0 (by omega) (le_refl _))
    intro r1 h1
    by_cases e : r1 = r
    · rw [e]; exact a4
    · rw [a3 r1 e]; exact hdone r1 (by omega)


theorem cellAt_mem_or (m : List (List shipment)) (r c : Nat) :
    cellAt m r c = shipZero ∨ cellAt m r c ∈ m.flatten := by
  unfold cellAt
  by_cases hr : r < m.length
  · by_cases hc : c < (m.getD r []).length
    · right
      rw [List.mem_flatten]
      refine ⟨m.getD r [], ?_, ?_⟩
      · rw [List.getD_eq_getElem _ _ hr]
        exact List.getElem_mem hr
      · rw [List.getD_eq_getElem _ _ hc]
        exact List.getElem_mem hc
    · left
      exact List.getD_eq_default _ _ (Nat.le_of_not_lt hc)
  · left
    rw [List.getD_eq_default m [] (Nat.le_of_not_lt hr)]
    rfl

theorem cellAt_of_no_basic (m : List (List shipment)) (h : matrixToList m = []) (r c : Nat) :
    cellAt m r c = shipZero := by
  rcases cellAt_mem_or m r c with h1 | h1
  · exact h1
  · by_contra hne
    have : cellAt m r c ∈ matrixToList m := by
      unfold matrixToList
      rw [List.mem_filter]
      exact ⟨h1, by simpa using hne⟩
    rw [h] at this
    simp at this

theorem nwInv_init (t : transport) (hshape : gridShaped t)
    (hempty : matrixToList t.matrix = [])
    (hs : ∀ x ∈ t.supply, 0 ≤ x) (hd : ∀ x ∈ t.demand, 0 ≤ x)
    (hbal : exactTotal t.supply = exactTotal t.demand) : nwInv t t := by
  have hz : ∀ (n : Nat) (f : Nat → ℚ), (∀ i, i < n → f i = 0) →
      ((List.range n).map f).sum = 0 := by
    intro n f hf
    rw [sum_range_congr (fun _ => 0) f n hf]
    simp
  refine
    { supply_len := rfl
      demand_len := rfl
      rows := hshape.1
      cols := hshape.2
      supply_nonneg := getD_nonneg _ hs
      demand_nonneg := getD_nonneg _ hd
      supply_le := fun _ => le_refl _
      demand_le := fun _ => le_refl _
      row_sum := ?_
      col_sum := ?_
      cell_whole := fun _ r c => Or.inl (cellAt_of_no_basic _ hempty r c)
      balanced := hbal }
  · intro _ r _
    unfold rowSum
    rw [hz _ _ (fun c _ => by rw [cellAt_of_no_basic _ hempty, basicQuantity_eq]; rfl)]
    ring
  · intro _ c _
    unfold colSum
    rw [hz _ _ (fun r _ => by rw [cellAt_of_no_basic _ hempty, basicQuantity_eq]; rfl)]
    ring

theorem northWestCornerRule_post (t : transport) (hshape : gridShaped t)
    (hempty : matrixToList t.matrix = [])
    (hs : ∀ x ∈ t.supply, 0 ≤ x) (hd : ∀ x ∈ t.demand, 0 ≤ x)
    (hbal : exactTotal t.supply = exactTotal t.demand) :
    nwInv t (northWestCornerRule t) ∧
    (∀ r, (northWestCornerRule t).supply.getD r 0 = 0) ∧
    (∀ c, (northWestCornerRule t).demand.getD c 0 = 0) ∧
    ∃ rb cb, nwShape (northWestCornerRule t) rb cb := by
  obtain ⟨hinv, hsup, hshp⟩ := nwOuter_spec t t.supply.length 0 0 t
    (nwInv_init t hshape hempty hs hd hbal) (by omega) (by omega)
    (fun r1 c1 _ => cellAt_of_no_basic _ hempty r1 c1) (fun r1 h1 => by omega)
    (fun j hj => by omega)
    { cell := fun r c => Or.inl (cellAt_of_no_basic _ hempty r c)
      bound := fun r c hne => absurd (cellAt_of_no_basic _ hempty r c) hne
      mono := fun r1 c1 _ _ hne _ _ => absurd (cellAt_of_no_basic _ hempty r1 c1) hne }
  have hsup1 : ∀ r, (northWestCornerRule t).supply.getD r 0 = 0 := by
    intro r
    by_cases hr : r < t.supply.length
    · exact hsup r hr
    · apply List.getD_eq_default
      have := hinv.supply_len
      unfold northWestCornerRule
      omega
  have htot : exactTotal (northWestCornerRule t).demand = 0 := by
    have h1 : exactTotal (northWestCornerRule t).supply = 0 :=
      total_eq_zero _ (fun j _ => hsup1 j)
    have h2 : exactTotal (nwOuter t.supply.length 0 0 t).supply
        = exactTotal (nwOuter t.supply.length 0 0 t).demand := hinv.balanced
    unfold northWestCornerRule at h1 ⊢
    omega
  exact ⟨hinv, hsup1, fun c => getD_eq_zero_of_total _ hinv.demand_nonneg htot c, hshp⟩

/-- C1 (counterexample). One source and one destination of capacity `2^53 + 1`:
the northwest-corner rule empties both capacities, but the quantity it stores,
converted to `float64`, is `2^53`, so the allocated quantities do not add up to
the total supply. -/
theorem bigScenario_allocated_differs :
    gridShaped bigScenario ∧ matrixToList bigScenario.matrix = [] ∧
    exactTotal bigScenario.supply = exactTotal bigScenario.demand ∧
    (northWestCornerRule bigScenario).supply = [0] ∧
    (northWestCornerRule bigScenario).demand = [0] ∧
    allocated (northWestCornerRule bigScenario) = 9007199254740992 ∧
    (exactTotal bigScenario.supply : ℚ) = 9007199254740993 := by
  decide!

/-- C1 (amended). On every grid without basic cells whose capacities are
non-negative and balanced, after `northWestCornerRule` every entry of `supply`
and of `demand` is zero; when moreover every supply entry, or every demand
entry, is at most `2^53`, the quantities of the basic cells add up to the
original total supply. -/
theorem northWestCornerRule_exhausts (t : transport) (hshape : gridShaped t)
    (hempty : matrixToList t.matrix = [])
    (hs : ∀ x ∈ t.supply, 0 ≤ x) (hd : ∀ x ∈ t.demand, 0 ≤ x)
    (hbal : exactTotal t.supply = exactTotal t.demand) :
    (∀ x ∈ (northWestCornerRule t).supply, x = 0) ∧
    (∀ x ∈ (northWestCornerRule t).demand, x = 0) ∧
    (capped t → allocated (northWestCornerRule t) = (exactTotal t.supply : ℚ)) := by
  obtain ⟨hinv, h1, h2, _⟩ := northWestCornerRule_post t hshape hempty hs hd hbal
  refine ⟨mem_eq_zero _ h1, mem_eq_zero _ h2, ?_⟩
  intro hcap
  unfold allocated
  rw [hinv.supply_len, ← sum_range_getD]
  apply sum_range_congr
  intro r hr
  have := hinv.row_sum hcap r hr
  rw [h1 r] at this
  rw [← this]
  push_cast
  ring

/-- The scenario satisfies the hypotheses of C1, and its capacities are capped. -/
theorem northWestCornerRule_exhausts_witness :
    allocated (northWestCornerRule scenario) = (exactTotal scenario.supply : ℚ) :=
  (northWestCornerRule_exhausts scenario (by decide!) (by decide!) (by decide!) (by decide!)
    (by decide!)).2.2 (by decide!)

/-- C2 (counterexample). One source and one destination of capacity `2^53 + 1`:
after the northwest-corner rule the only row and the only column hold the
quantity `2^53`, one less than the supply and the demand. -/
theorem bigScenario_row_differs :
    gridShaped bigScenario ∧ matrixToList bigScenario.matrix = [] ∧
    exactTotal bigScenario.supply = exactTotal bigScenario.demand ∧
    rowSum (northWestCornerRule bigScenario) 0 = 9007199254740992 ∧
    colSum (northWestCornerRule bigScenario) 0 = 9007199254740992 ∧
    (bigScenario.supply.getD 0 0 : ℚ) = 9007199254740993 ∧
    (bigScenario.demand.getD 0 0 : ℚ) = 9007199254740993 := by
  decide!

/-- C2 (amended). On every grid without basic cells whose capacities are
non-negative and balanced and in which every supply entry, or every demand
entry, is at most `2^53`, after `northWestCornerRule` the quantities of the
basic cells of each row add up to the original supply of the row, and those of
each column to the original demand of the column. -/
theorem northWestCornerRule_conserves (t : transport) (hshape : gridShaped t)
    (hempty : matrixToList t.matrix = [])
    (hs : ∀ x ∈ t.supply, 0 ≤ x) (hd : ∀ x ∈ t.demand, 0 ≤ x)
    (hbal : exactTotal t.supply = exactTotal t.demand) (hcap : capped t) :
    (∀ r, r < t.supply.length → rowSum (northWestCornerRule t) r = (t.supply.getD r 0 : ℚ)) ∧
    (∀ c, c < t.demand.length → colSum (northWestCornerRule t) c = (t.demand.getD c 0 : ℚ)) := by
  obtain ⟨hinv, h1, h2, _⟩ := northWestCornerRule_post t hshape hempty hs hd hbal
  constructor
  · intro r hr
    have := hinv.row_sum hcap r hr
    rw [h1 r] at this
    rw [← this]
    push_cast
    ring
  · intro c hc
    have := hinv.col_sum hcap c hc
    rw [h2 c] at this
    rw [← this]
    push_cast
    ring

/-- The scenario satisfies the hypotheses of C2. -/
theorem northWestCornerRule_conserves_witness :
    (∀ r, r < scenario.supply.length →
      rowSum (northWestCornerRule scenario) r = (scenario.supply.getD r 0 : ℚ)) ∧
    (∀ c, c < scenario.demand.length →
      colSum (northWestCornerRule scenario) c = (scenario.demand.getD c 0 : ℚ)) :=
  northWestCornerRule_conserves scenario (by decide!) (by decide!) (by decide!) (by decide!)
    (by decide!) (by decide!)


/-! ## Neighbours -/

theorem getNeighborsLoop_fst (s : shipment) (l : List shipment) (nbrs : shipment × shipment) :
    (getNeighborsLoop s l nbrs).1 = nbrs.1 ∨
      ((getNeighborsLoop s l nbrs).1 ∈ l ∧ (getNeighborsLoop s l nbrs).1 ≠ s ∧
        (getNeighborsLoop s l nbrs).1.r = s.r) := by
  induction l generalizing nbrs with
  | nil => left; rfl
  | cons o rest ih =>
    simp only [getNeighborsLoop]
    by_cases hos : o = s
    · simp only [hos, ne_eq, not_true_eq_false, if_false]
      rcases ih nbrs with h | h
      · exact Or.inl h
      · exact Or.inr ⟨List.mem_cons_of_mem _ h.1, h.2⟩
    · simp only [ne_eq, hos, not_false_eq_true, if_true]
      by_cases h1 : o.r = s.r ∧ nbrs.1 = shipZero
      · simp only [h1, and_self, if_true]
        split_ifs
        · exact Or.inr ⟨List.mem_cons_self _ _, hos, h1.1⟩
        · rcases ih (o, nbrs.2) with h | h
          · right
            rw [h]
            exact ⟨List.mem_cons_self _ _, hos, h1.1⟩
          · exact Or.inr ⟨List.mem_cons_of_mem _ h.1, h.2⟩
      · rw [if_neg h1]
        by_cases h2 : o.c = s.c ∧ nbrs.2 = shipZero
        · rw [if_pos h2]
          split_ifs
          · exact Or.inl rfl
          · rcases ih (nbrs.1, o) with h | h
            · exact Or.inl h
            · exact Or.inr ⟨List.mem_cons_of_mem _ h.1, h.2⟩
        · rw [if_neg h2]
          split_ifs
          · exact Or.inl rfl
          · rcases ih nbrs with h | h
            · exact Or.inl h
            · exact Or.inr ⟨List.mem_cons_of_mem _ h.1, h.2⟩

theorem getNeighborsLoop_snd (s : shipment) (l : List shipment) (nbrs : shipment × shipment) :
    (getNeighborsLoop s l nbrs).2 = nbrs.2 ∨
      ((getNeighborsLoop s l nbrs).2 ∈ l ∧ (getNeighborsLoop s l nbrs).2 ≠ s ∧
        (getNeighborsLoop s l nbrs).2.c = s.c) := by
  induction l generalizing nbrs with
  | nil => left; rfl
  | cons o rest ih =>
    simp only [getNeighborsLoop]
    by_cases hos : o = s
    · simp only [hos, ne_eq, not_true_eq_false, if_false]
      rcases ih nbrs with h | h
      · exact Or.inl h
      · exact Or.inr ⟨List.mem_cons_of_mem _ h.1, h.2⟩
    · simp only [ne_eq, hos, not_false_eq_true, if_true]
      by_cases h1 : o.r = s.r ∧ nbrs.1 = shipZero
      · simp only [h1, and_self, if_true]
        split_ifs
        · exact Or.inl rfl
        · rcases ih (o, nbrs.2) with h | h
          · exact Or.inl h
          · exact Or.inr ⟨List.mem_cons_of_mem _ h.1, h.2⟩
      · rw [if_neg h1]
        by_cases h2 : o.c = s.c ∧ nbrs.2 = shipZero
        · rw [if_pos h2]
          split_ifs
          · exact Or.inr ⟨List.mem_cons_self _ _, hos, h2.1⟩
          · rcases ih (nbrs.1, o) with h | h
            · right
              rw [h]
              exact ⟨List.mem_cons_self _ _, hos, h2.1⟩
            · exact Or.inr ⟨List.mem_cons_of_mem _ h.1, h.2⟩
        · rw [if_neg h2]
          split_ifs
          · exact Or.inl rfl
          · rcases ih nbrs with h | h
            · exact Or.inl h
            · exact Or.inr ⟨List.mem_cons_of_mem _ h.1, h.2⟩

theorem getNeighbors_fst (s : shipment) (l : List shipment)
    (h : (getNeighbors s l).1 ≠ shipZero) :
    (getNeighbors s l).1 ∈ l ∧ (getNeighbors s l).1 ≠ s ∧ (getNeighbors s l).1.r = s.r := by
  unfold getNeighbors at h ⊢
  rcases getNeighborsLoop_fst s l (shipZero, shipZero) with h1 | h1
  · exact absurd h1 h
  · exact h1

theorem getNeighbors_snd (s : shipment) (l : List shipment)
    (h : (getNeighbors s l).2 ≠ shipZero) :
    (getNeighbors s l).2 ∈ l ∧ (getNeighbors s l).2 ≠ s ∧ (getNeighbors s l).2.c = s.c := by
  unfold getNeighbors at h ⊢
  rcases getNeighborsLoop_snd s l (shipZero, shipZero) with h1 | h1
  · exact absurd h1 h
  · exact h1

/-! ## Pruning -/

theorem prunePass_length (kept rest : List shipment) :
    (prunePass kept rest).1.length + (prunePass kept rest).2 = kept.length + rest.length := by
  induction rest generalizing kept with
  | nil => simp [prunePass]
  | cons e rest ih =>
    simp only [prunePass]
    split_ifs
    · have := ih kept
      simp only [List.length_cons]
      omega
    · have := ih (kept ++ [e])
      simp only [List.length_append, List.length_cons, List.length_nil] at this ⊢
      omega

theorem prunePass_sublist (kept rest : List shipment) :
    (prunePass kept rest).1.Sublist (kept ++ rest) := by
  induction rest generalizing kept with
  | nil => simp [prunePass]
  | cons e rest ih =>
    simp only [prunePass]
    split_ifs
    · exact (ih kept).trans
        (List.Sublist.append (List.Sublist.refl kept) (List.sublist_cons_self e rest))
    · have := ih (kept ++ [e])
      simpa using this

theorem prunePass_zero (kept rest : List shipment) (h : (prunePass kept rest).2 = 0) :
    (prunePass kept rest).1 = kept ++ rest ∧
      ∀ e ∈ rest, (getNeighbors e (kept ++ rest)).1 ≠ shipZero ∧
        (getNeighbors e (kept ++ rest)).2 ≠ shipZero := by
  induction rest generalizing kept with
  | nil => simp [prunePass]
  | cons e rest ih =>
    simp only [prunePass] at h ⊢
    by_cases hrm : (getNeighbors e (kept ++ e :: rest)).1 = shipZero ∨
        (getNeighbors e (kept ++ e :: rest)).2 = shipZero
    · rw [if_pos hrm] at h
      simp at h
    · rw [if_neg hrm] at h ⊢
      obtain ⟨h1, h2⟩ := ih (kept ++ [e]) h
      have happ : kept ++ [e] ++ rest = kept ++ e :: rest := by simp
      rw [happ] at h1 h2
      refine ⟨h1, ?_⟩
      intro x hx
      rcases List.mem_cons.mp hx with hx | hx
      · subst hx
        exact ⟨fun hh => hrm (Or.inl hh), fun hh => hrm (Or.inr hh)⟩
      · exact h2 x hx

theorem pruneLoop_sublist (fuel : Nat) (path : List shipment) :
    (pruneLoop fuel path).Sublist path := by
  induction fuel generalizing path with
  | zero => exact List.Sublist.refl _
  | succ n ih =>
    simp only [pruneLoop]
    have hs : (prunePass [] path).1.Sublist path := by
      simpa using prunePass_sublist [] path
    split_ifs
    · exact hs
    · exact (ih _).trans hs

theorem pruneLoop_fixed (fuel : Nat) (path : List shipment) (h : path.length < fuel) :
    (prunePass [] (pruneLoop fuel path)).2 = 0 := by
  induction fuel generalizing path with
  | zero => omega
  | succ n ih =>
    simp only [pruneLoop]
    by_cases h0 : (prunePass [] path).2 = 0
    · rw [if_pos h0]
      have := (prunePass_zero [] path h0).1
      simp only [List.nil_append] at this
      rw [this]
      exact h0
    · rw [if_neg h0]
      apply ih
      have := prunePass_length [] path
      simp only [List.length_nil, Nat.zero_add] at this
      omega

theorem length_orderStones (path : List shipment) (n i : Nat) (prev : shipment) :
    (orderStones path n i prev).length = n := by
  induction n generalizing i prev with
  | zero => rfl
  | succ n ih => simp [orderStones, ih]

theorem length_getClosedPath (m : List (List shipment)) (s : shipment) :
    (getClosedPath m s).length
      = (pruneLoop ((s :: matrixToList m).length + 1) (s :: matrixToList m)).length := by
  simp only [getClosedPath, length_orderStones]


/-! ## Counting cells, rows and columns of a set of cells -/

theorem mem_matrixToList (m : List (List shipment)) (x : shipment) (h : x ∈ matrixToList m) :
    x ≠ shipZero ∧
      ∃ r c, r < m.length ∧ c < (m.getD r []).length ∧ cellAt m r c = x := by
  unfold matrixToList at h
  rw [List.mem_filter] at h
  obtain ⟨hx, hp⟩ := h
  refine ⟨by simpa using hp, ?_⟩
  obtain ⟨row, hrow, hxrow⟩ := List.mem_flatten.mp hx
  obtain ⟨r, hr, rfl⟩ := List.mem_iff_getElem.mp hrow
  obtain ⟨c, hc, rfl⟩ := List.mem_iff_getElem.mp hxrow
  refine ⟨r, c, hr, ?_, ?_⟩
  · rw [List.getD_eq_getElem _ _ hr]
    exact hc
  · unfold cellAt
    have e : m.getD r [] = m[r] := List.getD_eq_getElem _ _ hr
    rw [e, List.getD_eq_getElem _ _ hc]

theorem cellAt_of_mem (m : List (List shipment)) (hwf : wellFormed m) (x : shipment)
    (h : x ∈ matrixToList m) : cellAt m x.r x.c = x := by
  obtain ⟨hne, r, c, hr, hc, hcell⟩ := mem_matrixToList m x h
  rcases hwf r hr c hc with h0 | h1
  · rw [hcell] at h0
    exact absurd h0 hne
  · rw [hcell] at h1
    rw [h1.1, h1.2]
    exact hcell

theorem nodup_filter_row (k : Nat) :
    ∀ (row : List shipment) (j0 : Nat),
      (∀ j, j < row.length → row.getD j shipZero = shipZero ∨
        ((row.getD j shipZero).r = k ∧ (row.getD j shipZero).c = j0 + j)) →
      (row.filter (fun s => decide (s ≠ shipZero))).Nodup ∧
        ∀ x ∈ row.filter (fun s => decide (s ≠ shipZero)), x.r = k ∧ j0 ≤ x.c := by
  intro row
  induction row with
  | nil => intro j0 _; simp
  | cons a rest ih =>
    intro j0 h
    have hrest : ∀ j, j < rest.length → rest.getD j shipZero = shipZero ∨
        ((rest.getD j shipZero).r = k ∧ (rest.getD j shipZero).c = (j0 + 1) + j) := by
      intro j hj
      have := h (j + 1) (by simpa using hj)
      simp only [List.getD_cons_succ] at this
      rcases this with e | e
      · exact Or.inl e
      · exact Or.inr ⟨e.1, by omega⟩
    obtain ⟨hnd, hmem⟩ := ih (j0 + 1) hrest
    have ha := h 0 (by simp)
    simp only [List.getD_cons_zero, Nat.add_zero] at ha
    by_cases hz : a = shipZero
    · have : List.filter (fun s => decide (s ≠ shipZero)) (a :: rest)
          = List.filter (fun s => decide (s ≠ shipZero)) rest := by
        rw [List.filter_cons_of_neg]
        simpa using hz
      rw [this]
      exact ⟨hnd, fun x hx => ⟨(hmem x hx).1, by have := (hmem x hx).2; omega⟩⟩
    · have : List.filter (fun s => decide (s ≠ shipZero)) (a :: rest)
          = a :: List.filter (fun s => decide (s ≠ shipZero)) rest := by
        rw [List.filter_cons_of_pos]
        simpa using hz
      rw [this]
      have hfa : a.r = k ∧ a.c = j0 := by
        rcases ha with e | e
        · exact absurd e hz
        · exact e
      constructor
      · rw [List.nodup_cons]
        refine ⟨?_, hnd⟩
        intro hin
        have := (hmem a hin).2
        omega
      · intro x hx
        rcases List.mem_cons.mp hx with e | e
        · rw [e]; exact ⟨hfa.1, by omega⟩
        · exact ⟨(hmem x e).1, by have := (hmem x e).2; omega⟩

theorem nodup_filter_rows :
    ∀ (m : List (List shipment)) (k : Nat),
      (∀ i, i < m.length → ∀ j, j < (m.getD i []).length →
        cellAt m i j = shipZero ∨ ((cellAt m i j).r = k + i ∧ (cellAt m i j).c = j)) →
      (m.flatten.filter (fun s => decide (s ≠ shipZero))).Nodup ∧
        ∀ x ∈ m.flatten.filter (fun s => decide (s ≠ shipZero)), k ≤ x.r := by
  intro m
  induction m with
  | nil => intro k _; simp
  | cons row rest ih =>
    intro k h
    have hrest : ∀ i, i < rest.length → ∀ j, j < (rest.getD i []).length →
        cellAt rest i j = shipZero ∨
          ((cellAt rest i j).r = (k + 1) + i ∧ (cellAt rest i j).c = j) := by
      intro i hi j hj
      have := h (i + 1) (by simpa using hi) j (by simpa using hj)
      have e : cellAt (row :: rest) (i + 1) j = cellAt rest i j := by simp [cellAt]
      rw [e] at this
      rcases this with e1 | e1
      · exact Or.inl e1
      · exact Or.inr ⟨by omega, e1.2⟩
    obtain ⟨hnd, hmem⟩ := ih (k + 1) hrest
    have hrow : ∀ j, j < row.length → row.getD j shipZero = shipZero ∨
        ((row.getD j shipZero).r = k ∧ (row.getD j shipZero).c = 0 + j) := by
      intro j hj
      have := h 0 (by simp) j (by simpa using hj)
      have e : cellAt (row :: rest) 0 j = row.getD j shipZero := by simp [cellAt]
      rw [e] at this
      rcases this with e1 | e1
      · exact Or.inl e1
      · exact Or.inr ⟨by omega, by omega⟩
    obtain ⟨hnd0, hmem0⟩ := nodup_filter_row k row 0 hrow
    rw [List.flatten_cons, List.filter_append]
    constructor
    · rw [List.nodup_append]
      refine ⟨hnd0, hnd, ?_⟩
      intro x hx0 hx1
      have h1 := (hmem0 x hx0).1
      have h2 := hmem x hx1
      omega
    · intro x hx
      rcases List.mem_append.mp hx with e | e
      · have := (hmem0 x e).1
        omega
      · have := hmem x e
        omega

theorem nodup_matrixToList (m : List (List shipment)) (hwf : wellFormed m) :
    (matrixToList m).Nodup := by
  unfold matrixToList
  refine (nodup_filter_rows m 0 ?_).1
  intro i hi j hj
  rcases hwf i hi j hj with e | e
  · exact Or.inl e
  · exact Or.inr ⟨by omega, e.2⟩

theorem not_mem_matrixToList (m : List (List shipment)) (hwf : wellFormed m) (s : shipment)
    (hs : cellAt m s.r s.c = shipZero) : s ∉ matrixToList m := by
  intro h
  have h1 := cellAt_of_mem m hwf s h
  have h2 := (mem_matrixToList m s h).1
  rw [hs] at h1
  exact h2 h1.symm

theorem position_injective (m : List (List shipment)) (hwf : wellFormed m) (s : shipment)
    (hs : cellAt m s.r s.c = shipZero) (x y : shipment)
    (hx : x ∈ s :: matrixToList m) (hy : y ∈ s :: matrixToList m)
    (hr : x.r = y.r) (hc : x.c = y.c) : x = y := by
  rcases List.mem_cons.mp hx with ex | ex
  · rcases List.mem_cons.mp hy with ey | ey
    · rw [ex, ey]
    · exfalso
      have h1 := cellAt_of_mem m hwf y ey
      have h2 := (mem_matrixToList m y ey).1
      rw [← hr, ← hc, ex, hs] at h1
      exact h2 h1.symm
  · rcases List.mem_cons.mp hy with ey | ey
    · exfalso
      have h1 := cellAt_of_mem m hwf x ex
      have h2 := (mem_matrixToList m x ex).1
      rw [hr, hc, ey, hs] at h1
      exact h2 h1.symm
    · rw [← cellAt_of_mem m hwf x ex, ← cellAt_of_mem m hwf y ey, hr, hc]


/-! ## The length of a closed path -/

theorem two_mul_image_le_card {α : Type} [DecidableEq α] (f : α → Nat) (F : Finset α)
    (h : ∀ x ∈ F, ∃ y ∈ F, y ≠ x ∧ f y = f x) :
    2 * (F.image f).card ≤ F.card := by
  rw [Finset.card_eq_sum_card_image f F, mul_comm, ← smul_eq_mul, ← Finset.sum_const]
  apply Finset.sum_le_sum
  intro b hb
  obtain ⟨x, hx, rfl⟩ := Finset.mem_image.mp hb
  obtain ⟨y, hy, hne, hr⟩ := h x hx
  have : 1 < (Finset.filter (fun a => f a = f x) F).card :=
    Finset.one_lt_card.mpr
      ⟨x, Finset.mem_filter.mpr ⟨hx, rfl⟩, y, Finset.mem_filter.mpr ⟨hy, hr⟩, fun e => hne e.symm⟩
  omega

theorem forestIn_deficient {α : Type} [DecidableEq α] (f g : α → Nat) (X : Finset α)
    (hX : forestIn f g X) (S : Finset α) (hS : S ⊆ X) (hne : S.Nonempty) :
    ∃ x ∈ S, (∀ y ∈ S, y ≠ x → f y ≠ f x) ∨ (∀ y ∈ S, y ≠ x → g y ≠ g x) := by
  by_contra hcon
  push_neg at hcon
  have hcl : closedIn f g S := by
    intro x hx
    obtain ⟨⟨y, hy, h1, h2⟩, ⟨z, hz, h3, h4⟩⟩ := hcon x hx
    exact ⟨⟨y, hy, h1, h2⟩, ⟨z, hz, h3, h4⟩⟩
  exact hne.ne_empty (hX S hS hcl)

theorem forestIn_mono {α : Type} (f g : α → Nat) (X Y : Finset α) (hX : forestIn f g X)
    (hYX : Y ⊆ X) : forestIn f g Y :=
  fun S hS hcl => hX S (hS.trans hYX) hcl

theorem forest_card_bound {α : Type} [DecidableEq α] (f g : α → Nat) (n : Nat) :
    ∀ F : Finset α, F.card = n → F.Nonempty → forestIn f g F →
      F.card + 1 ≤ (F.image f).card + (F.image g).card := by
  induction n with
  | zero =>
    intro F hcard hne _
    exact absurd (Finset.card_eq_zero.mp hcard) hne.ne_empty
  | succ n ih =>
    intro F hcard hne hF
    obtain ⟨x, hx, hdef⟩ := forestIn_deficient f g F hF F (Finset.Subset.refl F) hne
    have hins : F = insert x (F.erase x) := (Finset.insert_erase hx).symm
    have hcard1 : (F.erase x).card = n := by
      rw [Finset.card_erase_of_mem hx, hcard]
      rfl
    have hr1 : 1 ≤ (F.image f).card := Finset.card_pos.mpr (hne.image _)
    have hc1 : 1 ≤ (F.image g).card := Finset.card_pos.mpr (hne.image _)
    by_cases hemp : (F.erase x).Nonempty
    · have hih := ih (F.erase x) hcard1 hemp
        (forestIn_mono f g F _ hF (Finset.erase_subset x F))
      have hler := Finset.card_le_card
        (Finset.image_subset_image (Finset.erase_subset x F) :
          (F.erase x).image f ⊆ F.image f)
      have hlec := Finset.card_le_card
        (Finset.image_subset_image (Finset.erase_subset x F) :
          (F.erase x).image g ⊆ F.image g)
      rcases hdef with hrow | hcol
      · have hnot : f x ∉ (F.erase x).image f := by
          intro hmem
          obtain ⟨y, hy, hyr⟩ := Finset.mem_image.mp hmem
          exact hrow y (Finset.mem_of_mem_erase hy) (Finset.ne_of_mem_erase hy) hyr
        have himg : F.image f = insert (f x) ((F.erase x).image f) := by
          conv_lhs => rw [hins]
          rw [Finset.image_insert]
        have : (F.image f).card = ((F.erase x).image f).card + 1 := by
          rw [himg, Finset.card_insert_of_not_mem hnot]
        omega
      · have hnot : g x ∉ (F.erase x).image g := by
          intro hmem
          obtain ⟨y, hy, hyc⟩ := Finset.mem_image.mp hmem
          exact hcol y (Finset.mem_of_mem_erase hy) (Finset.ne_of_mem_erase hy) hyc
        have himg : F.image g = insert (g x) ((F.erase x).image g) := by
          conv_lhs => rw [hins]
          rw [Finset.image_insert]
        have : (F.image g).card = ((F.erase x).image g).card + 1 := by
          rw [himg, Finset.card_insert_of_not_mem hnot]
        omega
    · have : (F.erase x).card = 0 := by
        rw [Finset.card_eq_zero]
        exact Finset.not_nonempty_iff_eq_empty.mp hemp
      omega

theorem cycle_card {α : Type} [DecidableEq α] (f g : α → Nat) (X F : Finset α) (s : α)
    (hX : forestIn f g X) (hs : s ∈ F) (hF : F.erase s ⊆ X) (hcl : closedIn f g F) :
    F.card = 2 * (F.image f).card ∧ F.card = 2 * (F.image g).card := by
  have h1 := two_mul_image_le_card f F (fun x hx => (hcl x hx).1)
  have h2 := two_mul_image_le_card g F (fun x hx => (hcl x hx).2)
  have hne : (F.erase s).Nonempty := by
    obtain ⟨y, hy, hys, _⟩ := (hcl s hs).1
    exact ⟨y, Finset.mem_erase.mpr ⟨hys, hy⟩⟩
  have h3 := forest_card_bound f g (F.erase s).card (F.erase s) rfl hne
    (forestIn_mono f g X _ hX hF)
  have h4 : (F.erase s).card + 1 = F.card := by
    rw [Finset.card_erase_of_mem hs]
    have := Finset.card_pos.mpr ⟨s, hs⟩
    omega
  have h5 := Finset.card_le_card
    (Finset.image_subset_image (Finset.erase_subset s F) : (F.erase s).image f ⊆ F.image f)
  have h6 := Finset.card_le_card
    (Finset.image_subset_image (Finset.erase_subset s F) : (F.erase s).image g ⊆ F.image g)
  constructor <;> omega

theorem fiber_card_two {α : Type} [DecidableEq α] (f : α → Nat) (F : Finset α)
    (h : ∀ x ∈ F, ∃ y ∈ F, y ≠ x ∧ f y = f x) (hcard : F.card = 2 * (F.image f).card)
    (x : α) (hx : x ∈ F) : (F.filter (fun a => f a = f x)).card = 2 := by
  have hle : ∀ b ∈ F.image f, 2 ≤ (F.filter (fun a => f a = b)).card := by
    intro b hb
    obtain ⟨x, hx, rfl⟩ := Finset.mem_image.mp hb
    obtain ⟨y, hy, hne, hr⟩ := h x hx
    have : 1 < (Finset.filter (fun a => f a = f x) F).card :=
      Finset.one_lt_card.mpr
        ⟨x, Finset.mem_filter.mpr ⟨hx, rfl⟩, y, Finset.mem_filter.mpr ⟨hy, hr⟩,
          fun e => hne e.symm⟩
    omega
  have hsum : ∑ b ∈ F.image f, 2 = ∑ b ∈ F.image f, (F.filter (fun a => f a = b)).card := by
    rw [← Finset.card_eq_sum_card_image f F, Finset.sum_const, smul_eq_mul, hcard, mul_comm]
  have := (Finset.sum_eq_sum_iff_of_le hle).mp hsum (f x) (Finset.mem_image_of_mem f hx)
  exact this.symm

theorem mate_unique {α : Type} [DecidableEq α] (f : α → Nat) (F : Finset α)
    (h : ∀ x ∈ F, ∃ y ∈ F, y ≠ x ∧ f y = f x) (hcard : F.card = 2 * (F.image f).card)
    (x y z : α) (hx : x ∈ F) (hy : y ∈ F) (hz : z ∈ F) (hyx : y ≠ x) (hzx : z ≠ x)
    (hfy : f y = f x) (hfz : f z = f x) : y = z := by
  have h2 := fiber_card_two f F h hcard x hx
  by_contra hyz
  have hsub : ({x, y, z} : Finset α) ⊆ F.filter (fun a => f a = f x) := by
    intro a ha
    simp only [Finset.mem_insert, Finset.mem_singleton] at ha
    rw [Finset.mem_filter]
    rcases ha with rfl | rfl | rfl
    · exact ⟨hx, rfl⟩
    · exact ⟨hy, hfy⟩
    · exact ⟨hz, hfz⟩
  have h3 : ({x, y, z} : Finset α).card = 3 := by
    rw [Finset.card_insert_of_not_mem, Finset.card_insert_of_not_mem, Finset.card_singleton]
    · simpa using hyz
    · simp only [Finset.mem_insert, Finset.mem_singleton]
      rintro (e | e)
      · exact hyx e.symm
      · exact hzx e.symm
  have := Finset.card_le_card hsub
  omega

theorem mem_of_closedIn {α : Type} [DecidableEq α] (f g : α → Nat) (X F : Finset α) (s : α)
    (hX : forestIn f g X) (hF : F ⊆ insert s X) (hcl : closedIn f g F) (hne : F.Nonempty) :
    s ∈ F := by
  by_contra hs
  have : F ⊆ X := by
    intro x hx
    rcases Finset.mem_insert.mp (hF hx) with e | e
    · rw [e] at hx
      exact absurd hx hs
    · exact e
  exact hne.ne_empty (hX F this hcl)

theorem closedIn_subset_of {α : Type} [DecidableEq α] (f g : α → Nat) (X F U : Finset α) (s : α)
    (hX : forestIn f g X) (hsF : s ∈ F) (hFU : F ⊆ U) (hU : U ⊆ insert s X)
    (hclF : closedIn f g F) (hclU : closedIn f g U) : U ⊆ F := by
  have hUs : U.erase s ⊆ X := by
    intro x hx
    have := Finset.mem_erase.mp hx
    rcases Finset.mem_insert.mp (hU this.2) with e | e
    · exact absurd e this.1
    · exact e
  obtain ⟨hcf, hcg⟩ := cycle_card f g X U s hX (hFU hsF) hUs hclU
  have hD : closedIn f g (U \ F) := by
    intro y hy
    obtain ⟨hyU, hyF⟩ := Finset.mem_sdiff.mp hy
    obtain ⟨⟨z, hz, hzy, hfz⟩, ⟨w, hw, hwy, hgw⟩⟩ := hclU y hyU
    constructor
    · refine ⟨z, Finset.mem_sdiff.mpr ⟨hz, ?_⟩, hzy, hfz⟩
      intro hzF
      obtain ⟨⟨v, hv, hvz, hfv⟩, _⟩ := hclF z hzF
      have := mate_unique f U (fun x hx => (hclU x hx).1) hcf z y v hz hyU (hFU hv)
        (fun e => hzy e.symm) hvz hfz.symm hfv
      rw [this] at hyF
      exact hyF hv
    · refine ⟨w, Finset.mem_sdiff.mpr ⟨hw, ?_⟩, hwy, hgw⟩
      intro hwF
      obtain ⟨_, ⟨v, hv, hvw, hgv⟩⟩ := hclF w hwF
      have := mate_unique g U (fun x hx => (hclU x hx).2) hcg w y v hw hyU (hFU hv)
        (fun e => hwy e.symm) hvw hgw.symm hgv
      rw [this] at hyF
      exact hyF hv
  have hDX : U \ F ⊆ X := by
    intro x hx
    obtain ⟨hxU, hxF⟩ := Finset.mem_sdiff.mp hx
    rcases Finset.mem_insert.mp (hU hxU) with e | e
    · rw [e] at hxF
      exact absurd hsF hxF
    · exact e
  have hempty := hX _ hDX hD
  intro x hx
  by_contra hxF
  have : x ∈ U \ F := Finset.mem_sdiff.mpr ⟨hx, hxF⟩
  rw [hempty] at this
  simp at this

theorem closedIn_union {α : Type} [DecidableEq α] (f g : α → Nat) (F1 F2 : Finset α)
    (h1 : closedIn f g F1) (h2 : closedIn f g F2) : closedIn f g (F1 ∪ F2) := by
  intro x hx
  rcases Finset.mem_union.mp hx with e | e
  · obtain ⟨⟨y, hy, a, b⟩, ⟨z, hz, c, d⟩⟩ := h1 x e
    exact ⟨⟨y, Finset.mem_union_left _ hy, a, b⟩, ⟨z, Finset.mem_union_left _ hz, c, d⟩⟩
  · obtain ⟨⟨y, hy, a, b⟩, ⟨z, hz, c, d⟩⟩ := h2 x e
    exact ⟨⟨y, Finset.mem_union_right _ hy, a, b⟩, ⟨z, Finset.mem_union_right _ hz, c, d⟩⟩

/-- Adding one element to a set without cycles creates at most one cycle. -/
theorem cycle_unique {α : Type} [DecidableEq α] (f g : α → Nat) (X F1 F2 : Finset α) (s : α)
    (hX : forestIn f g X) (h1 : F1 ⊆ insert s X) (h2 : F2 ⊆ insert s X)
    (hc1 : closedIn f g F1) (hc2 : closedIn f g F2)
    (hn1 : F1.Nonempty) (hn2 : F2.Nonempty) : F1 = F2 := by
  have hs1 := mem_of_closedIn f g X F1 s hX h1 hc1 hn1
  have hs2 := mem_of_closedIn f g X F2 s hX h2 hc2 hn2
  have hU : F1 ∪ F2 ⊆ insert s X := Finset.union_subset h1 h2
  have hcU := closedIn_union f g F1 F2 hc1 hc2
  have a := closedIn_subset_of f g X F1 (F1 ∪ F2) s hX hs1 Finset.subset_union_left hU hc1 hcU
  have b := closedIn_subset_of f g X F2 (F1 ∪ F2) s hX hs2 Finset.subset_union_right hU hc2 hcU
  apply Finset.Subset.antisymm
  · exact fun x hx => b (Finset.mem_union_left _ hx)
  · exact fun x hx => a (Finset.mem_union_right _ hx)


/-! ## Neighbours: what is present is found -/

theorem getNeighborsLoop_fst_keep (s : shipment) (l : List shipment)
    (nbrs : shipment × shipment) (h : nbrs.1 ≠ shipZero) :
    (getNeighborsLoop s l nbrs).1 = nbrs.1 := by
  induction l generalizing nbrs with
  | nil => rfl
  | cons o rest ih =>
    simp only [getNeighborsLoop]
    by_cases hos : o = s
    · simp only [hos, ne_eq, not_true_eq_false, if_false]
      exact ih nbrs h
    · simp only [ne_eq, hos, not_false_eq_true, if_true]
      have h1 : ¬ (o.r = s.r ∧ nbrs.1 = shipZero) := fun hh => h hh.2
      rw [if_neg h1]
      by_cases h2 : o.c = s.c ∧ nbrs.2 = shipZero
      · rw [if_pos h2]
        split_ifs
        · rfl
        · exact ih (nbrs.1, o) h
      · rw [if_neg h2]
        split_ifs
        · rfl
        · exact ih nbrs h

theorem getNeighborsLoop_snd_keep (s : shipment) (l : List shipment)
    (nbrs : shipment × shipment) (h : nbrs.2 ≠ shipZero) :
    (getNeighborsLoop s l nbrs).2 = nbrs.2 := by
  induction l generalizing nbrs with
  | nil => rfl
  | cons o rest ih =>
    simp only [getNeighborsLoop]
    by_cases hos : o = s
    · simp only [hos, ne_eq, not_true_eq_false, if_false]
      exact ih nbrs h
    · simp only [ne_eq, hos, not_false_eq_true, if_true]
      by_cases h1 : o.r = s.r ∧ nbrs.1 = shipZero
      · rw [if_pos h1]
        split_ifs
        · rfl
        · exact ih (o, nbrs.2) h
      · rw [if_neg h1]
        have h2 : ¬ (o.c = s.c ∧ nbrs.2 = shipZero) := fun hh => h hh.2
        rw [if_neg h2]
        split_ifs
        · rfl
        · exact ih nbrs h

theorem getNeighborsLoop_cons_eq (s o : shipment) (rest : List shipment)
    (nbrs : shipment × shipment) (hos : o = s) :
    getNeighborsLoop s (o :: rest) nbrs = getNeighborsLoop s rest nbrs := by
  simp only [getNeighborsLoop, hos, ne_eq, not_true_eq_false, if_false]

theorem getNeighborsLoop_cons_ne (s o : shipment) (rest : List shipment)
    (nbrs nbrs1 : shipment × shipment) (hos : o ≠ s)
    (h1 : nbrs1 = if o.r = s.r ∧ nbrs.1 = shipZero then (o, nbrs.2)
      else if o.c = s.c ∧ nbrs.2 = shipZero then (nbrs.1, o) else nbrs) :
    getNeighborsLoop s (o :: rest) nbrs =
      if nbrs1.1 ≠ shipZero ∧ nbrs1.2 ≠ shipZero then nbrs1
      else getNeighborsLoop s rest nbrs1 := by
  subst h1
  simp only [getNeighborsLoop, ne_eq, hos, not_false_eq_true, if_true]

theorem getNeighborsLoop_fst_found (s : shipment) (l : List shipment)
    (nbrs : shipment × shipment)
    (h : ∃ o ∈ l, o ≠ s ∧ o.r = s.r ∧ o ≠ shipZero) :
    (getNeighborsLoop s l nbrs).1 ≠ shipZero := by
  induction l generalizing nbrs with
  | nil => simp at h
  | cons o rest ih =>
    by_cases hn : nbrs.1 = shipZero
    · obtain ⟨x, hx, hxs, hxr, hx0⟩ := h
      by_cases hos : o = s
      · rw [getNeighborsLoop_cons_eq s o rest nbrs hos]
        apply ih
        rcases List.mem_cons.mp hx with e | e
        · exact absurd (e.trans hos) hxs
        · exact ⟨x, e, hxs, hxr, hx0⟩
      · by_cases h1 : o.r = s.r
        · rw [getNeighborsLoop_cons_ne s o rest nbrs (o, nbrs.2) hos (by rw [if_pos ⟨h1, hn⟩])]
          by_cases ho0 : o = shipZero
          · have hrest : ∃ y ∈ rest, y ≠ s ∧ y.r = s.r ∧ y ≠ shipZero := by
              rcases List.mem_cons.mp hx with e | e
              · exact absurd (e.trans ho0) hx0
              · exact ⟨x, e, hxs, hxr, hx0⟩
            rw [if_neg (fun hb => hb.1 ho0)]
            exact ih _ hrest
          · split_ifs
            · exact ho0
            · rw [getNeighborsLoop_fst_keep s rest (o, nbrs.2) ho0]
              exact ho0
        · have hrest : ∃ y ∈ rest, y ≠ s ∧ y.r = s.r ∧ y ≠ shipZero := by
            rcases List.mem_cons.mp hx with e | e
            · exact absurd (e ▸ hxr) h1
            · exact ⟨x, e, hxs, hxr, hx0⟩
          by_cases h2 : o.c = s.c ∧ nbrs.2 = shipZero
          · rw [getNeighborsLoop_cons_ne s o rest nbrs (nbrs.1, o) hos
              (by rw [if_neg (fun hh => h1 hh.1), if_pos h2])]
            rw [if_neg (fun hb => hb.1 hn)]
            exact ih _ hrest
          · rw [getNeighborsLoop_cons_ne s o rest nbrs nbrs hos
              (by rw [if_neg (fun hh => h1 hh.1), if_neg h2])]
            rw [if_neg (fun hb => hb.1 hn)]
            exact ih _ hrest
    · rw [getNeighborsLoop_fst_keep s _ nbrs hn]
      exact hn

theorem getNeighborsLoop_snd_found (s : shipment) (l : List shipment)
    (nbrs : shipment × shipment)
    (h : ∃ o ∈ l, o ≠ s ∧ o.c = s.c ∧ o.r ≠ s.r ∧ o ≠ shipZero) :
    (getNeighborsLoop s l nbrs).2 ≠ shipZero := by
  induction l generalizing nbrs with
  | nil => simp at h
  | cons o rest ih =>
    by_cases hn : nbrs.2 = shipZero
    · obtain ⟨x, hx, hxs, hxc, hxr, hx0⟩ := h
      by_cases hos : o = s
      · rw [getNeighborsLoop_cons_eq s o rest nbrs hos]
        apply ih
        rcases List.mem_cons.mp hx with e | e
        · exact absurd (e.trans hos) hxs
        · exact ⟨x, e, hxs, hxc, hxr, hx0⟩
      · by_cases h1 : o.r = s.r ∧ nbrs.1 = shipZero
        · have hrest : ∃ y ∈ rest, y ≠ s ∧ y.c = s.c ∧ y.r ≠ s.r ∧ y ≠ shipZero := by
            rcases List.mem_cons.mp hx with e | e
            · exact absurd (e ▸ h1.1) hxr
            · exact ⟨x, e, hxs, hxc, hxr, hx0⟩
          rw [getNeighborsLoop_cons_ne s o rest nbrs (o, nbrs.2) hos (by rw [if_pos h1])]
          rw [if_neg (fun hb => hb.2 hn)]
          exact ih _ hrest
        · by_cases h2 : o.c = s.c
          · rw [getNeighborsLoop_cons_ne s o rest nbrs (nbrs.1, o) hos
              (by rw [if_neg h1, if_pos ⟨h2, hn⟩])]
            by_cases ho0 : o = shipZero
            · have hrest : ∃ y ∈ rest, y ≠ s ∧ y.c = s.c ∧ y.r ≠ s.r ∧ y ≠ shipZero := by
                rcases List.mem_cons.mp hx with e | e
                · exact absurd (e.trans ho0) hx0
                · exact ⟨x, e, hxs, hxc, hxr, hx0⟩
              rw [if_neg (fun hb => hb.2 ho0)]
              exact ih _ hrest
            · split_ifs
              · exact ho0
              · rw [getNeighborsLoop_snd_keep s rest (nbrs.1, o) ho0]
                exact ho0
          · have hrest : ∃ y ∈ rest, y ≠ s ∧ y.c = s.c ∧ y.r ≠ s.r ∧ y ≠ shipZero := by
              rcases List.mem_cons.mp hx with e | e
              · exact absurd (e ▸ hxc) h2
              · exact ⟨x, e, hxs, hxc, hxr, hx0⟩
            rw [getNeighborsLoop_cons_ne s o rest nbrs nbrs hos
              (by rw [if_neg h1, if_neg (fun hh => h2 hh.1)])]
            rw [if_neg (fun hb => hb.2 hn)]
            exact ih _ hrest
    · rw [getNeighborsLoop_snd_keep s _ nbrs hn]
      exact hn

theorem getNeighbors_fst_found (s : shipment) (l : List shipment)
    (h : ∃ o ∈ l, o ≠ s ∧ o.r = s.r ∧ o ≠ shipZero) : (getNeighbors s l).1 ≠ shipZero :=
  getNeighborsLoop_fst_found s l _ h

theorem getNeighbors_snd_found (s : shipment) (l : List shipment)
    (h : ∃ o ∈ l, o ≠ s ∧ o.c = s.c ∧ o.r ≠ s.r ∧ o ≠ shipZero) :
    (getNeighbors s l).2 ≠ shipZero :=
  getNeighborsLoop_snd_found s l _ h


/-! ## The cycle found by `getClosedPath` -/

theorem orderStones_eq_walk (path : List shipment) (s : shipment) (n i : Nat) :
    orderStones path n i (walk path s i) = (List.range n).map (fun j => walk path s (i + j)) := by
  induction n generalizing i with
  | zero => rfl
  | succ n ih =>
    have hstep : (if i % 2 = 0 then (getNeighbors (walk path s i) path).1
        else (getNeighbors (walk path s i) path).2) = walk path s (i + 1) := rfl
    rw [orderStones, hstep, ih (i + 1), List.range_succ_eq_map, List.map_cons, List.map_map]
    congr 1
    apply List.map_congr_left
    intro j _
    simp only [Function.comp, Nat.succ_eq_add_one]
    congr 1
    omega

theorem cycleData_closed (P : List shipment) (s : shipment) (X : Finset shipment)
    (h : cycleData P s X) :
    closedIn (fun x : shipment => x.r) (fun x : shipment => x.c) P.toFinset := by
  intro x hx
  have hxP := List.mem_toFinset.mp hx
  obtain ⟨ha, hb⟩ := h.fixed x hxP
  obtain ⟨a1, a2, a3⟩ := getNeighbors_fst x P ha
  obtain ⟨b1, b2, b3⟩ := getNeighbors_snd x P hb
  exact ⟨⟨_, List.mem_toFinset.mpr a1, a2, a3⟩, ⟨_, List.mem_toFinset.mpr b1, b2, b3⟩⟩

theorem cycleData_card (P : List shipment) (s : shipment) (X : Finset shipment)
    (h : cycleData P s X) :
    P.toFinset.card = 2 * (P.toFinset.image (fun x : shipment => x.r)).card ∧
    P.toFinset.card = 2 * (P.toFinset.image (fun x : shipment => x.c)).card := by
  apply cycle_card _ _ X P.toFinset s h.forest (List.mem_toFinset.mpr h.mem_s) _
    (cycleData_closed P s X h)
  intro x hx
  obtain ⟨hne, hxP⟩ := Finset.mem_erase.mp hx
  rcases h.sub x (List.mem_toFinset.mp hxP) with e | e
  · exact absurd e hne
  · exact e

theorem rowMate_spec (P : List shipment) (s : shipment) (X : Finset shipment)
    (h : cycleData P s X) (x : shipment) (hx : x ∈ P) :
    (getNeighbors x P).1 ∈ P ∧ (getNeighbors x P).1 ≠ x ∧ (getNeighbors x P).1.r = x.r :=
  getNeighbors_fst x P (h.fixed x hx).1

theorem colMate_spec (P : List shipment) (s : shipment) (X : Finset shipment)
    (h : cycleData P s X) (x : shipment) (hx : x ∈ P) :
    (getNeighbors x P).2 ∈ P ∧ (getNeighbors x P).2 ≠ x ∧ (getNeighbors x P).2.c = x.c :=
  getNeighbors_snd x P (h.fixed x hx).2

theorem rowMate_unique (P : List shipment) (s : shipment) (X : Finset shipment)
    (h : cycleData P s X) (x y : shipment) (hx : x ∈ P) (hy : y ∈ P) (hyx : y ≠ x)
    (hr : y.r = x.r) : (getNeighbors x P).1 = y := by
  obtain ⟨a1, a2, a3⟩ := rowMate_spec P s X h x hx
  exact mate_unique (fun x : shipment => x.r) P.toFinset
    (fun z hz => (cycleData_closed P s X h z hz).1) (cycleData_card P s X h).1 x _ y
    (List.mem_toFinset.mpr hx) (List.mem_toFinset.mpr a1) (List.mem_toFinset.mpr hy) a2 hyx a3 hr

theorem colMate_unique (P : List shipment) (s : shipment) (X : Finset shipment)
    (h : cycleData P s X) (x y : shipment) (hx : x ∈ P) (hy : y ∈ P) (hyx : y ≠ x)
    (hc : y.c = x.c) : (getNeighbors x P).2 = y := by
  obtain ⟨a1, a2, a3⟩ := colMate_spec P s X h x hx
  exact mate_unique (fun x : shipment => x.c) P.toFinset
    (fun z hz => (cycleData_closed P s X h z hz).2) (cycleData_card P s X h).2 x _ y
    (List.mem_toFinset.mpr hx) (List.mem_toFinset.mpr a1) (List.mem_toFinset.mpr hy) a2 hyx a3 hc

theorem rowMate_rowMate (P : List shipment) (s : shipment) (X : Finset shipment)
    (h : cycleData P s X) (x : shipment) (hx : x ∈ P) :
    (getNeighbors (getNeighbors x P).1 P).1 = x := by
  obtain ⟨a1, a2, a3⟩ := rowMate_spec P s X h x hx
  exact rowMate_unique P s X h _ x a1 hx (fun e => a2 e.symm) a3.symm

theorem colMate_colMate (P : List shipment) (s : shipment) (X : Finset shipment)
    (h : cycleData P s X) (x : shipment) (hx : x ∈ P) :
    (getNeighbors (getNeighbors x P).2 P).2 = x := by
  obtain ⟨a1, a2, a3⟩ := colMate_spec P s X h x hx
  exact colMate_unique P s X h _ x a1 hx (fun e => a2 e.symm) a3.symm

theorem walk_succ_even (P : List shipment) (s : shipment) (i : Nat) (hi : i % 2 = 0) :
    walk P s (i + 1) = (getNeighbors (walk P s i) P).1 := by
  simp only [walk, hi, if_true]

theorem walk_succ_odd (P : List shipment) (s : shipment) (i : Nat) (hi : i % 2 = 1) :
    walk P s (i + 1) = (getNeighbors (walk P s i) P).2 := by
  have : ¬ i % 2 = 0 := by omega
  simp only [walk, this, if_false]

theorem walk_mem (P : List shipment) (s : shipment) (X : Finset shipment)
    (h : cycleData P s X) (i : Nat) : walk P s i ∈ P := by
  induction i with
  | zero => exact h.mem_s
  | succ i ih =>
    rcases Nat.mod_two_eq_zero_or_one i with hi | hi
    · rw [walk_succ_even P s i hi]
      exact (rowMate_spec P s X h _ ih).1
    · rw [walk_succ_odd P s i hi]
      exact (colMate_spec P s X h _ ih).1

theorem walk_succ_ne (P : List shipment) (s : shipment) (X : Finset shipment)
    (h : cycleData P s X) (i : Nat) : walk P s (i + 1) ≠ walk P s i := by
  rcases Nat.mod_two_eq_zero_or_one i with hi | hi
  · rw [walk_succ_even P s i hi]
    exact (rowMate_spec P s X h _ (walk_mem P s X h i)).2.1
  · rw [walk_succ_odd P s i hi]
    exact (colMate_spec P s X h _ (walk_mem P s X h i)).2.1

/-- Two indices of the same parity step in the same way. -/
theorem walk_succ_congr (P : List shipment) (s : shipment) (i j : Nat)
    (hij : i % 2 = j % 2) (hw : walk P s i = walk P s j) :
    walk P s (i + 1) = walk P s (j + 1) := by
  rcases Nat.mod_two_eq_zero_or_one i with hi | hi
  · rw [walk_succ_even P s i hi, walk_succ_even P s j (by omega), hw]
  · rw [walk_succ_odd P s i hi, walk_succ_odd P s j (by omega), hw]

/-- Two indices of the same parity are reached in the same way. -/
theorem walk_pred_congr (P : List shipment) (s : shipment) (X : Finset shipment)
    (h : cycleData P s X) (i j : Nat) (hij : i % 2 = j % 2)
    (hw : walk P s (i + 1) = walk P s (j + 1)) : walk P s i = walk P s j := by
  rcases Nat.mod_two_eq_zero_or_one i with hi | hi
  · have e1 := rowMate_rowMate P s X h _ (walk_mem P s X h i)
    have e2 := rowMate_rowMate P s X h _ (walk_mem P s X h j)
    rw [← walk_succ_even P s i hi] at e1
    rw [← walk_succ_even P s j (by omega)] at e2
    rw [← e1, ← e2, hw]
  · have e1 := colMate_colMate P s X h _ (walk_mem P s X h i)
    have e2 := colMate_colMate P s X h _ (walk_mem P s X h j)
    rw [← walk_succ_odd P s i hi] at e1
    rw [← walk_succ_odd P s j (by omega)] at e2
    rw [← e1, ← e2, hw]

theorem walk_back_even (P : List shipment) (s : shipment) (X : Finset shipment)
    (h : cycleData P s X) (j : Nat) (hj : j % 2 = 0) :
    (getNeighbors (walk P s (j + 1)) P).1 = walk P s j := by
  rw [walk_succ_even P s j hj]
  exact rowMate_rowMate P s X h _ (walk_mem P s X h j)

theorem walk_back_odd (P : List shipment) (s : shipment) (X : Finset shipment)
    (h : cycleData P s X) (j : Nat) (hj : j % 2 = 1) :
    (getNeighbors (walk P s (j + 1)) P).2 = walk P s j := by
  rw [walk_succ_odd P s j hj]
  exact colMate_colMate P s X h _ (walk_mem P s X h j)

/-- Entries at indices of different parity are different cells. -/
theorem walk_parity (P : List shipment) (s : shipment) (X : Finset shipment)
    (h : cycleData P s X) (d : Nat) : ∀ i, walk P s i ≠ walk P s (i + 2 * d + 1) := by
  induction d with
  | zero =>
    intro i e
    exact walk_succ_ne P s X h i e.symm
  | succ d ih =>
    intro i e
    apply ih (i + 1)
    have e3 : i + 2 * (d + 1) + 1 = (i + 1 + 2 * d + 1) + 1 := by omega
    rw [e3] at e
    rcases Nat.mod_two_eq_zero_or_one i with hi | hi
    · rw [walk_succ_even P s i hi, e]
      exact walk_back_even P s X h _ (by omega)
    · rw [walk_succ_odd P s i hi, e]
      exact walk_back_odd P s X h _ (by omega)

/-- A repetition at distance `2 * d` is a return to the start after `2 * d`
steps. -/
theorem walk_return (P : List shipment) (s : shipment) (X : Finset shipment)
    (h : cycleData P s X) (d : Nat) :
    ∀ i, walk P s i = walk P s (i + 2 * d) → walk P s 0 = walk P s (2 * d) := by
  intro i
  induction i with
  | zero => intro e; simpa using e
  | succ i ih =>
    intro e
    apply ih
    have e3 : i + 1 + 2 * d = (i + 2 * d) + 1 := by omega
    rw [e3] at e
    exact walk_pred_congr P s X h i (i + 2 * d) (by omega) e

theorem walk_periodic (P : List shipment) (s : shipment) (d : Nat)
    (hd : walk P s 0 = walk P s (2 * d)) : ∀ i, walk P s i = walk P s (i + 2 * d) := by
  intro i
  induction i with
  | zero => simpa using hd
  | succ i ih =>
    have e3 : i + 1 + 2 * d = (i + 2 * d) + 1 := by omega
    rw [e3]
    exact walk_succ_congr P s i (i + 2 * d) (by omega) ih

theorem walk_periodic_mul (P : List shipment) (s : shipment) (d : Nat)
    (hd : walk P s 0 = walk P s (2 * d)) (i k : Nat) :
    walk P s (i + 2 * d * k) = walk P s i := by
  induction k with
  | zero => rfl
  | succ k ih =>
    have e3 : i + 2 * d * (k + 1) = (i + 2 * d * k) + 2 * d := by ring
    rw [e3, ← walk_periodic P s d hd, ih]


theorem walk_exists_return (P : List shipment) (s : shipment) (X : Finset shipment)
    (h : cycleData P s X) :
    ∃ d, 0 < d ∧ 2 * d ≤ P.length ∧ walk P s 0 = walk P s (2 * d) := by
  have hcard : P.toFinset.card < (Finset.range (P.length + 1)).card := by
    rw [Finset.card_range, List.toFinset_card_of_nodup h.nodup]
    omega
  obtain ⟨i, hi, j, hj, hne, heq⟩ :=
    Finset.exists_ne_map_eq_of_card_lt_of_maps_to hcard
      (fun i _ => List.mem_toFinset.mpr (walk_mem P s X h i))
  rw [Finset.mem_range] at hi hj
  -- order the two indices
  have key : ∀ a b, a < b → b ≤ P.length → walk P s a = walk P s b →
      ∃ d, 0 < d ∧ 2 * d ≤ P.length ∧ walk P s 0 = walk P s (2 * d) := by
    intro a b hab hb e
    rcases Nat.even_or_odd' (b - a) with ⟨d, hd | hd⟩
    · refine ⟨d, by omega, by omega, walk_return P s X h d a ?_⟩
      have : a + 2 * d = b := by omega
      rw [this]
      exact e
    · exfalso
      apply walk_parity P s X h d a
      have : a + 2 * d + 1 = b := by omega
      rw [this]
      exact e
  rcases Nat.lt_or_gt_of_ne hne with hlt | hgt
  · exact key i j hlt (by omega) heq
  · exact key j i hgt (by omega) heq.symm

/-- The ordering loop visits every surviving cell exactly once and is back at
the candidate after as many steps as there are survivors. -/
theorem walk_cycle (P : List shipment) (s : shipment) (X : Finset shipment)
    (h : cycleData P s X) :
    P.length % 2 = 0 ∧
    (∀ i j, i < P.length → j < P.length → walk P s i = walk P s j → i = j) ∧
    (∀ x ∈ P, ∃ i, i < P.length ∧ walk P s i = x) ∧
    walk P s P.length = s := by
  classical
  have hex : ∃ d, 0 < d ∧ walk P s 0 = walk P s (2 * d) := by
    obtain ⟨d, h1, _, h3⟩ := walk_exists_return P s X h
    exact ⟨d, h1, h3⟩
  have hd0 := Nat.find_spec hex
  have hmin : ∀ d, d < Nat.find hex → ¬ (0 < d ∧ walk P s 0 = walk P s (2 * d)) :=
    fun d hd => Nat.find_min hex hd
  generalize Nat.find hex = d0 at hd0 hmin
  obtain ⟨hpos, hret⟩ := hd0
  -- the walk is injective below `2 * d0`
  have hinj : ∀ i j, i < j → j < 2 * d0 → walk P s i ≠ walk P s j := by
    intro i j hij hj e
    rcases Nat.even_or_odd' (j - i) with ⟨d, hd | hd⟩
    · apply hmin d (by omega)
      refine ⟨by omega, walk_return P s X h d i ?_⟩
      have : i + 2 * d = j := by omega
      rw [this]
      exact e
    · apply walk_parity P s X h d i
      have : i + 2 * d + 1 = j := by omega
      rw [this]
      exact e
  have hinj2 : ∀ i j, i < 2 * d0 → j < 2 * d0 → walk P s i = walk P s j → i = j := by
    intro i j hi hj e
    by_contra hne
    rcases Nat.lt_or_gt_of_ne hne with hlt | hgt
    · exact hinj i j hlt hj e
    · exact hinj j i hgt hi e.symm
  -- the cells visited
  have hWmem : ∀ i, walk P s i ∈ (Finset.range (2 * d0)).image (walk P s) := by
    intro i
    have e := walk_periodic_mul P s d0 hret (i % (2 * d0)) (i / (2 * d0))
    rw [Nat.mod_add_div] at e
    rw [e]
    exact Finset.mem_image_of_mem _ (Finset.mem_range.mpr (Nat.mod_lt _ (by omega)))
  have hWcard : ((Finset.range (2 * d0)).image (walk P s)).card = 2 * d0 := by
    rw [Finset.card_image_of_injOn, Finset.card_range]
    intro i hi j hj e
    exact hinj2 i j (Finset.mem_range.mp (Finset.mem_coe.mp hi))
      (Finset.mem_range.mp (Finset.mem_coe.mp hj)) e
  have hWclosed : closedIn (fun x : shipment => x.r) (fun x : shipment => x.c)
      ((Finset.range (2 * d0)).image (walk P s)) := by
    intro x hx
    obtain ⟨i, _, rfl⟩ := Finset.mem_image.mp hx
    constructor
    · rcases Nat.mod_two_eq_zero_or_one i with hi | hi
      · refine ⟨walk P s (i + 1), hWmem _, walk_succ_ne P s X h i, ?_⟩
        rw [walk_succ_even P s i hi]
        exact (rowMate_spec P s X h _ (walk_mem P s X h i)).2.2
      · obtain ⟨j, rfl⟩ : ∃ j, i = j + 1 := ⟨i - 1, by omega⟩
        refine ⟨walk P s j, hWmem _, fun e => walk_succ_ne P s X h j e.symm, ?_⟩
        rw [walk_succ_even P s j (by omega)]
        exact (rowMate_spec P s X h _ (walk_mem P s X h j)).2.2.symm
    · rcases Nat.mod_two_eq_zero_or_one i with hi | hi
      · have e := walk_periodic P s d0 hret i
        obtain ⟨j, hj⟩ : ∃ j, i + 2 * d0 = j + 1 := ⟨i + 2 * d0 - 1, by omega⟩
        rw [hj] at e
        refine ⟨walk P s j, hWmem _, ?_, ?_⟩
        · rw [e]
          exact fun e1 => walk_succ_ne P s X h j e1.symm
        · show (walk P s j).c = (walk P s i).c
          rw [e, walk_succ_odd P s j (by omega)]
          exact (colMate_spec P s X h _ (walk_mem P s X h j)).2.2.symm
      · refine ⟨walk P s (i + 1), hWmem _, walk_succ_ne P s X h i, ?_⟩
        rw [walk_succ_odd P s i hi]
        exact (colMate_spec P s X h _ (walk_mem P s X h i)).2.2
  have hPsub : P.toFinset ⊆ insert s X := by
    intro x hx
    rcases h.sub x (List.mem_toFinset.mp hx) with e | e
    · rw [e]; exact Finset.mem_insert_self _ _
    · exact Finset.mem_insert_of_mem e
  have hWsub : (Finset.range (2 * d0)).image (walk P s) ⊆ insert s X := by
    intro x hx
    obtain ⟨i, _, rfl⟩ := Finset.mem_image.mp hx
    exact hPsub (List.mem_toFinset.mpr (walk_mem P s X h i))
  have hWP : (Finset.range (2 * d0)).image (walk P s) = P.toFinset :=
    cycle_unique _ _ X _ _ s h.forest hWsub hPsub hWclosed (cycleData_closed P s X h)
      ⟨walk P s 0, hWmem 0⟩ ⟨s, List.mem_toFinset.mpr h.mem_s⟩
  have hlen : P.length = 2 * d0 := by
    rw [← List.toFinset_card_of_nodup h.nodup, ← hWP, hWcard]
  refine ⟨by omega, ?_, ?_, ?_⟩
  · intro i j hi hj e
    exact hinj2 i j (by omega) (by omega) e
  · intro x hx
    have : x ∈ (Finset.range (2 * d0)).image (walk P s) := by
      rw [hWP]
      exact List.mem_toFinset.mpr hx
    obtain ⟨i, hi, rfl⟩ := Finset.mem_image.mp this
    exact ⟨i, by rw [hlen]; exact Finset.mem_range.mp hi, rfl⟩
  · rw [hlen, ← hret]
    rfl


/-! ## The rotation loop -/

theorem rotate_cons (q : ℚ) (s : shipment) (rest : List shipment)
    (st : List (List shipment) × Bool) :
    (List.foldl
      (fun (st : List (List shipment) × Bool) s =>
        let s1 : shipment :=
          if st.2 then { s with quantity := fadd s.quantity q }
          else { s with quantity := fsub s.quantity q }
        (if s1.quantity = 0 then setCell st.1 s1.r s1.c shipZero
          else setCell st.1 s1.r s1.c s1, !st.2)) st (s :: rest)) =
    (List.foldl
      (fun (st : List (List shipment) × Bool) s =>
        let s1 : shipment :=
          if st.2 then { s with quantity := fadd s.quantity q }
          else { s with quantity := fsub s.quantity q }
        (if s1.quantity = 0 then setCell st.1 s1.r s1.c shipZero
          else setCell st.1 s1.r s1.c s1, !st.2))
      (setCell st.1 s.r s.c (rotated q st.2 s), !st.2) rest) := by
  rw [List.foldl_cons]
  congr 1
  unfold rotated
  cases hb : st.2 <;> simp only [hb, if_true, Bool.false_eq_true, if_false] <;> split_ifs <;> rfl


theorem rotate_foldl (q : ℚ) (move : List shipment) (st : List (List shipment) × Bool) :
    (List.foldl
      (fun (st : List (List shipment) × Bool) s =>
        let s1 : shipment :=
          if st.2 then { s with quantity := fadd s.quantity q }
          else { s with quantity := fsub s.quantity q }
        (if s1.quantity = 0 then setCell st.1 s1.r s1.c shipZero
          else setCell st.1 s1.r s1.c s1, !st.2)) st move).1 =
    rotateFrom q st.2 move st.1 := by
  induction move generalizing st with
  | nil => rfl
  | cons s rest ih =>
    rw [rotate_cons, ih]
    rfl

theorem rotate_eq (q : ℚ) (move : List shipment) (m : List (List shipment)) :
    rotate q move m = rotateFrom q true move m := by
  unfold rotate
  exact rotate_foldl q move (m, true)

theorem rotated_r (q : ℚ) (plus : Bool) (s : shipment) (h : rotated q plus s ≠ shipZero) :
    (rotated q plus s).r = s.r ∧ (rotated q plus s).c = s.c ∧
      (rotated q plus s).quantity = if plus then fadd s.quantity q else fsub s.quantity q := by
  unfold rotated at h ⊢
  by_cases h0 : (if plus then fadd s.quantity q else fsub s.quantity q) = 0
  · rw [if_pos h0] at h
    exact absurd rfl h
  · rw [if_neg h0]
    exact ⟨rfl, rfl, rfl⟩

theorem basicQuantity_rotated (q : ℚ) (plus : Bool) (s : shipment) :
    basicQuantity (rotated q plus s) = if plus then fadd s.quantity q else fsub s.quantity q := by
  rw [basicQuantity_eq]
  unfold rotated
  by_cases h0 : (if plus then fadd s.quantity q else fsub s.quantity q) = 0
  · rw [if_pos h0, h0]
    rfl
  · rw [if_neg h0]

theorem length_rotateFrom (q : ℚ) (move : List shipment) :
    ∀ (plus : Bool) (m : List (List shipment)),
      (rotateFrom q plus move m).length = m.length ∧
      ∀ r, ((rotateFrom q plus move m).getD r []).length = (m.getD r []).length := by
  induction move with
  | nil => intro plus m; exact ⟨rfl, fun _ => rfl⟩
  | cons s rest ih =>
    intro plus m
    obtain ⟨h1, h2⟩ := ih (!plus) (setCell m s.r s.c (rotated q plus s))
    simp only [rotateFrom]
    exact ⟨by rw [h1, length_setCell], fun r => by rw [h2, rowLength_setCell]⟩

/-- Cells off the path are untouched. -/
theorem cellAt_rotateFrom_other (q : ℚ) (move : List shipment) (r c : Nat)
    (h : ∀ s ∈ move, ¬ (s.r = r ∧ s.c = c)) :
    ∀ (plus : Bool) (m : List (List shipment)),
      cellAt (rotateFrom q plus move m) r c = cellAt m r c := by
  induction move with
  | nil => intro plus m; rfl
  | cons s rest ih =>
    intro plus m
    simp only [rotateFrom]
    rw [ih (fun x hx => h x (List.mem_cons_of_mem _ hx)), cellAt_setCell]
    have := h s (List.mem_cons_self _ _)
    rw [if_neg (fun hh => this ⟨hh.1.symm, hh.2.1.symm⟩)]

/-- A cell of the path holds the rotated value of its entry. -/
theorem cellAt_rotateFrom_at (q : ℚ) (move : List shipment)
    (hdist : move.Pairwise (fun a b => ¬ (a.r = b.r ∧ a.c = b.c))) :
    ∀ (plus : Bool) (m : List (List shipment)),
      (∀ s ∈ move, s.r < m.length ∧ s.c < (m.getD s.r []).length) →
      ∀ i (hi : i < move.length),
        cellAt (rotateFrom q plus move m) (move.get ⟨i, hi⟩).r (move.get ⟨i, hi⟩).c =
          rotated q (if i % 2 = 0 then plus else !plus) (move.get ⟨i, hi⟩) := by
  induction move with
  | nil => intro plus m _ i hi; simp at hi
  | cons s rest ih =>
    intro plus m hrange i hi
    rw [List.pairwise_cons] at hdist
    simp only [rotateFrom]
    cases i with
    | zero =>
      simp only [List.get_eq_getElem, List.getElem_cons_zero, Nat.zero_mod, if_true]
      rw [cellAt_rotateFrom_other q rest s.r s.c
        (fun x hx hh => hdist.1 x hx ⟨hh.1.symm, hh.2.symm⟩), cellAt_setCell]
      have := hrange s (List.mem_cons_self _ _)
      rw [if_pos ⟨rfl, rfl, this.1, this.2⟩]
    | succ j =>
      have hj : j < rest.length := by simpa using hi
      have := ih hdist.2 (!plus) (setCell m s.r s.c (rotated q plus s))
        (fun x hx => by
          have := hrange x (List.mem_cons_of_mem _ hx)
          rw [length_setCell, rowLength_setCell]
          exact this) j hj
      simp only [List.get_eq_getElem, List.getElem_cons_succ] at this ⊢
      rw [this]
      congr 1
      rcases Nat.mod_two_eq_zero_or_one j with h0 | h0
      · have : (j + 1) % 2 = 1 := by omega
        simp [h0, this]
      · have : (j + 1) % 2 = 0 := by omega
        simp [h0, this]


/-- The effect of the rotation loop on the measures of a row added up. -/
theorem rowMeasure_rotateFrom (μ : shipment → ℚ) (q δ : ℚ) (C r : Nat) (move : List shipment)
    (hdist : move.Pairwise (fun a b => ¬ (a.r = b.r ∧ a.c = b.c))) :
    ∀ (plus : Bool) (m : List (List shipment)),
      (∀ s ∈ move, s.r < m.length ∧ s.c < (m.getD s.r []).length ∧ s.c < C ∧
        μ (cellAt m s.r s.c) = μ s) →
      stepsBy μ q δ plus move →
      ((List.range C).map (fun c => μ (cellAt (rotateFrom q plus move m) r c))).sum
        = ((List.range C).map (fun c => μ (cellAt m r c))).sum
          + δ * signedCount (fun s => if s.r = r then 1 else 0) plus move := by
  induction move with
  | nil => intro plus m _ _; simp [rotateFrom, signedCount]
  | cons s rest ih =>
    intro plus m hm hst
    rw [List.pairwise_cons] at hdist
    obtain ⟨hs1, hs2, hs3, hs4⟩ := hm s (List.mem_cons_self _ _)
    obtain ⟨hst1, hst2⟩ := hst
    have hrest : ∀ x ∈ rest,
        x.r < (setCell m s.r s.c (rotated q plus s)).length ∧
        x.c < ((setCell m s.r s.c (rotated q plus s)).getD x.r []).length ∧ x.c < C ∧
        μ (cellAt (setCell m s.r s.c (rotated q plus s)) x.r x.c) = μ x := by
      intro x hx
      obtain ⟨a, b, c1, d⟩ := hm x (List.mem_cons_of_mem _ hx)
      refine ⟨by rw [length_setCell]; exact a, by rw [rowLength_setCell]; exact b, c1, ?_⟩
      rw [cellAt_setCell, if_neg (fun hh => hdist.1 x hx ⟨hh.1.symm, hh.2.1.symm⟩)]
      exact d
    simp only [rotateFrom, signedCount]
    rw [ih hdist.2 (!plus) _ hrest hst2]
    by_cases hr : s.r = r
    · rw [sum_range_update (fun c => μ (cellAt m r c))
        (fun c => μ (cellAt (setCell m s.r s.c (rotated q plus s)) r c)) C s.c hs3]
      · rw [cellAt_setCell, if_pos ⟨hr.symm, rfl, hs1, hs2⟩, hst1, ← hr, hs4]
        cases plus <;> simp <;> ring
      · intro c hc
        show μ (cellAt (setCell m s.r s.c (rotated q plus s)) r c) = _
        rw [cellAt_setCell, if_neg (fun hh => hc hh.2.1)]
    · rw [sum_range_congr (fun c => μ (cellAt m r c))
        (fun c => μ (cellAt (setCell m s.r s.c (rotated q plus s)) r c)) C
        (fun c _ => by
          show μ (cellAt (setCell m s.r s.c (rotated q plus s)) r c) = _
          rw [cellAt_setCell, if_neg (fun hh => hr hh.1.symm)])]
      simp only [hr, if_false]
      cases plus <;> simp

/-- The effect of the rotation loop on the measures of a column added up. -/
theorem colMeasure_rotateFrom (μ : shipment → ℚ) (q δ : ℚ) (R c : Nat) (move : List shipment)
    (hdist : move.Pairwise (fun a b => ¬ (a.r = b.r ∧ a.c = b.c))) :
    ∀ (plus : Bool) (m : List (List shipment)),
      (∀ s ∈ move, s.r < m.length ∧ s.c < (m.getD s.r []).length ∧ s.r < R ∧
        μ (cellAt m s.r s.c) = μ s) →
      stepsBy μ q δ plus move →
      ((List.range R).map (fun r => μ (cellAt (rotateFrom q plus move m) r c))).sum
        = ((List.range R).map (fun r => μ (cellAt m r c))).sum
          + δ * signedCount (fun s => if s.c = c then 1 else 0) plus move := by
  induction move with
  | nil => intro plus m _ _; simp [rotateFrom, signedCount]
  | cons s rest ih =>
    intro plus m hm hst
    rw [List.pairwise_cons] at hdist
    obtain ⟨hs1, hs2, hs3, hs4⟩ := hm s (List.mem_cons_self _ _)
    obtain ⟨hst1, hst2⟩ := hst
    have hrest : ∀ x ∈ rest,
        x.r < (setCell m s.r s.c (rotated q plus s)).length ∧
        x.c < ((setCell m s.r s.c (rotated q plus s)).getD x.r []).length ∧ x.r < R ∧
        μ (cellAt (setCell m s.r s.c (rotated q plus s)) x.r x.c) = μ x := by
      intro x hx
      obtain ⟨a, b, c1, d⟩ := hm x (List.mem_cons_of_mem _ hx)
      refine ⟨by rw [length_setCell]; exact a, by rw [rowLength_setCell]; exact b, c1, ?_⟩
      rw [cellAt_setCell, if_neg (fun hh => hdist.1 x hx ⟨hh.1.symm, hh.2.1.symm⟩)]
      exact d
    simp only [rotateFrom, signedCount]
    rw [ih hdist.2 (!plus) _ hrest hst2]
    by_cases hc : s.c = c
    · rw [sum_range_update (fun r => μ (cellAt m r c))
        (fun r => μ (cellAt (setCell m s.r s.c (rotated q plus s)) r c)) R s.r hs3]
      · rw [cellAt_setCell, if_pos ⟨rfl, hc.symm, hs1, hs2⟩, hst1, ← hc, hs4]
        cases plus <;> simp <;> ring
      · intro r hr
        show μ (cellAt (setCell m s.r s.c (rotated q plus s)) r c) = _
        rw [cellAt_setCell, if_neg (fun hh => hr hh.1)]
    · rw [sum_range_congr (fun r => μ (cellAt m r c))
        (fun r => μ (cellAt (setCell m s.r s.c (rotated q plus s)) r c)) R
        (fun r _ => by
          show μ (cellAt (setCell m s.r s.c (rotated q plus s)) r c) = _
          rw [cellAt_setCell, if_neg (fun hh => hc hh.2.1.symm)])]
      simp only [hc, if_false]
      cases plus <;> simp

/-- A property of the entries by index and role gives the steps of a path. -/
theorem stepsBy_of_index (μ : shipment → ℚ) (q δ : ℚ) (move : List shipment) :
    ∀ (plus : Bool),
      (∀ i (hi : i < move.length),
        μ (rotated q (if i % 2 = 0 then plus else !plus) (move.get ⟨i, hi⟩))
          = μ (move.get ⟨i, hi⟩) + (if (if i % 2 = 0 then plus else !plus) then δ else - δ)) →
      stepsBy μ q δ plus move := by
  induction move with
  | nil => intro plus _; trivial
  | cons s rest ih =>
    intro plus h
    refine ⟨?_, ih (!plus) ?_⟩
    · have := h 0 (by simp)
      simpa using this
    · intro i hi
      have := h (i + 1) (by simpa using hi)
      simp only [List.get_eq_getElem, List.getElem_cons_succ] at this ⊢
      rcases Nat.mod_two_eq_zero_or_one i with h0 | h0
      · have h1 : (i + 1) % 2 = 1 := by omega
        simpa [h0, h1] using this
      · have h1 : (i + 1) % 2 = 0 := by omega
        simpa [h0, h1] using this


/-! ## Alternating sums along a cycle -/

theorem map_range_add_two (f : Nat → shipment) (n : Nat) :
    (List.range (n + 2)).map f = f 0 :: f 1 :: (List.range n).map (fun j => f (j + 2)) := by
  rw [List.range_succ_eq_map, List.map_cons, List.map_map, List.range_succ_eq_map,
    List.map_cons, List.map_map]
  rfl

theorem signedCount_pairs_even (g : shipment → ℚ) (w : Nat → shipment)
    (hg : ∀ j, j % 2 = 0 → g (w (j + 1)) = g (w j)) :
    ∀ k i, i % 2 = 0 →
      signedCount g true ((List.range (2 * k)).map (fun j => w (i + j))) = 0 := by
  intro k
  induction k with
  | zero => intro i _; rfl
  | succ k ih =>
    intro i hi
    have e : 2 * (k + 1) = 2 * k + 2 := by ring
    rw [e, map_range_add_two]
    simp only [signedCount, if_true, Bool.not_true, Bool.false_eq_true, if_false,
      Bool.not_false, Nat.add_zero]
    have h1 := hg i hi
    have h2 := ih (i + 2) (by omega)
    have h3 : (List.range (2 * k)).map (fun j => w (i + (j + 2)))
        = (List.range (2 * k)).map (fun j => w (i + 2 + j)) := by
      apply List.map_congr_left
      intro j _
      congr 1
      omega
    rw [h3, h2, h1]
    ring

theorem signedCount_pairs_odd (g : shipment → ℚ) (w : Nat → shipment)
    (hg : ∀ j, j % 2 = 1 → g (w (j + 1)) = g (w j)) :
    ∀ k i, i % 2 = 1 →
      signedCount g false ((List.range (2 * k + 1)).map (fun j => w (i + j)))
        = - g (w (i + 2 * k)) := by
  intro k
  induction k with
  | zero =>
    intro i _
    simp [signedCount]
  | succ k ih =>
    intro i hi
    have e : 2 * (k + 1) + 1 = (2 * k + 1) + 2 := by ring
    rw [e, map_range_add_two]
    simp only [signedCount, if_true, Bool.not_true, Bool.false_eq_true, if_false,
      Bool.not_false, Nat.add_zero]
    have h1 := hg i hi
    have h2 := ih (i + 2) (by omega)
    have h3 : (List.range (2 * k + 1)).map (fun j => w (i + (j + 2)))
        = (List.range (2 * k + 1)).map (fun j => w (i + 2 + j)) := by
      apply List.map_congr_left
      intro j _
      congr 1
      omega
    have h4 : i + 2 + 2 * k = i + 2 * (k + 1) := by ring
    rw [h3, h2, h1, h4]
    ring

/-- Along the closed path of a candidate every row has as many plus entries as
minus entries. -/
theorem signedCount_row_zero (P : List shipment) (s : shipment) (X : Finset shipment)
    (h : cycleData P s X) (r : Nat) :
    signedCount (fun x => if x.r = r then 1 else 0) true
      ((List.range P.length).map (walk P s)) = 0 := by
  obtain ⟨heven, _, _, _⟩ := walk_cycle P s X h
  obtain ⟨k, hk⟩ : ∃ k, P.length = 2 * k := ⟨P.length / 2, by omega⟩
  have := signedCount_pairs_even (fun x => if x.r = r then 1 else 0) (walk P s)
    (fun j hj => by
      show (if (walk P s (j + 1)).r = r then (1 : ℚ) else 0) = _
      rw [walk_succ_even P s j hj, (rowMate_spec P s X h _ (walk_mem P s X h j)).2.2])
    k 0 rfl
  rw [hk]
  simpa using this

/-- Along the closed path of a candidate every column has as many plus entries
as minus entries. -/
theorem signedCount_col_zero (P : List shipment) (s : shipment) (X : Finset shipment)
    (h : cycleData P s X) (c : Nat) :
    signedCount (fun x => if x.c = c then 1 else 0) true
      ((List.range P.length).map (walk P s)) = 0 := by
  obtain ⟨heven, _, _, hret⟩ := walk_cycle P s X h
  have hpos : 0 < P.length := List.length_pos_of_mem h.mem_s
  obtain ⟨k, hk⟩ : ∃ k, P.length = (2 * k + 1) + 1 := ⟨(P.length - 2) / 2, by omega⟩
  have := signedCount_pairs_odd (fun x => if x.c = c then 1 else 0) (walk P s)
    (fun j hj => by
      show (if (walk P s (j + 1)).c = c then (1 : ℚ) else 0) = _
      rw [walk_succ_odd P s j hj, (colMate_spec P s X h _ (walk_mem P s X h j)).2.2])
    k 1 rfl
  -- the last entry shares its column with the candidate
  have hlast : (walk P s (1 + 2 * k)).c = (walk P s 0).c := by
    have e1 : walk P s (1 + 2 * k + 1) = s := by
      have : 1 + 2 * k + 1 = P.length := by omega
      rw [this]
      exact hret
    have e2 := walk_succ_odd P s (1 + 2 * k) (by omega)
    have e3 := (colMate_spec P s X h _ (walk_mem P s X h (1 + 2 * k))).2.2
    rw [← e2, e1] at e3
    exact e3.symm
  rw [hk, List.range_succ_eq_map, List.map_cons, List.map_map]
  simp only [signedCount, if_true, Bool.not_true]
  have h3 : (List.range (2 * k + 1)).map (walk P s ∘ Nat.succ)
      = (List.range (2 * k + 1)).map (fun j => walk P s (1 + j)) := by
    apply List.map_congr_left
    intro j _
    simp only [Function.comp, Nat.succ_eq_add_one]
    congr 1
    omega
  rw [h3, this]
  simp only [hlast]
  ring


/-! ## The leaving cell -/

theorem evalStep_fold (l : List shipment) :
    ∀ st : pathState,
      (((l.foldl evalStep st).leavingCandidate = st.leavingCandidate ∧
          (l.foldl evalStep st).lowestQuantity = st.lowestQuantity) ∨
        ∃ i, ∃ hi : i < l.length,
          ((st.plus = true ∧ i % 2 = 1) ∨ (st.plus = false ∧ i % 2 = 0)) ∧
          l.get ⟨i, hi⟩ = (l.foldl evalStep st).leavingCandidate ∧
          (l.foldl evalStep st).lowestQuantity = (l.get ⟨i, hi⟩).quantity) ∧
      (l.foldl evalStep st).lowestQuantity ≤ st.lowestQuantity ∧
      ∀ i, ∀ hi : i < l.length,
        ((st.plus = true ∧ i % 2 = 1) ∨ (st.plus = false ∧ i % 2 = 0)) →
        (l.foldl evalStep st).lowestQuantity ≤ (l.get ⟨i, hi⟩).quantity := by
  induction l with
  | nil =>
    intro st
    exact ⟨Or.inl ⟨rfl, rfl⟩, le_refl _, fun i hi => by simp at hi⟩
  | cons s rest ih =>
    intro st
    rw [List.foldl_cons]
    obtain ⟨h1, h2, h3⟩ := ih (evalStep st s)
    -- indices of `rest` are shifted by one, and the flag has flipped
    have hshift : ∀ i, ((evalStep st s).plus = true ∧ i % 2 = 1) ∨
        ((evalStep st s).plus = false ∧ i % 2 = 0) →
        (st.plus = true ∧ (i + 1) % 2 = 1) ∨ (st.plus = false ∧ (i + 1) % 2 = 0) := by
      intro i hi
      unfold evalStep at hi
      cases hp : st.plus
      · right
        simp only [hp, Bool.false_eq_true, if_false] at hi
        split_ifs at hi
        · simp at hi; exact ⟨by trivial, by omega⟩
        · simp at hi; exact ⟨by trivial, by omega⟩
      · left
        simp only [hp, if_true] at hi
        simp at hi
        exact ⟨by trivial, by omega⟩
    have hshift2 : ∀ i, (st.plus = true ∧ (i + 1) % 2 = 1) ∨ (st.plus = false ∧ (i + 1) % 2 = 0) →
        ((evalStep st s).plus = true ∧ i % 2 = 1) ∨
          ((evalStep st s).plus = false ∧ i % 2 = 0) := by
      intro i hi
      unfold evalStep
      cases hp : st.plus
      · simp only [hp, Bool.false_eq_true, if_false]
        rcases hi with ⟨a, _⟩ | ⟨_, b⟩
        · rw [hp] at a; exact absurd a (by simp)
        · split_ifs <;> exact Or.inl ⟨by trivial, by omega⟩
      · simp only [hp, if_true]
        rcases hi with ⟨_, b⟩ | ⟨a, _⟩
        · exact Or.inr ⟨by trivial, by omega⟩
        · rw [hp] at a; exact absurd a (by simp)
    -- what the step itself does
    have hstep : ((evalStep st s).leavingCandidate = st.leavingCandidate ∧
          (evalStep st s).lowestQuantity = st.lowestQuantity) ∨
        (st.plus = false ∧ (evalStep st s).leavingCandidate = s ∧
          (evalStep st s).lowestQuantity = s.quantity) := by
      unfold evalStep
      cases hp : st.plus
      · simp only [Bool.false_eq_true, if_false]
        split_ifs
        · exact Or.inr ⟨by trivial, by trivial, by trivial⟩
        · exact Or.inl ⟨by trivial, by trivial⟩
      · simp only [if_true]
        exact Or.inl ⟨by trivial, by trivial⟩
    have hle : (evalStep st s).lowestQuantity ≤ st.lowestQuantity ∧
        (st.plus = false → (evalStep st s).lowestQuantity ≤ s.quantity) := by
      unfold evalStep
      cases hp : st.plus
      · simp only [Bool.false_eq_true, if_false]
        split_ifs with hlt
        · exact ⟨le_of_lt hlt, fun _ => le_refl _⟩
        · exact ⟨le_refl _, fun _ => le_of_not_lt hlt⟩
      · simp only [if_true]
        exact ⟨le_refl _, fun hh => absurd hh (by simp)⟩
    refine ⟨?_, le_trans h2 hle.1, ?_⟩
    · rcases h1 with ⟨a, b⟩ | ⟨i, hi, hpar, e1, e2⟩
      · rcases hstep with ⟨c, d⟩ | ⟨c, d, e⟩
        · exact Or.inl ⟨a.trans c, b.trans d⟩
        · right
          refine ⟨0, by simp, Or.inr ⟨c, rfl⟩, ?_, ?_⟩
          · simp only [List.get_eq_getElem, List.getElem_cons_zero]
            rw [a, d]
          · simp only [List.get_eq_getElem, List.getElem_cons_zero]
            rw [b, e]
      · right
        refine ⟨i + 1, by simpa using hi, hshift i hpar, ?_, ?_⟩
        · simpa using e1
        · simpa using e2
    · intro i hi hpar
      cases i with
      | zero =>
        simp only [List.get_eq_getElem, List.getElem_cons_zero]
        rcases hpar with ⟨_, b⟩ | ⟨a, _⟩
        · omega
        · exact le_trans h2 (hle.2 a)
      | succ j =>
        have hj : j < rest.length := by simpa using hi
        have := h3 j hj (hshift2 j hpar)
        simpa using this

theorem evalPath_leaving (path : List shipment)
    (hnonneg : ∀ i, ∀ hi : i < path.length, i % 2 = 1 → 0 ≤ (path.get ⟨i, hi⟩).quantity) :
    ((evalPath path).leavingCandidate = shipZero ∨
      ∃ i, ∃ hi : i < path.length, i % 2 = 1 ∧
        path.get ⟨i, hi⟩ = (evalPath path).leavingCandidate) ∧
    ∀ i, ∀ hi : i < path.length, i % 2 = 1 →
      (evalPath path).leavingCandidate.quantity ≤ (path.get ⟨i, hi⟩).quantity := by
  obtain ⟨h1, _, h3⟩ := evalStep_fold path ⟨0, 2147483647, shipZero, true⟩
  have h1a : (evalPath path).leavingCandidate = shipZero ∨
      ∃ i, ∃ hi : i < path.length, i % 2 = 1 ∧
        path.get ⟨i, hi⟩ = (evalPath path).leavingCandidate ∧
        (evalPath path).lowestQuantity = (path.get ⟨i, hi⟩).quantity := by
    rcases h1 with ⟨a, _⟩ | ⟨i, hi, hpar, e1, e2⟩
    · exact Or.inl a
    · right
      rcases hpar with ⟨_, b⟩ | ⟨a, _⟩
      · exact ⟨i, hi, b, e1, e2⟩
      · exact absurd a (by simp)
  constructor
  · rcases h1a with a | ⟨i, hi, b, e1, _⟩
    · exact Or.inl a
    · exact Or.inr ⟨i, hi, b, e1⟩
  · intro i hi hodd
    rcases h1a with a | ⟨j, hj, _, e1, e2⟩
    · rw [a]
      exact hnonneg i hi hodd
    · rw [← e1, ← e2]
      exact h3 i hi (Or.inl ⟨rfl, hodd⟩)

theorem evalPath_nil : (evalPath []).reduction = 0 := rfl


/-! ## The scan for the best candidate -/

theorem foldl_invariant {α β : Type} (I : β → Prop) (f : β → α → β) (l : List α)
    (h : ∀ b a, a ∈ l → I b → I (f b a)) (b0 : β) (h0 : I b0) : I (l.foldl f b0) := by
  induction l generalizing b0 with
  | nil => exact h0
  | cons a rest ih =>
    rw [List.foldl_cons]
    exact ih (fun b x hx hb => h b x (List.mem_cons_of_mem _ hx) hb) _
      (h b0 a (List.mem_cons_self _ _) h0)

theorem scanCell_selected (t : transport) (st : scanState) (r c : Nat)
    (hr : r < t.supply.length) (hc : c < t.demand.length)
    (h : st.maxReduction ≤ 0 ∧ selected t st) :
    (scanCell t st r c).maxReduction ≤ 0 ∧ selected t (scanCell t st r c) := by
  unfold scanCell
  by_cases hb : cellAt t.matrix r c ≠ shipZero
  · rw [if_pos hb]
    exact h
  · rw [if_neg hb]
    have hz : cellAt t.matrix r c = shipZero := by
      by_contra hne
      exact hb hne
    by_cases hlt : (evalPath (getClosedPath t.matrix ⟨0, costAt t.costs r c, r, c⟩)).reduction
        < st.maxReduction
    · simp only [hlt, if_true]
      have hneg := lt_of_lt_of_le hlt h.1
      exact ⟨le_of_lt hneg, Or.inr ⟨r, c, hr, hc, hz, rfl, rfl, hneg⟩⟩
    · simp only [hlt, if_false]
      exact h

theorem scanCells_selected (t : transport) : selected t (scanCells t) := by
  unfold scanCells
  refine (foldl_invariant (fun st => st.maxReduction ≤ 0 ∧ selected t st) _ _ ?_ _ ?_).2
  · intro st r hr hst
    refine foldl_invariant (fun st => st.maxReduction ≤ 0 ∧ selected t st) _ _ ?_ _ hst
    intro st1 c hc hst1
    exact scanCell_selected t st1 r c (List.mem_range.mp hr) (List.mem_range.mp hc) hst1
  · exact ⟨le_refl _, Or.inl rfl⟩

/-! ## Positions of the basic cells -/

theorem mem_basicPositions (m : List (List shipment)) (hwf : wellFormed m) (p : Nat × Nat) :
    p ∈ basicPositions m ↔
      p.1 < m.length ∧ p.2 < (m.getD p.1 []).length ∧ cellAt m p.1 p.2 ≠ shipZero := by
  unfold basicPositions
  rw [List.mem_toFinset, List.mem_map]
  constructor
  · rintro ⟨x, hx, rfl⟩
    obtain ⟨hne, r, c, hr, hc, hcell⟩ := mem_matrixToList m x hx
    rcases hwf r hr c hc with h0 | h1
    · rw [hcell] at h0
      exact absurd h0 hne
    · rw [hcell] at h1
      simp only [position]
      rw [h1.1, h1.2]
      exact ⟨hr, hc, by rw [hcell]; exact hne⟩
  · rintro ⟨hr, hc, hne⟩
    refine ⟨cellAt m p.1 p.2, ?_, ?_⟩
    · unfold matrixToList
      rw [List.mem_filter]
      refine ⟨?_, by simpa using hne⟩
      rcases cellAt_mem_or m p.1 p.2 with e | e
      · exact absurd e hne
      · exact e
    · rcases hwf p.1 hr p.2 hc with h0 | h1
      · exact absurd h0 hne
      · simp only [position]
        rw [h1.1, h1.2]

theorem position_mem (m : List (List shipment)) (x : shipment) (hx : x ∈ matrixToList m) :
    position x ∈ basicPositions m := by
  unfold basicPositions
  rw [List.mem_toFinset]
  exact List.mem_map_of_mem _ hx

/-- On a well-formed grid whose basic positions contain no cycle, the basic
cells themselves contain none. -/
theorem forest_of_acyclic (m : List (List shipment)) (hwf : wellFormed m) (hac : acyclic m) :
    forestIn (fun x : shipment => x.r) (fun x : shipment => x.c) (matrixToList m).toFinset := by
  intro S hS hcl
  by_contra hne
  have hinj : ∀ x y, x ∈ S → y ∈ S → position x = position y → x = y := by
    intro x y hx hy e
    have hx1 := List.mem_toFinset.mp (hS hx)
    have hy1 := List.mem_toFinset.mp (hS hy)
    have e1 : x.r = y.r := congrArg Prod.fst e
    have e2 : x.c = y.c := congrArg Prod.snd e
    rw [← cellAt_of_mem m hwf x hx1, ← cellAt_of_mem m hwf y hy1, e1, e2]
  have hsub : S.image position ⊆ basicPositions m := by
    intro p hp
    obtain ⟨x, hx, rfl⟩ := Finset.mem_image.mp hp
    exact position_mem m x (List.mem_toFinset.mp (hS hx))
  have hclosed : closedIn Prod.fst Prod.snd (S.image position) := by
    intro p hp
    obtain ⟨x, hx, rfl⟩ := Finset.mem_image.mp hp
    obtain ⟨⟨y, hy, hyx, hyr⟩, ⟨z, hz, hzx, hzc⟩⟩ := hcl x hx
    exact ⟨⟨position y, Finset.mem_image_of_mem _ hy, fun e => hyx (hinj y x hy hx e), hyr⟩,
      ⟨position z, Finset.mem_image_of_mem _ hz, fun e => hzx (hinj z x hz hx e), hzc⟩⟩
  have := hac _ hsub hclosed
  rw [Finset.image_eq_empty] at this
  exact hne this


/-! ## The closed path of a candidate on a grid without cycles -/

theorem pruneLoop_fixedPoint (path : List shipment) :
    ∀ e ∈ pruneLoop (path.length + 1) path,
      (getNeighbors e (pruneLoop (path.length + 1) path)).1 ≠ shipZero ∧
      (getNeighbors e (pruneLoop (path.length + 1) path)).2 ≠ shipZero := by
  intro e he
  have h0 := pruneLoop_fixed (path.length + 1) path (Nat.lt_succ_self _)
  obtain ⟨_, h2⟩ := prunePass_zero [] _ h0
  simp only [List.nil_append] at h2
  exact h2 e he

theorem getClosedPath_eq_walk (m : List (List shipment)) (s : shipment) :
    getClosedPath m s =
      (List.range (pruneLoop ((s :: matrixToList m).length + 1) (s :: matrixToList m)).length).map
        (walk (pruneLoop ((s :: matrixToList m).length + 1) (s :: matrixToList m)) s) := by
  have := orderStones_eq_walk
    (pruneLoop ((s :: matrixToList m).length + 1) (s :: matrixToList m)) s
    (pruneLoop ((s :: matrixToList m).length + 1) (s :: matrixToList m)).length 0
  simp only [Nat.zero_add] at this
  exact this

theorem closedPath_cycleData (m : List (List shipment)) (s : shipment)
    (hwf : wellFormed m) (hs : cellAt m s.r s.c = shipZero) (hac : acyclic m)
    (hne : getClosedPath m s ≠ []) :
    cycleData (pruneLoop ((s :: matrixToList m).length + 1) (s :: matrixToList m)) s
      (matrixToList m).toFinset := by
  have hsub := pruneLoop_sublist ((s :: matrixToList m).length + 1) (s :: matrixToList m)
  have hfix := pruneLoop_fixedPoint (s :: matrixToList m)
  have hforest := forest_of_acyclic m hwf hac
  have hPne : pruneLoop ((s :: matrixToList m).length + 1) (s :: matrixToList m) ≠ [] := by
    intro e
    apply hne
    apply List.length_eq_zero.mp
    rw [length_getClosedPath, e]
    rfl
  have hsubX : ∀ x ∈ pruneLoop ((s :: matrixToList m).length + 1) (s :: matrixToList m),
      x = s ∨ x ∈ (matrixToList m).toFinset := by
    intro x hx
    rcases List.mem_cons.mp (hsub.subset hx) with e | e
    · exact Or.inl e
    · exact Or.inr (List.mem_toFinset.mpr e)
  have hclosed : closedIn (fun x : shipment => x.r) (fun x : shipment => x.c)
      (pruneLoop ((s :: matrixToList m).length + 1) (s :: matrixToList m)).toFinset := by
    intro x hx
    obtain ⟨ha, hb⟩ := hfix x (List.mem_toFinset.mp hx)
    obtain ⟨a1, a2, a3⟩ := getNeighbors_fst x _ ha
    obtain ⟨b1, b2, b3⟩ := getNeighbors_snd x _ hb
    exact ⟨⟨_, List.mem_toFinset.mpr a1, a2, a3⟩, ⟨_, List.mem_toFinset.mpr b1, b2, b3⟩⟩
  have hmem : s ∈ (pruneLoop ((s :: matrixToList m).length + 1) (s :: matrixToList m)).toFinset := by
    apply mem_of_closedIn _ _ (matrixToList m).toFinset _ s hforest _ hclosed
    · obtain ⟨x, hx⟩ := List.exists_mem_of_ne_nil _ hPne
      exact ⟨x, List.mem_toFinset.mpr hx⟩
    · intro x hx
      rcases hsubX x (List.mem_toFinset.mp hx) with e | e
      · rw [e]; exact Finset.mem_insert_self _ _
      · exact Finset.mem_insert_of_mem e
  exact
    { nodup := List.Nodup.sublist hsub (by
        rw [List.nodup_cons]
        exact ⟨not_mem_matrixToList m hwf s hs, nodup_matrixToList m hwf⟩)
      mem_s := List.mem_toFinset.mp hmem
      sub := hsubX
      forest := hforest
      inj := fun x y hx hy =>
        position_injective m hwf s hs x y (hsub.subset hx) (hsub.subset hy)
      fixed := hfix }


/-! ## The entries of a closed path -/

theorem mem_matrixToList_of_cell (m : List (List shipment)) (r c : Nat)
    (h : cellAt m r c ≠ shipZero) : cellAt m r c ∈ matrixToList m := by
  unfold matrixToList
  rw [List.mem_filter]
  refine ⟨?_, by simpa using h⟩
  rcases cellAt_mem_or m r c with e | e
  · exact absurd e h
  · exact e

theorem position_in_range (m : List (List shipment)) (hwf : wellFormed m) (x : shipment)
    (hx : x ∈ matrixToList m) : x.r < m.length ∧ x.c < (m.getD x.r []).length := by
  have := (mem_basicPositions m hwf (position x)).mp (position_mem m x hx)
  exact ⟨this.1, this.2.1⟩

/-- The entries of the closed path of a candidate whose cell is not basic: they
lie in the grid, are the current contents of their cells as far as quantities
go, and hold non-negative quantities. -/
theorem walk_entry_basis (t : transport) (h : basisInv t) (s : shipment)
    (hr : s.r < t.supply.length) (hc : s.c < t.demand.length) (hq : s.quantity = 0)
    (hz : cellAt t.matrix s.r s.c = shipZero)
    (hne : getClosedPath t.matrix s ≠ []) (i : Nat) :
    (walk (pruneLoop ((s :: matrixToList t.matrix).length + 1) (s :: matrixToList t.matrix)) s i).r
        < t.matrix.length ∧
    (walk (pruneLoop ((s :: matrixToList t.matrix).length + 1) (s :: matrixToList t.matrix)) s i).c
        < (t.matrix.getD
          (walk (pruneLoop ((s :: matrixToList t.matrix).length + 1)
            (s :: matrixToList t.matrix)) s i).r []).length ∧
    (walk (pruneLoop ((s :: matrixToList t.matrix).length + 1) (s :: matrixToList t.matrix)) s i).r
        < t.supply.length ∧
    (walk (pruneLoop ((s :: matrixToList t.matrix).length + 1) (s :: matrixToList t.matrix)) s i).c
        < t.demand.length ∧
    basicQuantity (cellAt t.matrix
      (walk (pruneLoop ((s :: matrixToList t.matrix).length + 1) (s :: matrixToList t.matrix)) s i).r
      (walk (pruneLoop ((s :: matrixToList t.matrix).length + 1) (s :: matrixToList t.matrix)) s i).c)
      = (walk (pruneLoop ((s :: matrixToList t.matrix).length + 1)
          (s :: matrixToList t.matrix)) s i).quantity ∧
    0 ≤ (walk (pruneLoop ((s :: matrixToList t.matrix).length + 1)
          (s :: matrixToList t.matrix)) s i).quantity := by
  have hcd := closedPath_cycleData t.matrix s h.wf hz h.acyc hne
  have hmem := walk_mem _ s _ hcd i
  generalize walk (pruneLoop ((s :: matrixToList t.matrix).length + 1)
    (s :: matrixToList t.matrix)) s i = x at hmem
  have hx := (pruneLoop_sublist _ _).subset hmem
  rcases List.mem_cons.mp hx with e | e
  · subst e
    refine ⟨by rw [h.shaped.1]; exact hr, by rw [h.shaped.2 _ hr]; exact hc, hr, hc, ?_, ?_⟩
    · rw [hz, hq, basicQuantity_eq]
      rfl
    · rw [hq]
  · obtain ⟨a, b⟩ := position_in_range t.matrix h.wf x e
    have hr1 : x.r < t.supply.length := by rw [← h.shaped.1]; exact a
    refine ⟨a, b, hr1, by rw [← h.shaped.2 _ hr1]; exact b, ?_, le_of_lt (h.pos x e)⟩
    rw [cellAt_of_mem t.matrix h.wf x e, basicQuantity_eq]

theorem walk_positions_distinct (P : List shipment) (s : shipment) (X : Finset shipment)
    (h : cycleData P s X) :
    ((List.range P.length).map (walk P s)).Pairwise (fun a b => ¬ (a.r = b.r ∧ a.c = b.c)) := by
  rw [List.pairwise_map]
  refine List.Pairwise.imp_of_mem ?_ (List.pairwise_lt_range P.length)
  intro i j hi hj hij hh
  have := (walk_cycle P s X h).2.1 i j (List.mem_range.mp hi) (List.mem_range.mp hj)
    (h.inj _ _ (walk_mem P s X h i) (walk_mem P s X h j) hh.1 hh.2)
  omega

theorem get_map_walk (P : List shipment) (s : shipment) (n i : Nat)
    (hi : i < ((List.range n).map (walk P s)).length) :
    ((List.range n).map (walk P s)).get ⟨i, hi⟩ = walk P s i := by
  simp [List.get_eq_getElem]


/-! ## A rotation preserves the invariant -/

theorem rotated_quantity_ne (q : ℚ) (plus : Bool) (s : shipment) (h : rotated q plus s ≠ shipZero) :
    (if plus then fadd s.quantity q else fsub s.quantity q) ≠ 0 := by
  intro h0
  apply h
  unfold rotated
  rw [if_pos h0]

theorem rotated_eq_shipZero (q : ℚ) (plus : Bool) (s : shipment)
    (h : (if plus then fadd s.quantity q else fsub s.quantity q) = 0) :
    rotated q plus s = shipZero := by
  unfold rotated
  rw [if_pos h]

theorem wholeOf_rotated (q : ℚ) (plus : Bool) (s : shipment) :
    wholeOf (rotated q plus s).quantity
      = wholeOf (if plus then fadd s.quantity q else fsub s.quantity q) := by
  by_cases h0 : (if plus then fadd s.quantity q else fsub s.quantity q) = 0
  · rw [rotated_eq_shipZero q plus s h0, h0]
    rfl
  · unfold rotated
    rw [if_neg h0]

theorem wholeOf_mono (x y : ℚ) (h : x ≤ y) : wholeOf x ≤ wholeOf y := by
  unfold wholeOf
  split_ifs with h1 h2 h2
  · exact h
  · linarith
  · linarith
  · exact le_refl _

/-- The grid after the rotation loop, cell by cell, when the path is the closed
path of a candidate. -/
theorem cellAt_rotate_cycle (q : ℚ) (m : List (List shipment)) (P : List shipment)
    (s : shipment) (X : Finset shipment) (hcd : cycleData P s X)
    (hrange : ∀ i, (walk P s i).r < m.length ∧ (walk P s i).c < (m.getD (walk P s i).r []).length) :
    (∀ i, i < P.length →
      cellAt (rotate q ((List.range P.length).map (walk P s)) m) (walk P s i).r (walk P s i).c
        = rotated q (decide (i % 2 = 0)) (walk P s i)) ∧
    (∀ r c, (∀ i, i < P.length → ¬ ((walk P s i).r = r ∧ (walk P s i).c = c)) →
      cellAt (rotate q ((List.range P.length).map (walk P s)) m) r c = cellAt m r c) := by
  rw [rotate_eq]
  constructor
  · intro i hi
    have hi1 : i < ((List.range P.length).map (walk P s)).length := by simpa using hi
    have := cellAt_rotateFrom_at q _ (walk_positions_distinct P s X hcd) true m
      (fun x hx => by
        obtain ⟨j, _, rfl⟩ := List.mem_map.mp hx
        exact hrange j) i hi1
    rw [get_map_walk] at this
    rw [this]
    rcases Nat.mod_two_eq_zero_or_one i with h0 | h0 <;> simp [h0]
  · intro r c hoff
    apply cellAt_rotateFrom_other
    intro x hx
    obtain ⟨j, hj, rfl⟩ := List.mem_map.mp hx
    exact hoff j (List.mem_range.mp hj)

/-- Every cell of the rotated grid is the rotated value of a path entry or is
untouched. -/
theorem cellAt_rotate_split (q : ℚ) (m : List (List shipment)) (P : List shipment)
    (s : shipment) (X : Finset shipment) (hcd : cycleData P s X)
    (hrange : ∀ i, (walk P s i).r < m.length ∧ (walk P s i).c < (m.getD (walk P s i).r []).length)
    (r c : Nat) :
    (∃ i, i < P.length ∧ (walk P s i).r = r ∧ (walk P s i).c = c ∧
      cellAt (rotate q ((List.range P.length).map (walk P s)) m) r c
        = rotated q (decide (i % 2 = 0)) (walk P s i)) ∨
    ((∀ i, i < P.length → ¬ ((walk P s i).r = r ∧ (walk P s i).c = c)) ∧
      cellAt (rotate q ((List.range P.length).map (walk P s)) m) r c = cellAt m r c) := by
  obtain ⟨hat, hoff⟩ := cellAt_rotate_cycle q m P s X hcd hrange
  by_cases hex : ∃ i, i < P.length ∧ (walk P s i).r = r ∧ (walk P s i).c = c
  · obtain ⟨i, hi, e1, e2⟩ := hex
    left
    refine ⟨i, hi, e1, e2, ?_⟩
    rw [← e1, ← e2]
    exact hat i hi
  · right
    have hno : ∀ i, i < P.length → ¬ ((walk P s i).r = r ∧ (walk P s i).c = c) :=
      fun i hi hh => hex ⟨i, hi, hh.1, hh.2⟩
    exact ⟨hno, hoff r c hno⟩

theorem basisInv_rotate_cycle (t : transport) (h : basisInv t)
    (P : List shipment) (s : shipment)
    (hcd : cycleData P s (matrixToList t.matrix).toFinset)
    (hent : ∀ i,
      (walk P s i).r < t.matrix.length ∧
      (walk P s i).c < (t.matrix.getD (walk P s i).r []).length ∧
      (walk P s i).r < t.supply.length ∧
      (walk P s i).c < t.demand.length ∧
      basicQuantity (cellAt t.matrix (walk P s i).r (walk P s i).c) = (walk P s i).quantity ∧
      0 ≤ (walk P s i).quantity)
    (q : ℚ) (hq0 : 0 ≤ q)
    (hqle : ∀ i, i < P.length → i % 2 = 1 → q ≤ (walk P s i).quantity)
    (hzero : ∃ i, i < P.length ∧ rotated q (decide (i % 2 = 0)) (walk P s i) = shipZero) :
    basisInv { t with matrix := rotate q ((List.range P.length).map (walk P s)) t.matrix } := by
  obtain ⟨hat, hoff⟩ := cellAt_rotate_cycle q t.matrix P s _ hcd
    (fun i => ⟨(hent i).1, (hent i).2.1⟩)
  have hlen : (rotate q ((List.range P.length).map (walk P s)) t.matrix).length
      = t.matrix.length := by
    rw [rotate_eq]
    exact (length_rotateFrom q _ true t.matrix).1
  have hrowlen : ∀ r, ((rotate q ((List.range P.length).map (walk P s)) t.matrix).getD r []).length
      = (t.matrix.getD r []).length := by
    intro r
    rw [rotate_eq]
    exact (length_rotateFrom q _ true t.matrix).2 r
  have hsplit := cellAt_rotate_split q t.matrix P s _ hcd (fun i => ⟨(hent i).1, (hent i).2.1⟩)
  have hrotpos : ∀ i, i < P.length →
      rotated q (decide (i % 2 = 0)) (walk P s i) ≠ shipZero →
      0 < (rotated q (decide (i % 2 = 0)) (walk P s i)).quantity := by
    intro i hi hne
    have h1 := (rotated_r q _ _ hne).2.2
    have h2 := rotated_quantity_ne q _ _ hne
    rw [h1]
    rcases Nat.mod_two_eq_zero_or_one i with h0 | h0
    · simp only [h0, decide_True, if_true] at h2 ⊢
      have := (hent i).2.2.2.2.2
      exact lt_of_le_of_ne (rnd_nonneg _ (by linarith)) (Ne.symm h2)
    · have hd : decide (i % 2 = 0) = false := by simp [h0]
      simp only [hd, Bool.false_eq_true, if_false] at h2 ⊢
      have := hqle i hi h0
      exact lt_of_le_of_ne (rnd_nonneg _ (by linarith)) (Ne.symm h2)
  have hwf : wellFormed (rotate q ((List.range P.length).map (walk P s)) t.matrix) := by
    intro r hr c hc
    rcases hsplit r c with ⟨i, hi, e1, e2, e3⟩ | ⟨_, e3⟩
    · rw [e3]
      by_cases hz : rotated q (decide (i % 2 = 0)) (walk P s i) = shipZero
      · exact Or.inl hz
      · right
        obtain ⟨a, b, _⟩ := rotated_r q _ _ hz
        exact ⟨a.trans e1, b.trans e2⟩
    · rw [e3]
      rw [hlen] at hr
      rw [hrowlen] at hc
      exact h.wf r hr c hc
  have hpos : ∀ x ∈ matrixToList (rotate q ((List.range P.length).map (walk P s)) t.matrix),
      0 < x.quantity := by
    intro x hx
    obtain ⟨hne, r, c, _, _, hcell⟩ := mem_matrixToList _ x hx
    rcases hsplit r c with ⟨i, hi, _, _, e3⟩ | ⟨_, e3⟩
    · rw [e3] at hcell
      rw [← hcell]
      exact hrotpos i hi (by rw [hcell]; exact hne)
    · rw [e3] at hcell
      apply h.pos
      rw [← hcell]
      apply mem_matrixToList_of_cell
      rw [hcell]
      exact hne
  -- positions
  have hinjP : ∀ x y, x ∈ P → y ∈ P → position x = position y → x = y := by
    intro x y hx hy e
    exact hcd.inj x y hx hy (congrArg Prod.fst e) (congrArg Prod.snd e)
  have hPpos : P.toFinset.image position ⊆ insert (position s) (basicPositions t.matrix) := by
    intro p hp
    obtain ⟨x, hx, rfl⟩ := Finset.mem_image.mp hp
    rcases hcd.sub x (List.mem_toFinset.mp hx) with e | e
    · rw [e]; exact Finset.mem_insert_self _ _
    · exact Finset.mem_insert_of_mem (position_mem _ x (List.mem_toFinset.mp e))
  have hPclosed : closedIn Prod.fst Prod.snd (P.toFinset.image position) := by
    intro p hp
    obtain ⟨x, hx, rfl⟩ := Finset.mem_image.mp hp
    obtain ⟨⟨y, hy, hyx, hyr⟩, ⟨z, hz, hzx, hzc⟩⟩ := cycleData_closed P s _ hcd x hx
    exact
      ⟨⟨position y, Finset.mem_image_of_mem _ hy,
          fun e => hyx (hinjP y x (List.mem_toFinset.mp hy) (List.mem_toFinset.mp hx) e), hyr⟩,
        ⟨position z, Finset.mem_image_of_mem _ hz,
          fun e => hzx (hinjP z x (List.mem_toFinset.mp hz) (List.mem_toFinset.mp hx) e), hzc⟩⟩
  have hnewsub : basicPositions (rotate q ((List.range P.length).map (walk P s)) t.matrix)
      ⊆ insert (position s) (basicPositions t.matrix) := by
    intro p hp
    obtain ⟨a, b, hne⟩ := (mem_basicPositions _ hwf p).mp hp
    rcases hsplit p.1 p.2 with ⟨i, hi, e1, e2, _⟩ | ⟨_, e3⟩
    · apply hPpos
      have : p = position (walk P s i) := by
        simp only [position]
        rw [e1, e2]
      rw [this]
      exact Finset.mem_image_of_mem _ (List.mem_toFinset.mpr (walk_mem P s _ hcd i))
    · apply Finset.mem_insert_of_mem
      rw [mem_basicPositions _ h.wf]
      rw [hlen] at a
      rw [hrowlen] at b
      exact ⟨a, b, by rw [← e3]; exact hne⟩
  have hacyc : acyclic (rotate q ((List.range P.length).map (walk P s)) t.matrix) := by
    intro S hS hcl
    by_contra hSne
    have hSne1 : S.Nonempty := Finset.nonempty_iff_ne_empty.mpr hSne
    have hSeq : S = P.toFinset.image position :=
      cycle_unique Prod.fst Prod.snd (basicPositions t.matrix) S _ (position s) h.acyc
        (hS.trans hnewsub) hPpos hcl hPclosed hSne1
        ⟨position s, Finset.mem_image_of_mem _ (List.mem_toFinset.mpr hcd.mem_s)⟩
    obtain ⟨i, hi, hz⟩ := hzero
    have hin : position (walk P s i) ∈ S := by
      rw [hSeq]
      exact Finset.mem_image_of_mem _ (List.mem_toFinset.mpr (walk_mem P s _ hcd i))
    have := ((mem_basicPositions _ hwf _).mp (hS hin)).2.2
    apply this
    show cellAt _ (walk P s i).r (walk P s i).c = shipZero
    rw [hat i hi, hz]
  exact
    { shaped := ⟨hlen.trans h.shaped.1, fun r hr => (hrowlen r).trans (h.shaped.2 r hr)⟩
      wf := hwf
      pos := hpos
      acyc := hacyc }

theorem basisInv_of_typedInv (b : Bool) (f : Nat) (t : transport) (h : typedInv b f t) :
    basisInv t :=
  { shaped := h.shaped
    wf := h.wf
    pos := fun x hx => typed_pos b f _ (h.typed x hx)
    acyc := h.acyc }

theorem typedInv_mono (b : Bool) (f g : Nat) (hfg : f ≤ g) (t : transport)
    (h : typedInv b f t) : typedInv b g t :=
  { shaped := h.shaped
    wf := h.wf
    typed := fun x hx => typed_mono b f g hfg _ (h.typed x hx)
    acyc := h.acyc
    row_cap := h.row_cap }

/-- One term of a sum of non-negative terms is at most the sum. -/
theorem single_le_sum_range (g : Nat → ℚ) (hg : ∀ c, 0 ≤ g c) (n c1 : Nat) (h1 : c1 < n) :
    g c1 ≤ ((List.range n).map g).sum := by
  induction n with
  | zero => omega
  | succ n ih =>
    rw [List.sum_range_succ]
    have hsum : 0 ≤ ((List.range n).map g).sum :=
      List.sum_nonneg (fun x hx => by
        obtain ⟨c, _, rfl⟩ := List.mem_map.mp hx
        exact hg c)
    by_cases e : c1 = n
    · subst e
      linarith
    · have := ih (by omega)
      linarith [hg n]

/-- Two terms of a sum of non-negative terms are together at most the sum. -/
theorem pair_le_sum_range (g : Nat → ℚ) (hg : ∀ c, 0 ≤ g c) (n c1 c2 : Nat) (h1 : c1 < n)
    (h2 : c2 < n) (hne : c1 ≠ c2) : g c1 + g c2 ≤ ((List.range n).map g).sum := by
  induction n with
  | zero => omega
  | succ n ih =>
    rw [List.sum_range_succ]
    by_cases e1 : c1 = n
    · subst e1
      have := single_le_sum_range g hg c1 c2 (by omega)
      linarith
    · by_cases e2 : c2 = n
      · subst e2
        have := single_le_sum_range g hg c2 c1 (by omega)
        linarith
      · have := ih (by omega) (by omega)
        linarith [hg n]

/-- The rotation along the closed path of a candidate keeps the kinds of the
quantities and the whole quantities of every row and column. -/
theorem typedInv_rotate_cycle (b : Bool) (f : Nat) (hf : f ≤ 1019) (t : transport)
    (h : typedInv b f t) (P : List shipment) (s : shipment)
    (hcd : cycleData P s (matrixToList t.matrix).toFinset)
    (hent : ∀ i,
      (walk P s i).r < t.matrix.length ∧
      (walk P s i).c < (t.matrix.getD (walk P s i).r []).length ∧
      (walk P s i).r < t.supply.length ∧
      (walk P s i).c < t.demand.length ∧
      basicQuantity (cellAt t.matrix (walk P s i).r (walk P s i).c) = (walk P s i).quantity ∧
      0 ≤ (walk P s i).quantity)
    (htyp : ∀ i, (walk P s i).quantity = 0 ∨ typed b f (walk P s i).quantity)
    (q : ℚ) (hq : q = 0 ∨ typed b f q)
    (hqle : ∀ i, i < P.length → i % 2 = 1 → q ≤ (walk P s i).quantity)
    (hzero : ∃ i, i < P.length ∧ rotated q (decide (i % 2 = 0)) (walk P s i) = shipZero) :
    typedInv b (f + 1)
      { t with matrix := rotate q ((List.range P.length).map (walk P s)) t.matrix } ∧
    (∀ r, wholeRowSum
      { t with matrix := rotate q ((List.range P.length).map (walk P s)) t.matrix } r
      = wholeRowSum t r) ∧
    (∀ c, wholeColSum
      { t with matrix := rotate q ((List.range P.length).map (walk P s)) t.matrix } c
      = wholeColSum t c) := by
  have hq0 : 0 ≤ q := by
    rcases hq with e | e
    · rw [e]
    · exact le_of_lt (typed_pos b f q e)
  have hb := basisInv_rotate_cycle t (basisInv_of_typedInv b f t h) P s hcd hent q hq0 hqle hzero
  have hsplit := cellAt_rotate_split q t.matrix P s _ hcd (fun i => ⟨(hent i).1, (hent i).2.1⟩)
  obtain ⟨heven, _, _, _⟩ := walk_cycle P s _ hcd
  -- the quantity of an entry is the quantity of its cell
  have hcellq : ∀ i, (cellAt t.matrix (walk P s i).r (walk P s i).c).quantity
      = (walk P s i).quantity := by
    intro i
    have := (hent i).2.2.2.2.1
    rwa [basicQuantity_eq] at this
  have hcap1 : ∀ i, wholeOf (walk P s i).quantity ≤ 2 ^ 53 := by
    intro i
    have h1 := single_le_sum_range
      (fun c => wholeOf (cellAt t.matrix (walk P s i).r c).quantity)
      (fun c => wholeOf_nonneg _) t.demand.length (walk P s i).c (hent i).2.2.2.1
    have h2 := h.row_cap (walk P s i).r (hent i).2.2.1
    unfold wholeRowSum at h2
    simp only [hcellq i] at h1
    linarith
  have hcap2 : ∀ i, i < P.length → i % 2 = 0 →
      wholeOf (walk P s i).quantity + wholeOf q ≤ 2 ^ 53 := by
    intro i hi h0
    have hmate := rowMate_spec P s _ hcd _ (walk_mem P s _ hcd i)
    rw [← walk_succ_even P s i h0] at hmate
    have hcne : (walk P s i).c ≠ (walk P s (i + 1)).c := by
      intro e
      exact hmate.2.1 (hcd.inj _ _ hmate.1 (walk_mem P s _ hcd i) hmate.2.2 e.symm)
    have h1 := pair_le_sum_range
      (fun c => wholeOf (cellAt t.matrix (walk P s i).r c).quantity)
      (fun c => wholeOf_nonneg _) t.demand.length (walk P s i).c (walk P s (i + 1)).c
      (hent i).2.2.2.1 (hent (i + 1)).2.2.2.1 hcne
    have h2 := h.row_cap (walk P s i).r (hent i).2.2.1
    unfold wholeRowSum at h2
    have h3 := hcellq (i + 1)
    rw [hmate.2.2] at h3
    simp only [hcellq i, h3] at h1
    have h4 := wholeOf_mono _ _ (hqle (i + 1) (by omega) (by omega))
    linarith
  -- what the rotation stores for each entry
  have hstep : ∀ i, i < P.length →
      ((if decide (i % 2 = 0) = true then fadd (walk P s i).quantity q
          else fsub (walk P s i).quantity q) = 0 ∨
        typed b (f + 1) (if decide (i % 2 = 0) = true then fadd (walk P s i).quantity q
          else fsub (walk P s i).quantity q)) ∧
      wholeOf (if decide (i % 2 = 0) = true then fadd (walk P s i).quantity q
          else fsub (walk P s i).quantity q)
        = wholeOf (walk P s i).quantity
          + (if decide (i % 2 = 0) = true then wholeOf q else - wholeOf q) := by
    intro i hi
    rcases Nat.mod_two_eq_zero_or_one i with h0 | h0
    · simp only [h0, decide_True, if_true]
      exact typed_plus b f hf _ q (htyp i) hq (hcap2 i hi h0)
    · have hd : decide (i % 2 = 0) = false := by simp [h0]
      simp only [hd, Bool.false_eq_true, if_false]
      have := typed_minus b f hf _ q (htyp i) hq (hqle i hi h0) (hcap1 i)
      rw [sub_eq_add_neg] at this
      exact this
  have htyped : ∀ x ∈ matrixToList (rotate q ((List.range P.length).map (walk P s)) t.matrix),
      typed b (f + 1) x.quantity := by
    intro x hx
    obtain ⟨hne, r, c, _, _, hcell⟩ := mem_matrixToList _ x hx
    rcases hsplit r c with ⟨i, hi, _, _, e3⟩ | ⟨_, e3⟩
    · rw [e3] at hcell
      have hne1 : rotated q (decide (i % 2 = 0)) (walk P s i) ≠ shipZero := by
        rw [hcell]
        exact hne
      have h1 := (rotated_r q _ _ hne1).2.2
      have h2 := rotated_quantity_ne q _ _ hne1
      rw [← hcell, h1]
      rcases (hstep i hi).1 with e | e
      · exact absurd e h2
      · exact e
    · rw [e3] at hcell
      apply typed_mono b f (f + 1) (Nat.le_succ f)
      apply h.typed
      rw [← hcell]
      apply mem_matrixToList_of_cell
      rw [hcell]
      exact hne
  have hsteps : stepsBy (fun x : shipment => wholeOf x.quantity) q (wholeOf q) true
      ((List.range P.length).map (walk P s)) := by
    apply stepsBy_of_index
    intro i hi
    have hi1 : i < P.length := by simpa using hi
    rw [get_map_walk]
    have := (hstep i hi1).2
    rcases Nat.mod_two_eq_zero_or_one i with h0 | h0
    · simp only [h0, decide_True, if_true] at this ⊢
      rw [wholeOf_rotated]
      simpa using this
    · have hd : decide (i % 2 = 0) = false := by simp [h0]
      have hn : ¬ i % 2 = 0 := by omega
      simp only [hd, Bool.false_eq_true, if_false] at this
      simp only [hn, if_false, Bool.not_true, Bool.false_eq_true]
      rw [wholeOf_rotated]
      simpa using this
  have hmovefacts : ∀ x ∈ (List.range P.length).map (walk P s),
      (x.r < t.matrix.length ∧ x.c < (t.matrix.getD x.r []).length ∧ x.c < t.demand.length ∧
        wholeOf (cellAt t.matrix x.r x.c).quantity = wholeOf x.quantity) ∧
      (x.r < t.matrix.length ∧ x.c < (t.matrix.getD x.r []).length ∧ x.r < t.supply.length ∧
        wholeOf (cellAt t.matrix x.r x.c).quantity = wholeOf x.quantity) := by
    intro x hx
    obtain ⟨j, _, rfl⟩ := List.mem_map.mp hx
    obtain ⟨a, b1, c, d, _, _⟩ := hent j
    exact ⟨⟨a, b1, d, by rw [hcellq j]⟩, ⟨a, b1, c, by rw [hcellq j]⟩⟩
  have hrow : ∀ r, wholeRowSum
      { t with matrix := rotate q ((List.range P.length).map (walk P s)) t.matrix } r
      = wholeRowSum t r := by
    intro r
    unfold wholeRowSum
    show ((List.range t.demand.length).map (fun c => wholeOf
      (cellAt (rotate q ((List.range P.length).map (walk P s)) t.matrix) r c).quantity)).sum = _
    rw [rotate_eq, rowMeasure_rotateFrom (fun x : shipment => wholeOf x.quantity) q (wholeOf q)
      t.demand.length r _ (walk_positions_distinct P s _ hcd) true t.matrix
      (fun x hx => (hmovefacts x hx).1) hsteps, signedCount_row_zero P s _ hcd r]
    ring
  have hcol : ∀ c, wholeColSum
      { t with matrix := rotate q ((List.range P.length).map (walk P s)) t.matrix } c
      = wholeColSum t c := by
    intro c
    unfold wholeColSum
    show ((List.range t.supply.length).map (fun r => wholeOf
      (cellAt (rotate q ((List.range P.length).map (walk P s)) t.matrix) r c).quantity)).sum = _
    rw [rotate_eq, colMeasure_rotateFrom (fun x : shipment => wholeOf x.quantity) q (wholeOf q)
      t.supply.length c _ (walk_positions_distinct P s _ hcd) true t.matrix
      (fun x hx => (hmovefacts x hx).2) hsteps, signedCount_col_zero P s _ hcd c]
    ring
  exact
    ⟨{ shaped := hb.shaped
       wf := hb.wf
       typed := htyped
       acyc := hb.acyc
       row_cap := fun r hr => by rw [hrow r]; exact h.row_cap r hr }, hrow, hcol⟩

/-- The rotation applied by a pass of `steppingStone` keeps the kinds of the
quantities and the whole quantities of every row and column. -/
theorem typedInv_rotate (b : Bool) (f : Nat) (hf : f ≤ 1019) (t : transport)
    (h : typedInv b f t) (r c : Nat)
    (hr : r < t.supply.length) (hc : c < t.demand.length)
    (hz : cellAt t.matrix r c = shipZero)
    (hneg : (evalPath (getClosedPath t.matrix ⟨0, costAt t.costs r c, r, c⟩)).reduction < 0) :
    typedInv b (f + 1)
      { t with
        matrix := rotate
          (evalPath (getClosedPath t.matrix ⟨0, costAt t.costs r c, r, c⟩)).leavingCandidate.quantity
          (getClosedPath t.matrix ⟨0, costAt t.costs r c, r, c⟩) t.matrix } ∧
    (∀ r1, wholeRowSum
      { t with
        matrix := rotate
          (evalPath (getClosedPath t.matrix ⟨0, costAt t.costs r c, r, c⟩)).leavingCandidate.quantity
          (getClosedPath t.matrix ⟨0, costAt t.costs r c, r, c⟩) t.matrix } r1
        = wholeRowSum t r1) ∧
    (∀ c1, wholeColSum
      { t with
        matrix := rotate
          (evalPath (getClosedPath t.matrix ⟨0, costAt t.costs r c, r, c⟩)).leavingCandidate.quantity
          (getClosedPath t.matrix ⟨0, costAt t.costs r c, r, c⟩) t.matrix } c1
        = wholeColSum t c1) := by
  have hbas := basisInv_of_typedInv b f t h
  have hne : getClosedPath t.matrix ⟨0, costAt t.costs r c, r, c⟩ ≠ [] := by
    intro e
    rw [e, evalPath_nil] at hneg
    exact lt_irrefl _ hneg
  have hcd := closedPath_cycleData t.matrix ⟨0, costAt t.costs r c, r, c⟩ h.wf hz h.acyc hne
  have hent := walk_entry_basis t hbas ⟨0, costAt t.costs r c, r, c⟩ hr hc rfl hz hne
  have htyp : ∀ i,
      (walk (pruneLoop (((⟨0, costAt t.costs r c, r, c⟩ : shipment) :: matrixToList t.matrix).length
        + 1) ((⟨0, costAt t.costs r c, r, c⟩ : shipment) :: matrixToList t.matrix))
        ⟨0, costAt t.costs r c, r, c⟩ i).quantity = 0 ∨
      typed b f (walk (pruneLoop
        (((⟨0, costAt t.costs r c, r, c⟩ : shipment) :: matrixToList t.matrix).length + 1)
        ((⟨0, costAt t.costs r c, r, c⟩ : shipment) :: matrixToList t.matrix))
        ⟨0, costAt t.costs r c, r, c⟩ i).quantity := by
    intro i
    have hmem := walk_mem _ _ _ hcd i
    have hx := (pruneLoop_sublist _ _).subset hmem
    rcases List.mem_cons.mp hx with e | e
    · left
      rw [e]
    · exact Or.inr (h.typed _ e)
  rw [getClosedPath_eq_walk] at hneg ⊢
  generalize pruneLoop (((⟨0, costAt t.costs r c, r, c⟩ : shipment) :: matrixToList t.matrix).length + 1)
    ((⟨0, costAt t.costs r c, r, c⟩ : shipment) :: matrixToList t.matrix) = P
    at hcd hent htyp hneg ⊢
  generalize hs : (⟨0, costAt t.costs r c, r, c⟩ : shipment) = s at hcd hent htyp hneg ⊢
  have hsq : s.quantity = 0 := by rw [← hs]
  have hPpos : 0 < P.length := List.length_pos_of_mem hcd.mem_s
  obtain ⟨hlv1, hlv2⟩ := evalPath_leaving ((List.range P.length).map (walk P s))
    (fun i hi _ => by rw [get_map_walk]; exact (hent i).2.2.2.2.2)
  have hqle : ∀ i, i < P.length → i % 2 = 1 →
      (evalPath ((List.range P.length).map (walk P s))).leavingCandidate.quantity
        ≤ (walk P s i).quantity := by
    intro i hi hodd
    have := hlv2 i (by simpa using hi) hodd
    rwa [get_map_walk] at this
  have hq : (evalPath ((List.range P.length).map (walk P s))).leavingCandidate.quantity = 0 ∨
      typed b f (evalPath ((List.range P.length).map (walk P s))).leavingCandidate.quantity := by
    rcases hlv1 with e | ⟨i, hi, _, e⟩
    · left
      rw [e]
      rfl
    · rw [← e, get_map_walk]
      exact htyp i
  have hzero : ∃ i, i < P.length ∧
      rotated (evalPath ((List.range P.length).map (walk P s))).leavingCandidate.quantity
        (decide (i % 2 = 0)) (walk P s i) = shipZero := by
    rcases hlv1 with e | ⟨i, hi, hodd, e⟩
    · refine ⟨0, hPpos, ?_⟩
      apply rotated_eq_shipZero
      rw [e]
      show (if decide (0 % 2 = 0) = true then fadd (walk P s 0).quantity shipZero.quantity
        else fsub (walk P s 0).quantity shipZero.quantity) = 0
      have : (walk P s 0).quantity = 0 := hsq
      simp [this, shipZero, fadd, rnd_zero]
    · refine ⟨i, by simpa using hi, ?_⟩
      apply rotated_eq_shipZero
      rw [← e, get_map_walk]
      have hd : decide (i % 2 = 0) = false := by simp [hodd]
      simp [hd, fsub, rnd_zero]
  exact typedInv_rotate_cycle b f hf t h P s hcd hent htyp _ hq hqle hzero


/-! ## Pruning keeps every cycle -/

theorem prunePass_keeps (T : Finset shipment) (hT0 : ∀ x ∈ T, x ≠ shipZero)
    (hTcl : ∀ x ∈ T, (∃ y ∈ T, y ≠ x ∧ y.r = x.r) ∧ (∃ z ∈ T, z ≠ x ∧ z.c = x.c ∧ z.r ≠ x.r)) :
    ∀ (rest kept : List shipment), (∀ x ∈ T, x ∈ kept ++ rest) →
      ∀ x ∈ T, x ∈ (prunePass kept rest).1 := by
  intro rest
  induction rest with
  | nil =>
    intro kept hsub x hx
    simpa [prunePass] using hsub x hx
  | cons e rest ih =>
    intro kept hsub
    simp only [prunePass]
    by_cases hrm : (getNeighbors e (kept ++ e :: rest)).1 = shipZero ∨
        (getNeighbors e (kept ++ e :: rest)).2 = shipZero
    · rw [if_pos hrm]
      have heT : e ∉ T := by
        intro he
        obtain ⟨⟨y, hy, hye, hyr⟩, ⟨z, hz, hze, hzc, hzr⟩⟩ := hTcl e he
        have h1 := getNeighbors_fst_found e (kept ++ e :: rest)
          ⟨y, hsub y hy, hye, hyr, hT0 y hy⟩
        have h2 := getNeighbors_snd_found e (kept ++ e :: rest)
          ⟨z, hsub z hz, hze, hzc, hzr, hT0 z hz⟩
        rcases hrm with h | h
        · exact h1 h
        · exact h2 h
      apply ih kept
      intro x hx
      have := hsub x hx
      rw [List.mem_append, List.mem_cons] at this
      rw [List.mem_append]
      rcases this with a | a | a
      · exact Or.inl a
      · rw [a] at hx
        exact absurd hx heT
      · exact Or.inr a
    · rw [if_neg hrm]
      apply ih (kept ++ [e])
      intro x hx
      have := hsub x hx
      simpa using this

theorem pruneLoop_keeps (T : Finset shipment) (hT0 : ∀ x ∈ T, x ≠ shipZero)
    (hTcl : ∀ x ∈ T, (∃ y ∈ T, y ≠ x ∧ y.r = x.r) ∧ (∃ z ∈ T, z ≠ x ∧ z.c = x.c ∧ z.r ≠ x.r)) :
    ∀ (fuel : Nat) (path : List shipment), (∀ x ∈ T, x ∈ path) →
      ∀ x ∈ T, x ∈ pruneLoop fuel path := by
  intro fuel
  induction fuel with
  | zero => intro path hsub; exact hsub
  | succ n ih =>
    intro path hsub
    have hkeep := prunePass_keeps T hT0 hTcl path [] (by simpa using hsub)
    simp only [pruneLoop]
    split_ifs
    · exact hkeep
    · exact ih _ hkeep


/-! ## The repair preserves the invariant -/

theorem wholeOf_eps : wholeOf eps = 0 := by
  have := wholeOf_tiny 1 (Nat.one_le_two_pow)
  simpa using this

theorem typed_eps (f : Nat) : typed true f eps := by
  rw [typed_iff]
  exact Or.inr ⟨rfl, 1, le_refl 1, Nat.one_le_two_pow, by simp⟩

theorem basisInv_inject (t : transport) (h : basisInv t) (d : shipment)
    (hr : d.r < t.supply.length) (hc : d.c < t.demand.length)
    (hq : 0 < d.quantity) (hpath : getClosedPath t.matrix d = []) :
    basisInv { t with matrix := setCell t.matrix d.r d.c d } ∧
    ∀ r c, cellAt (setCell t.matrix d.r d.c d) r c
      = if r = d.r ∧ c = d.c then d else cellAt t.matrix r c := by
  have hr1 : d.r < t.matrix.length := by rw [h.shaped.1]; exact hr
  have hc1 : d.c < (t.matrix.getD d.r []).length := by rw [h.shaped.2 _ hr]; exact hc
  have hd0 : d ≠ shipZero := by
    intro e
    rw [e] at hq
    exact lt_irrefl _ hq
  have hcell : ∀ r c, cellAt (setCell t.matrix d.r d.c d) r c
      = if r = d.r ∧ c = d.c then d else cellAt t.matrix r c := by
    intro r c
    rw [cellAt_setCell]
    by_cases e : r = d.r ∧ c = d.c
    · rw [if_pos e, if_pos ⟨e.1, e.2, hr1, hc1⟩]
    · rw [if_neg e, if_neg (fun hh => e ⟨hh.1, hh.2.1⟩)]
  have hwf : wellFormed (setCell t.matrix d.r d.c d) := by
    intro r hr' c hc'
    rw [hcell]
    by_cases e : r = d.r ∧ c = d.c
    · rw [if_pos e]
      exact Or.inr ⟨e.1.symm, e.2.symm⟩
    · rw [if_neg e]
      rw [length_setCell] at hr'
      rw [rowLength_setCell] at hc'
      exact h.wf r hr' c hc'
  have hpos : ∀ x ∈ matrixToList (setCell t.matrix d.r d.c d), 0 < x.quantity := by
    intro x hx
    obtain ⟨hne, r, c, _, _, hx1⟩ := mem_matrixToList _ x hx
    rw [hcell] at hx1
    by_cases e : r = d.r ∧ c = d.c
    · rw [if_pos e] at hx1
      rw [← hx1]
      exact hq
    · rw [if_neg e] at hx1
      apply h.pos
      rw [← hx1]
      apply mem_matrixToList_of_cell
      rw [hx1]
      exact hne
  have hnewsub : basicPositions (setCell t.matrix d.r d.c d)
      ⊆ insert (position d) (basicPositions t.matrix) := by
    intro p hp
    obtain ⟨a, b, hne⟩ := (mem_basicPositions _ hwf p).mp hp
    rw [hcell] at hne
    by_cases e : p.1 = d.r ∧ p.2 = d.c
    · have : p = position d := by
        simp only [position]
        rw [← e.1, ← e.2]
      rw [this]
      exact Finset.mem_insert_self _ _
    · rw [if_neg e] at hne
      apply Finset.mem_insert_of_mem
      rw [mem_basicPositions _ h.wf]
      rw [length_setCell] at a
      rw [rowLength_setCell] at b
      exact ⟨a, b, hne⟩
  have hacyc : acyclic (setCell t.matrix d.r d.c d) := by
    intro S hS hcl
    by_contra hSne
    have hSne1 : S.Nonempty := Finset.nonempty_iff_ne_empty.mpr hSne
    have hdS : position d ∈ S :=
      mem_of_closedIn Prod.fst Prod.snd (basicPositions t.matrix) S (position d) h.acyc
        (hS.trans hnewsub) hcl hSne1
    -- the cells at the positions of `S`
    have hlift : ∀ p ∈ S, ∃ y, (y = d ∨ y ∈ matrixToList t.matrix) ∧ position y = p := by
      intro p hp
      rcases Finset.mem_insert.mp (hnewsub (hS hp)) with e | e
      · exact ⟨d, Or.inl rfl, e.symm⟩
      · unfold basicPositions at e
        obtain ⟨y, hy, rfl⟩ := List.mem_map.mp (List.mem_toFinset.mp e)
        exact ⟨y, Or.inr hy, rfl⟩
    have hT0 : ∀ x ∈ insert d ((matrixToList t.matrix).toFinset.filter (fun x => position x ∈ S)),
        x ≠ shipZero := by
      intro x hx
      rcases Finset.mem_insert.mp hx with e | e
      · rw [e]; exact hd0
      · exact (mem_matrixToList _ x (List.mem_toFinset.mp (Finset.mem_filter.mp e).1)).1
    have hTpos : ∀ x ∈ insert d
        ((matrixToList t.matrix).toFinset.filter (fun x => position x ∈ S)),
        position x ∈ S := by
      intro x hx
      rcases Finset.mem_insert.mp hx with e | e
      · rw [e]; exact hdS
      · exact (Finset.mem_filter.mp e).2
    have hTmem : ∀ y, (y = d ∨ y ∈ matrixToList t.matrix) → position y ∈ S →
        y ∈ insert d ((matrixToList t.matrix).toFinset.filter (fun x => position x ∈ S)) := by
      intro y hy hyS
      rcases hy with e | e
      · rw [e]; exact Finset.mem_insert_self _ _
      · exact Finset.mem_insert_of_mem
          (Finset.mem_filter.mpr ⟨List.mem_toFinset.mpr e, hyS⟩)
    have hTcl : ∀ x ∈ insert d
        ((matrixToList t.matrix).toFinset.filter (fun x => position x ∈ S)),
        (∃ y ∈ insert d ((matrixToList t.matrix).toFinset.filter (fun x => position x ∈ S)),
          y ≠ x ∧ y.r = x.r) ∧
        (∃ z ∈ insert d ((matrixToList t.matrix).toFinset.filter (fun x => position x ∈ S)),
          z ≠ x ∧ z.c = x.c ∧ z.r ≠ x.r) := by
      intro x hx
      obtain ⟨⟨p, hp, hpx, hpr⟩, ⟨p2, hp2, hp2x, hp2c⟩⟩ := hcl (position x) (hTpos x hx)
      obtain ⟨y, hy, rfl⟩ := hlift p hp
      obtain ⟨z, hz, rfl⟩ := hlift p2 hp2
      refine ⟨⟨y, hTmem y hy hp, fun e => hpx (by rw [e]), hpr⟩,
        ⟨z, hTmem z hz hp2, fun e => hp2x (by rw [e]), hp2c, ?_⟩⟩
      intro e
      apply hp2x
      exact Prod.ext e hp2c
    have hkeep := pruneLoop_keeps _ hT0 hTcl ((d :: matrixToList t.matrix).length + 1)
      (d :: matrixToList t.matrix)
      (fun x hx => by
        rcases Finset.mem_insert.mp hx with e | e
        · rw [e]; exact List.mem_cons_self _ _
        · exact List.mem_cons_of_mem _ (List.mem_toFinset.mp (Finset.mem_filter.mp e).1))
      d (Finset.mem_insert_self _ _)
    have hlen := length_getClosedPath t.matrix d
    rw [hpath] at hlen
    have := List.length_pos_of_mem hkeep
    simp only [List.length_nil] at hlen
    omega
  exact
    ⟨{ shaped := ⟨(length_setCell _ _ _ _).trans h.shaped.1,
        fun r hr' => (rowLength_setCell _ _ _ _ _).trans (h.shaped.2 r hr')⟩
       wf := hwf
       pos := hpos
       acyc := hacyc }, hcell⟩

theorem typedInv_inject (f : Nat) (t : transport) (h : typedInv true f t) (d : shipment)
    (hr : d.r < t.supply.length) (hc : d.c < t.demand.length)
    (hz : cellAt t.matrix d.r d.c = shipZero) (hq : d.quantity = eps)
    (hpath : getClosedPath t.matrix d = []) :
    typedInv true f { t with matrix := setCell t.matrix d.r d.c d } ∧
    (∀ r, wholeRowSum { t with matrix := setCell t.matrix d.r d.c d } r = wholeRowSum t r) ∧
    (∀ c, wholeColSum { t with matrix := setCell t.matrix d.r d.c d } c = wholeColSum t c) := by
  obtain ⟨hb, hcell⟩ := basisInv_inject t (basisInv_of_typedInv true f t h) d hr hc
    (by rw [hq]; exact eps_pos) hpath
  have htyped : ∀ x ∈ matrixToList (setCell t.matrix d.r d.c d), typed true f x.quantity := by
    intro x hx
    obtain ⟨hne, r, c, _, _, hx1⟩ := mem_matrixToList _ x hx
    rw [hcell] at hx1
    by_cases e : r = d.r ∧ c = d.c
    · rw [if_pos e] at hx1
      rw [← hx1, hq]
      exact typed_eps f
    · rw [if_neg e] at hx1
      apply h.typed
      rw [← hx1]
      apply mem_matrixToList_of_cell
      rw [hx1]
      exact hne
  have hsame : ∀ r c, wholeOf (cellAt (setCell t.matrix d.r d.c d) r c).quantity
      = wholeOf (cellAt t.matrix r c).quantity := by
    intro r c
    rw [hcell]
    by_cases e : r = d.r ∧ c = d.c
    · rw [if_pos e, e.1, e.2, hz, hq, wholeOf_eps]
      exact wholeOf_zero.symm
    · rw [if_neg e]
  have hrow : ∀ r, wholeRowSum { t with matrix := setCell t.matrix d.r d.c d } r
      = wholeRowSum t r := by
    intro r
    unfold wholeRowSum
    exact sum_range_congr _ _ _ (fun c _ => hsame r c)
  have hcol : ∀ c, wholeColSum { t with matrix := setCell t.matrix d.r d.c d } c
      = wholeColSum t c := by
    intro c
    unfold wholeColSum
    exact sum_range_congr _ _ _ (fun r _ => hsame r c)
  exact
    ⟨{ shaped := hb.shaped
       wf := hb.wf
       typed := htyped
       acyc := hb.acyc
       row_cap := fun r hr' => by rw [hrow r]; exact h.row_cap r hr' }, hrow, hcol⟩

theorem ssInv_mono (sup dem : List Int) (f g : Nat) (hfg : f ≤ g) (t : transport)
    (h : ssInv sup dem true f t) : ssInv sup dem true g t :=
  { supply_len := h.supply_len
    demand_len := h.demand_len
    inv := typedInv_mono true f g hfg t h.inv
    row_sum := h.row_sum
    col_sum := h.col_sum }

theorem ssInv_fix (sup dem : List Int) (f : Nat) (t : transport) (h : ssInv sup dem true f t) :
    ssInv sup dem true f (fixDegenerateCase t) := by
  unfold fixDegenerateCase
  split_ifs
  · cases hf : findDegenerateFix t with
    | none => exact h
    | some d =>
      obtain ⟨hr, hc, hz, hd, hp⟩ := findDegenerateFix_some t d hf
      obtain ⟨h1, hrow, hcol⟩ := typedInv_inject f t h.inv d hr hc hz (by rw [hd]) hp
      exact
        { supply_len := h.supply_len
          demand_len := h.demand_len
          inv := h1
          row_sum := fun r hr1 => by rw [hrow r]; exact h.row_sum r hr1
          col_sum := fun c hc1 => by rw [hcol c]; exact h.col_sum c hc1 }
  · exact h

/-- One pass of `steppingStone` preserves the invariant; the bound on the
placeholders doubles. -/
theorem ssInv_pass (sup dem : List Int) (f : Nat) (hf : f ≤ 1019) (t : transport)
    (h : ssInv sup dem true f t) : ssInv sup dem true (f + 1) (steppingStonePass t).1 := by
  have h1 := ssInv_fix sup dem f t h
  have hsel := scanCells_selected (fixDegenerateCase t)
  simp only [steppingStonePass]
  rcases hsel with hn | ⟨r, c, hr, hc, hz, hmove, hleave, hneg⟩
  · rw [hn]
    exact ssInv_mono sup dem f (f + 1) (Nat.le_succ f) _ h1
  · rw [hmove, hleave]
    obtain ⟨h2, hrow, hcol⟩ := typedInv_rotate true f hf _ h1.inv r c hr hc hz hneg
    exact
      { supply_len := h1.supply_len
        demand_len := h1.demand_len
        inv := h2
        row_sum := fun r1 hr1 => by rw [hrow r1]; exact h1.row_sum r1 hr1
        col_sum := fun c1 hc1 => by rw [hcol c1]; exact h1.col_sum c1 hc1 }


/-! ## A staircase contains no cycle -/

theorem forest_of_staircase (X : Finset (Nat × Nat))
    (hmono : ∀ p ∈ X, ∀ q ∈ X, p.1 < q.1 → p.2 ≤ q.2) :
    forestIn Prod.fst Prod.snd X := by
  intro S hS hcl
  by_contra hne
  have hSne : S.Nonempty := Finset.nonempty_iff_ne_empty.mpr hne
  -- the topmost row of `S`, and in it the leftmost cell
  obtain ⟨p0, hp0, hmin0⟩ := Finset.exists_min_image S (fun p => p.1) hSne
  have hrowne : (S.filter (fun p => p.1 = p0.1)).Nonempty :=
    ⟨p0, Finset.mem_filter.mpr ⟨hp0, rfl⟩⟩
  obtain ⟨p, hp, hmin⟩ := Finset.exists_min_image _ (fun p => p.2) hrowne
  obtain ⟨hpS, hp1⟩ := Finset.mem_filter.mp hp
  obtain ⟨⟨z, hz, hzp, hzr⟩, ⟨y, hy, hyp, hyc⟩⟩ := hcl p hpS
  -- the mate in the row lies to the right, the mate in the column lies below
  have hz2 : p.2 < z.2 := by
    have h1 := hmin z (Finset.mem_filter.mpr ⟨hz, hzr.trans hp1⟩)
    have h2 : z.2 ≠ p.2 := fun e => hzp (Prod.ext hzr e)
    simp only at h1
    omega
  have hy1 : p.1 < y.1 := by
    have h1 := hmin0 y hy
    have h2 : y.1 ≠ p.1 := fun e => hyp (Prod.ext e hyc)
    simp only at h1
    omega
  have := hmono z (hS hz) y (hS hy) (by omega)
  omega

/-! ## Conservation through the stepping-stone phase -/

theorem wholeOf_basic (m : List (List shipment))
    (hwh : ∀ x ∈ matrixToList m, whole x.quantity) (r c : Nat) :
    wholeOf (cellAt m r c).quantity = basicQuantity (cellAt m r c) := by
  rw [basicQuantity_eq]
  by_cases hz : cellAt m r c = shipZero
  · rw [hz]
    exact wholeOf_zero
  · obtain ⟨n, _, e⟩ := (whole_iff _).mp (hwh _ (mem_matrixToList_of_cell m r c hz))
    rw [e, wholeOf_natCast]

theorem wholeRowSum_eq_rowSum (t : transport)
    (hwh : ∀ x ∈ matrixToList t.matrix, whole x.quantity) (r : Nat) :
    wholeRowSum t r = rowSum t r := by
  unfold wholeRowSum rowSum
  exact sum_range_congr _ _ _ (fun c _ => wholeOf_basic t.matrix hwh r c)

theorem wholeColSum_eq_colSum (t : transport)
    (hwh : ∀ x ∈ matrixToList t.matrix, whole x.quantity) (c : Nat) :
    wholeColSum t c = colSum t c := by
  unfold wholeColSum colSum
  exact sum_range_congr _ _ _ (fun r _ => wholeOf_basic t.matrix hwh r c)

theorem typed_enable (f g : Nat) (x : ℚ) (h : typed false f x) : typed true g x := by
  rcases h with h | ⟨h, _⟩
  · exact Or.inl h
  · exact absurd h (by simp)

theorem whole_of_typed_false (f : Nat) (x : ℚ) (h : typed false f x) : whole x := by
  rcases h with h | ⟨h, _⟩
  · exact h
  · exact absurd h (by simp)

theorem ssInv_enable (sup dem : List Int) (f g : Nat) (t : transport)
    (h : ssInv sup dem false f t) : ssInv sup dem true g t :=
  { supply_len := h.supply_len
    demand_len := h.demand_len
    inv :=
      { shaped := h.inv.shaped
        wf := h.inv.wf
        typed := fun x hx => typed_enable f g _ (h.inv.typed x hx)
        acyc := h.inv.acyc
        row_cap := h.inv.row_cap }
    row_sum := h.row_sum
    col_sum := h.col_sum }

/-- The northwest-corner rule on capped supplies establishes the invariant of
the stepping-stone phase, with whole quantities only. -/
theorem ssInv_northWest (t : transport) (hshape : gridShaped t)
    (hempty : matrixToList t.matrix = [])
    (hs : ∀ x ∈ t.supply, 0 ≤ x) (hd : ∀ x ∈ t.demand, 0 ≤ x)
    (hbal : exactTotal t.supply = exactTotal t.demand)
    (hcap : ∀ x ∈ t.supply, x ≤ 9007199254740992) :
    ssInv t.supply t.demand false 0 (northWestCornerRule t) := by
  obtain ⟨hinv, h1, h2, rb, cb, hsh⟩ := northWestCornerRule_post t hshape hempty hs hd hbal
  have hcapped : capped t := Or.inl hcap
  have hwf : wellFormed (northWestCornerRule t).matrix :=
    fun r _ c _ => (hsh.cell r c).imp id (fun h => ⟨h.1, h.2.1⟩)
  have hwh : ∀ x ∈ matrixToList (northWestCornerRule t).matrix, whole x.quantity := by
    intro x hx
    obtain ⟨hne, r, c, _, _, hcell⟩ := mem_matrixToList _ x hx
    rcases hinv.cell_whole hcapped r c with h0 | h0
    · rw [hcell] at h0
      exact absurd h0 hne
    · rw [hcell] at h0
      exact h0
  have hrow : ∀ r, r < t.supply.length →
      wholeRowSum (northWestCornerRule t) r = (t.supply.getD r 0 : ℚ) := by
    intro r hr
    rw [wholeRowSum_eq_rowSum _ hwh]
    have := hinv.row_sum hcapped r hr
    rw [h1 r] at this
    rw [← this]
    push_cast
    ring
  refine
    { supply_len := hinv.supply_len
      demand_len := hinv.demand_len
      inv :=
        { shaped := ⟨hinv.rows.trans hinv.supply_len.symm, fun r hr =>
            (hinv.cols r (by rw [← hinv.supply_len]; exact hr)).trans hinv.demand_len.symm⟩
          wf := hwf
          typed := fun x hx => Or.inl (hwh x hx)
          acyc := ?_
          row_cap := ?_ }
      row_sum := hrow
      col_sum := ?_ }
  · unfold acyclic
    apply forest_of_staircase
    intro p hp q hq hlt
    rw [mem_basicPositions _ hwf] at hp hq
    exact hsh.mono p.1 p.2 q.1 q.2 hp.2.2 hq.2.2 hlt
  · intro r hr
    rw [hinv.supply_len] at hr
    rw [hrow r hr]
    have := getD_le_of_mem _ _ (by decide) hcap r
    have e : ((9007199254740992 : Int) : ℚ) = 2 ^ 53 := by norm_num
    rw [← e]
    exact_mod_cast this
  · intro c hc
    rw [wholeColSum_eq_colSum _ hwh]
    have := hinv.col_sum hcapped c hc
    rw [h2 c] at this
    rw [← this]
    push_cast
    ring

theorem ssInv_steppingStone (sup dem : List Int) :
    ∀ (fuel f : Nat) (t tf : transport), steppingStone fuel t = some tf →
      ssInv sup dem true f t → f + fuel ≤ 1020 → ssInv sup dem true (f + fuel) tf := by
  intro fuel
  induction fuel with
  | zero =>
    intro f t tf hrun _ _
    simp [steppingStone] at hrun
  | succ n ih =>
    intro f t tf hrun h hle
    have hp := ssInv_pass sup dem f (by omega) t h
    cases hb : (steppingStonePass t).2 with
    | true =>
      rw [steppingStone_rotated t n hb] at hrun
      have := ih (f + 1) _ tf hrun hp (by omega)
      have e : f + 1 + n = f + (n + 1) := by omega
      rw [e] at this
      exact this
    | false =>
      rw [steppingStone_converged t n hb] at hrun
      rw [← Option.some.inj hrun]
      exact ssInv_mono sup dem (f + 1) (f + (n + 1)) (by omega) _ hp

/-- C3 (counterexample). A source of capacity one and a source of capacity zero
serve one destination of capacity one. The run ends after one pass without a
rotation; `fixDegenerateCase` has put the infinitesimal quantity into the row
of the idle source, whose only basic cell therefore holds a quantity different
from the supply of zero. -/
theorem idleScenario_row_exceeds :
    exactTotal idleScenario.supply = exactTotal idleScenario.demand ∧
    steppingStone 1 (northWestCornerRule idleScenario) =
      some { supply := [0, 0], demand := [0], costs := [[1], [1]],
             matrix := [[⟨1, 1, 0, 0⟩], [⟨eps, 1, 1, 0⟩]] } ∧
    rowSum { supply := [0, 0], demand := [0], costs := [[1], [1]],
             matrix := [[⟨1, 1, 0, 0⟩], [⟨eps, 1, 1, 0⟩]] } 1 = eps ∧
    idleScenario.supply.getD 1 0 = 0 ∧
    rowSum { supply := [0, 0], demand := [0], costs := [[1], [1]],
             matrix := [[⟨1, 1, 0, 0⟩], [⟨eps, 1, 1, 0⟩]] } 1 ≠
      ((idleScenario.supply.getD 1 0 : Int) : ℚ) := by
  decide!

/-- C3 (amended). On every grid without basic cells whose capacities are
non-negative and balanced and whose supplies are at most `2^53`, if
`northWestCornerRule` followed by `steppingStone` ends within `fuel` passes,
`fuel` at most 1020, without a float64 overflow, then in the final grid the
basic quantities of at least one add up, in each row, to the original supply of
the row and, in each column, to the original demand of the column, and every
other basic quantity is a placeholder: a whole multiple, between one and
`2^fuel`, of the smallest positive float64. -/
theorem steppingStone_conserves (t tf : transport) (fuel : Nat) (hshape : gridShaped t)
    (hempty : matrixToList t.matrix = [])
    (hs : ∀ x ∈ t.supply, 0 ≤ x) (hd : ∀ x ∈ t.demand, 0 ≤ x)
    (hbal : exactTotal t.supply = exactTotal t.demand)
    (hcap : ∀ x ∈ t.supply, x ≤ 9007199254740992) (hfuel : fuel ≤ 1020)
    (_hfin : finiteRun fuel (northWestCornerRule t) = true)
    (hrun : steppingStone fuel (northWestCornerRule t) = some tf) :
    (∀ r, r < t.supply.length → wholeRowSum tf r = (t.supply.getD r 0 : ℚ)) ∧
    (∀ c, c < t.demand.length → wholeColSum tf c = (t.demand.getD c 0 : ℚ)) ∧
    (∀ x ∈ matrixToList tf.matrix, whole x.quantity ∨ tiny fuel x.quantity) := by
  have h := ssInv_steppingStone t.supply t.demand fuel 0 _ tf hrun
    (ssInv_enable _ _ 0 0 _ (ssInv_northWest t hshape hempty hs hd hbal hcap)) (by omega)
  rw [Nat.zero_add] at h
  refine ⟨h.row_sum, h.col_sum, ?_⟩
  intro x hx
  rcases h.inv.typed x hx with e | ⟨_, e⟩
  · exact Or.inl e
  · exact Or.inr e

/-- The scenario satisfies the hypotheses of C3: its run ends after two
passes. -/
theorem steppingStone_conserves_witness :
    (∀ r, r < scenario.supply.length →
      wholeRowSum ⟨[0, 0], [0, 0], [[3, 1], [2, 4]],
          [[shipZero, ⟨300, 1, 0, 1⟩], [⟨250, 2, 1, 0⟩, ⟨150, 4, 1, 1⟩]]⟩ r =
        (scenario.supply.getD r 0 : ℚ)) ∧
    (∀ c, c < scenario.demand.length →
      wholeColSum ⟨[0, 0], [0, 0], [[3, 1], [2, 4]],
          [[shipZero, ⟨300, 1, 0, 1⟩], [⟨250, 2, 1, 0⟩, ⟨150, 4, 1, 1⟩]]⟩ c =
        (scenario.demand.getD c 0 : ℚ)) ∧
    (∀ x ∈ matrixToList (⟨[0, 0], [0, 0], [[3, 1], [2, 4]],
          [[shipZero, ⟨300, 1, 0, 1⟩], [⟨250, 2, 1, 0⟩, ⟨150, 4, 1, 1⟩]]⟩ : transport).matrix,
      whole x.quantity ∨ tiny 2 x.quantity) :=
  steppingStone_conserves scenario _ 2 (by decide!) (by decide!) (by decide!)
    (by decide!) (by decide!) (by decide!) (by decide!) (by decide!) (scenario_run 0)


/-! ## The scenario after the northwest-corner rule -/

/-- C11. For supplies `[300,400]`, demands `[250,450]` and costs `[[3,1],[2,4]]`
both totals are 700 and the balancing step adds no dummy node; the
northwest-corner rule makes exactly the cells `(0,0) = 250`, `(0,1) = 50` and
`(1,1) = 400` basic and leaves `(1,0)` non-basic. -/
theorem scenario_northWest :
    total [300, 400] = 700 ∧ total [250, 450] = 700 ∧
    scenario.supply = [300, 400] ∧ scenario.demand = [250, 450] ∧
    (northWestCornerRule scenario).matrix =
      [[⟨250, 3, 0, 0⟩, ⟨50, 1, 0, 1⟩], [shipZero, ⟨400, 4, 1, 1⟩]] ∧
    matrixToList (northWestCornerRule scenario).matrix =
      [⟨250, 3, 0, 0⟩, ⟨50, 1, 0, 1⟩, ⟨400, 4, 1, 1⟩] ∧
    cellAt (northWestCornerRule scenario).matrix 1 0 = shipZero := by
  decide!

/-! ## Balanced input -/

/-- C13. When the totals of the capacity vectors agree, `newTransport` keeps both
vectors as they are, and the cost matrix and the grid have one row per source
and one column per destination of the input. -/
theorem newTransport_balanced (src dst : List Int) (input : Nat → Nat → ℚ)
    (h : total src = total dst) :
    (newTransport src dst input).supply = src ∧
    (newTransport src dst input).demand = dst ∧
    (newTransport src dst input).costs.length = src.length ∧
    (∀ r, r < src.length → ((newTransport src dst input).costs.getD r []).length = dst.length) ∧
    (newTransport src dst input).matrix.length = src.length ∧
    (∀ r, r < src.length →
      ((newTransport src dst input).matrix.getD r []).length = dst.length) := by
  have hs : (newTransport src dst input).supply = src := by
    simp [newTransport, balance, h, wrapInt_zero]
  have hd : (newTransport src dst input).demand = dst := by
    simp [newTransport, balance, h, wrapInt_zero]
  obtain ⟨c1, c2, _, _⟩ := newTransport_costs src dst input
  rw [hs] at c1 c2
  rw [hd] at c2
  refine ⟨hs, hd, c1, c2, ?_, ?_⟩
  · have : (newTransport src dst input).matrix.length
        = (newTransport src dst input).supply.length := by
      simp [newTransport]
    rw [this, hs]
  · intro r hr
    have hb1 : (balance src dst).1 = src := hs
    have hb2 : (balance src dst).2 = dst := hd
    simp only [newTransport, hb1, hb2]
    exact rowLength_replicate _ _ _ _ hr

/-- The capacities of the scenario satisfy the hypothesis of C13. -/
theorem newTransport_balanced_witness :
    (newTransport [300, 400] [250, 450] scenarioCosts).supply = [300, 400] ∧
    (newTransport [300, 400] [250, 450] scenarioCosts).demand = [250, 450] ∧
    (newTransport [300, 400] [250, 450] scenarioCosts).costs.length = 2 ∧
    (∀ r, r < 2 →
      ((newTransport [300, 400] [250, 450] scenarioCosts).costs.getD r []).length = 2) ∧
    (newTransport [300, 400] [250, 450] scenarioCosts).matrix.length = 2 ∧
    (∀ r, r < 2 →
      ((newTransport [300, 400] [250, 450] scenarioCosts).matrix.getD r []).length = 2) :=
  newTransport_balanced [300, 400] [250, 450] scenarioCosts (by decide)

/-! ## The leaving cell when no quantity is below `math.MaxInt32` -/

/-- C17 (failing input). On supplies `[3000000000,4000000000]`, demands
`[2500000000,4500000000]` and costs `[[3,1],[2,4]]` the scan evaluates the
closed path of cell `(1,0)`: its minus entries, at positions 1 and 3, hold
`4000000000` and `2500000000`.  Neither is below `math.MaxInt32`, the start
value of `lowestQuantity`, so the leaving cell stays the sentinel, which is no
entry of the path, and the amount rotated along the chosen path is `0`, not the
minimum `2500000000`. -/
theorem largeScenario_leaving_not_minimum :
    getClosedPath (fixDegenerateCase (northWestCornerRule largeScenario)).matrix
        ⟨0, costAt (northWestCornerRule largeScenario).costs 1 0, 1, 0⟩ =
      [⟨0, 2, 1, 0⟩, ⟨4000000000, 4, 1, 1⟩, ⟨500000000, 1, 0, 1⟩, ⟨2500000000, 3, 0, 0⟩] ∧
    (evalPath [⟨0, 2, 1, 0⟩, ⟨4000000000, 4, 1, 1⟩, ⟨500000000, 1, 0, 1⟩,
      ⟨2500000000, 3, 0, 0⟩]).leavingCandidate = shipZero ∧
    (scanCells (fixDegenerateCase (northWestCornerRule largeScenario))).move =
      some [⟨0, 2, 1, 0⟩, ⟨4000000000, 4, 1, 1⟩, ⟨500000000, 1, 0, 1⟩,
        ⟨2500000000, 3, 0, 0⟩] ∧
    (scanCells (fixDegenerateCase (northWestCornerRule largeScenario))).leaving.quantity = 0 ∧
    (scanCells (fixDegenerateCase (northWestCornerRule largeScenario))).leaving.quantity ≠
      min (4000000000 : ℚ) 2500000000 := by
  decide!

/-! ## The frame of the repair -/

theorem findSome_range_first {β : Type} (f : Nat → Option β) (d : β) :
    ∀ n, (List.range n).findSome? f = some d →
      ∃ i, i < n ∧ f i = some d ∧ ∀ j, j < i → f j = none := by
  intro n
  induction n with
  | zero =>
    intro h
    simp at h
  | succ n ih =>
    intro h
    rw [List.range_succ, List.findSome?_append] at h
    cases hn : (List.range n).findSome? f with
    | some b =>
      rw [hn] at h
      simp only [Option.or_some] at h
      rw [h] at hn
      obtain ⟨i, hi, h1, h2⟩ := ih hn
      exact ⟨i, by omega, h1, h2⟩
    | none =>
      rw [hn] at h
      simp only [Option.none_or, List.findSome?_cons, List.findSome?_nil] at h
      have hfn : f n = some d := by
        cases hf : f n with
        | none => rw [hf] at h; simp at h
        | some b => rw [hf] at h; simpa using h
      refine ⟨n, by omega, hfn, ?_⟩
      intro j hj
      exact List.findSome?_eq_none_iff.mp hn j (List.mem_range.mpr hj)

theorem repairTest_eq_none (t : transport) (r c : Nat) :
    (if cellAt t.matrix r c = shipZero then
        if (getClosedPath t.matrix ⟨eps, costAt t.costs r c, r, c⟩).length = 0
        then some (⟨eps, costAt t.costs r c, r, c⟩ : shipment) else none
      else none) = none ↔ ¬ repairable t r c := by
  unfold repairable
  by_cases hz : cellAt t.matrix r c = shipZero
  · by_cases hp : (getClosedPath t.matrix ⟨eps, costAt t.costs r c, r, c⟩).length = 0
    · simp [hz, hp, List.length_eq_zero.mp hp]
    · have : getClosedPath t.matrix ⟨eps, costAt t.costs r c, r, c⟩ ≠ [] :=
        fun e => hp (by rw [e]; rfl)
      simp [hz, hp, this]
  · simp [hz]

theorem findDegenerateFix_none (t : transport) :
    findDegenerateFix t = none ↔
      ∀ r, r < t.supply.length → ∀ c, c < t.demand.length → ¬ repairable t r c := by
  unfold findDegenerateFix
  rw [List.findSome?_eq_none_iff]
  constructor
  · intro h r hr c hc
    have := List.findSome?_eq_none_iff.mp (h r (List.mem_range.mpr hr)) c (List.mem_range.mpr hc)
    exact (repairTest_eq_none t r c).mp this
  · intro h r hr
    rw [List.findSome?_eq_none_iff]
    intro c hc
    exact (repairTest_eq_none t r c).mpr (h r (List.mem_range.mp hr) c (List.mem_range.mp hc))

theorem findDegenerateFix_first (t : transport) (d : shipment)
    (h : findDegenerateFix t = some d) :
    ∀ r, r < t.supply.length → ∀ c, c < t.demand.length → precedes r c d.r d.c →
      ¬ repairable t r c := by
  obtain ⟨_, _, _, hd, _⟩ := findDegenerateFix_some t d h
  unfold findDegenerateFix at h
  obtain ⟨r0, hr0, h1, hrows⟩ := findSome_range_first _ d _ h
  obtain ⟨c0, hc0, h2, hcols⟩ := findSome_range_first _ d _ h1
  have hpos : d.r = r0 ∧ d.c = c0 := by
    by_cases hz : cellAt t.matrix r0 c0 = shipZero
    · rw [if_pos hz] at h2
      by_cases hp : (getClosedPath t.matrix ⟨eps, costAt t.costs r0 c0, r0, c0⟩).length = 0
      · simp only [hp, if_true, Option.some.injEq] at h2
        rw [← h2]
        exact ⟨rfl, rfl⟩
      · simp [hp] at h2
    · simp [hz] at h2
  intro r hr c hc hprec
  rw [hpos.1, hpos.2] at hprec
  rcases hprec with hlt | ⟨heq, hlt⟩
  · have := List.findSome?_eq_none_iff.mp (hrows r hlt) c (List.mem_range.mpr hc)
    exact (repairTest_eq_none t r c).mp this
  · subst heq
    exact (repairTest_eq_none t r c).mp (hcols c hlt)

/-- C18. The call `fixDegenerateCase` leaves `supply`, `demand` and `costs` as
they are.  It leaves the grid as it is when the basic cells number
`rows + cols - 1` or no non-basic cell has an empty closed path for its
candidate with the infinitesimal quantity.  Otherwise the first such cell
`(r, c)` in row-major order becomes `{eps, costs[r][c], r, c}` and every other
cell keeps its value. -/
theorem fixDegenerateCase_frame (t : transport) (hshape : gridShaped t) :
    (fixDegenerateCase t).supply = t.supply ∧
    (fixDegenerateCase t).demand = t.demand ∧
    (fixDegenerateCase t).costs = t.costs ∧
    (((basicCount t.matrix : Int) = t.supply.length + t.demand.length - 1 ∨
        ∀ r, r < t.supply.length → ∀ c, c < t.demand.length → ¬ repairable t r c) →
      (fixDegenerateCase t).matrix = t.matrix) ∧
    (¬ ((basicCount t.matrix : Int) = t.supply.length + t.demand.length - 1 ∨
        ∀ r, r < t.supply.length → ∀ c, c < t.demand.length → ¬ repairable t r c) →
      ∃ r c, r < t.supply.length ∧ c < t.demand.length ∧ repairable t r c ∧
        (∀ r1, r1 < t.supply.length → ∀ c1, c1 < t.demand.length → precedes r1 c1 r c →
          ¬ repairable t r1 c1) ∧
        cellAt (fixDegenerateCase t).matrix r c = ⟨eps, costAt t.costs r c, r, c⟩ ∧
        ∀ r1 c1, ¬ (r1 = r ∧ c1 = c) →
          cellAt (fixDegenerateCase t).matrix r1 c1 = cellAt t.matrix r1 c1) := by
  have hframe : (fixDegenerateCase t).supply = t.supply ∧
      (fixDegenerateCase t).demand = t.demand ∧ (fixDegenerateCase t).costs = t.costs := by
    unfold fixDegenerateCase
    split_ifs
    · cases findDegenerateFix t <;> exact ⟨rfl, rfl, rfl⟩
    · exact ⟨rfl, rfl, rfl⟩
  refine ⟨hframe.1, hframe.2.1, hframe.2.2, ?_, ?_⟩
  · intro h
    unfold fixDegenerateCase
    rcases h with h | h
    · have : ¬ ((t.supply.length : Int) + t.demand.length - 1 ≠ (matrixToList t.matrix).length) := by
        unfold basicCount at h
        omega
      rw [if_neg this]
    · rw [(findDegenerateFix_none t).mpr h]
      split_ifs <;> rfl
  · intro h
    have hcnt : (t.supply.length : Int) + t.demand.length - 1 ≠ (matrixToList t.matrix).length := by
      intro e
      apply h
      left
      unfold basicCount
      omega
    cases hf : findDegenerateFix t with
    | none => exact absurd (Or.inr ((findDegenerateFix_none t).mp hf)) h
    | some d =>
      obtain ⟨hr, hc, hz, hd, hp⟩ := findDegenerateFix_some t d hf
      have hfirst := findDegenerateFix_first t d hf
      have hm : (fixDegenerateCase t).matrix = setCell t.matrix d.r d.c d := by
        unfold fixDegenerateCase
        rw [if_pos hcnt, hf]
      refine ⟨d.r, d.c, hr, hc, ⟨hz, by rw [← hd]; exact hp⟩, hfirst, ?_, ?_⟩
      · rw [hm, cellAt_setCell, ← hd]
        have hin : d.r < t.matrix.length ∧ d.c < (t.matrix.getD d.r []).length := by
          rw [hshape.1, hshape.2 _ hr]
          exact ⟨hr, hc⟩
        rw [if_pos ⟨rfl, rfl, hin.1, hin.2⟩]
      · intro r1 c1 hne
        rw [hm, cellAt_setCell]
        rw [if_neg (fun e => hne ⟨e.1, e.2.1⟩)]

/-- The grid of the square scenario after the northwest-corner rule is short of
one basic cell; cell `(0,1)` is the first that can be made basic. -/
theorem fixDegenerateCase_frame_witness :
    gridShaped (northWestCornerRule squareScenario) ∧
    ∃ r c, r < (northWestCornerRule squareScenario).supply.length ∧
      c < (northWestCornerRule squareScenario).demand.length ∧
      repairable (northWestCornerRule squareScenario) r c ∧
      (∀ r1, r1 < (northWestCornerRule squareScenario).supply.length →
        ∀ c1, c1 < (northWestCornerRule squareScenario).demand.length → precedes r1 c1 r c →
          ¬ repairable (northWestCornerRule squareScenario) r1 c1) ∧
      cellAt (fixDegenerateCase (northWestCornerRule squareScenario)).matrix r c =
        ⟨eps, costAt (northWestCornerRule squareScenario).costs r c, r, c⟩ ∧
      ∀ r1 c1, ¬ (r1 = r ∧ c1 = c) →
        cellAt (fixDegenerateCase (northWestCornerRule squareScenario)).matrix r1 c1 =
          cellAt (northWestCornerRule squareScenario).matrix r1 c1 :=
  ⟨by decide!,
    (fixDegenerateCase_frame (northWestCornerRule squareScenario) (by decide!)).2.2.2.2
      (by decide!)⟩

/-! ## The candidate chosen by the scan -/

theorem evalStep_reduction (l : List shipment) :
    ∀ st : pathState, (l.foldl evalStep st).reduction = deltaFrom st.reduction st.plus l := by
  induction l with
  | nil =>
    intro st
    rfl
  | cons s rest ih =>
    intro st
    rw [List.foldl_cons, ih]
    unfold evalStep
    cases hp : st.plus with
    | true =>
      simp only [if_true, deltaFrom, Bool.not_true]
    | false =>
      by_cases hq : s.quantity < st.lowestQuantity
      · simp only [hq, if_true, deltaFrom, Bool.not_false]
        simp
      · simp only [hq, if_false, deltaFrom, Bool.not_false]
        simp

/-- The variable `reduction` after the loop over a path is the float64 net
delta of the path. -/
theorem evalPath_reduction (path : List shipment) :
    (evalPath path).reduction = floatDelta path := by
  unfold evalPath floatDelta
  rw [evalStep_reduction]

theorem scanBest_congr (t : transport) (P Q : Nat → Nat → Prop) (st : scanState)
    (h : ∀ r c, P r c ↔ Q r c) (hb : scanBest t P st) : scanBest t Q st := by
  have : P = Q := funext fun r => funext fun c => propext (h r c)
  rw [← this]
  exact hb

theorem scanCell_best (t : transport) (P : Nat → Nat → Prop) (st : scanState) (r1 c1 : Nat)
    (hP : ∀ r c, P r c → precedes r c r1 c1) (hb : scanBest t P st) :
    scanBest t (fun r c => P r c ∨ (r = r1 ∧ c = c1)) (scanCell t st r1 c1) := by
  unfold scanCell
  by_cases hbasic : cellAt t.matrix r1 c1 ≠ shipZero
  · rw [if_pos hbasic]
    rcases hb with ⟨h1, h2, h3⟩ | ⟨r0, c0, h0, hz0, h1, h2, h3, h4, h5, h6⟩
    · refine Or.inl ⟨h1, h2, ?_⟩
      rintro r c (hp | ⟨rfl, rfl⟩) hz
      · exact h3 r c hp hz
      · exact absurd hz hbasic
    · refine Or.inr ⟨r0, c0, Or.inl h0, hz0, h1, h2, h3, h4, ?_, ?_⟩
      · rintro r c (hp | ⟨rfl, rfl⟩) hz
        · exact h5 r c hp hz
        · exact absurd hz hbasic
      · rintro r c (hp | ⟨rfl, rfl⟩) hz hprec
        · exact h6 r c hp hz hprec
        · exact absurd hz hbasic
  · rw [if_neg hbasic]
    have hz : cellAt t.matrix r1 c1 = shipZero := by
      by_contra hne
      exact hbasic hne
    have hred : (evalPath (getClosedPath t.matrix ⟨0, costAt t.costs r1 c1, r1, c1⟩)).reduction
        = floatDelta (candidatePath t r1 c1) := evalPath_reduction _
    by_cases hlt : (evalPath (getClosedPath t.matrix ⟨0, costAt t.costs r1 c1, r1, c1⟩)).reduction
        < st.maxReduction
    · simp only [hlt, if_true]
      rw [hred] at hlt
      have hall : ∀ r c, P r c → cellAt t.matrix r c = shipZero →
          floatDelta (candidatePath t r1 c1) < floatDelta (candidatePath t r c) := by
        intro r c hp hzc
        rcases hb with ⟨_, h2, h3⟩ | ⟨r0, c0, _, _, _, _, h3, _, h5, _⟩
        · rw [h2] at hlt
          exact lt_of_lt_of_le hlt (h3 r c hp hzc)
        · rw [h3] at hlt
          exact lt_of_lt_of_le hlt (h5 r c hp hzc)
      have hneg : floatDelta (candidatePath t r1 c1) < 0 := by
        rcases hb with ⟨_, h2, _⟩ | ⟨r0, c0, _, _, _, _, h3, h4, _, _⟩
        · rw [h2] at hlt
          exact hlt
        · rw [h3] at hlt
          exact lt_trans hlt h4
      refine Or.inr ⟨r1, c1, Or.inr ⟨rfl, rfl⟩, hz, rfl, rfl, hred, hneg, ?_, ?_⟩
      · rintro r c (hp | ⟨rfl, rfl⟩) hzc
        · exact le_of_lt (hall r c hp hzc)
        · exact le_refl _
      · rintro r c (hp | ⟨rfl, rfl⟩) hzc hprec
        · exact hall r c hp hzc
        · unfold precedes at hprec
          omega
    · simp only [hlt, if_false]
      rw [hred] at hlt
      rcases hb with ⟨h1, h2, h3⟩ | ⟨r0, c0, h0, hz0, h1, h2, h3, h4, h5, h6⟩
      · refine Or.inl ⟨h1, h2, ?_⟩
        rintro r c (hp | ⟨rfl, rfl⟩) hzc
        · exact h3 r c hp hzc
        · rw [h2] at hlt
          exact not_lt.mp hlt
      · refine Or.inr ⟨r0, c0, Or.inl h0, hz0, h1, h2, h3, h4, ?_, ?_⟩
        · rintro r c (hp | ⟨rfl, rfl⟩) hzc
          · exact h5 r c hp hzc
          · rw [h3] at hlt
            exact not_lt.mp hlt
        · rintro r c (hp | ⟨rfl, rfl⟩) hzc hprec
          · exact h6 r c hp hzc hprec
          · have := hP r0 c0 h0
            unfold precedes at hprec this
            omega

theorem scanRow_best (t : transport) (r : Nat) (st : scanState)
    (hb : scanBest t (fun r1 c1 => r1 < r ∧ c1 < t.demand.length) st) :
    ∀ n, n ≤ t.demand.length →
      scanBest t (fun r1 c1 => (r1 < r ∧ c1 < t.demand.length) ∨ (r1 = r ∧ c1 < n))
        ((List.range n).foldl (fun st1 c => scanCell t st1 r c) st) := by
  intro n
  induction n with
  | zero =>
    intro _
    refine scanBest_congr t _ _ _ ?_ hb
    intro r1 c1
    simp
  | succ n ih =>
    intro hn
    rw [List.range_succ, List.foldl_append]
    simp only [List.foldl_cons, List.foldl_nil]
    refine scanBest_congr t _ _ _ ?_ (scanCell_best t _ _ r n ?_ (ih (by omega)))
    · intro r1 c1
      constructor
      · rintro ((h | h) | h)
        · exact Or.inl h
        · exact Or.inr ⟨h.1, by omega⟩
        · exact Or.inr ⟨h.1, by omega⟩
      · rintro (h | h)
        · exact Or.inl (Or.inl h)
        · by_cases e : c1 = n
          · exact Or.inr ⟨h.1, e⟩
          · exact Or.inl (Or.inr ⟨h.1, by omega⟩)
    · intro r1 c1 h
      unfold precedes
      omega

theorem scanCells_best (t : transport) :
    scanBest t (fun r c => r < t.supply.length ∧ c < t.demand.length) (scanCells t) := by
  have key : ∀ m, m ≤ t.supply.length →
      scanBest t (fun r c => r < m ∧ c < t.demand.length)
        ((List.range m).foldl
          (fun st r => (List.range t.demand.length).foldl (fun st1 c => scanCell t st1 r c) st)
          ⟨0, none, shipZero⟩) := by
    intro m
    induction m with
    | zero =>
      intro _
      refine Or.inl ⟨rfl, rfl, ?_⟩
      intro r c h
      omega
    | succ m ih =>
      intro hm
      rw [List.range_succ, List.foldl_append]
      simp only [List.foldl_cons, List.foldl_nil]
      refine scanBest_congr t _ _ _ ?_ (scanRow_best t m _ (ih (by omega)) _ (le_refl _))
      intro r c
      constructor
      · rintro (h | h)
        · exact ⟨by omega, h.2⟩
        · exact ⟨by omega, h.2⟩
      · rintro ⟨h1, h2⟩
        by_cases e : r = m
        · exact Or.inr ⟨e, h2⟩
        · exact Or.inl ⟨by omega, h2⟩
  exact key _ (le_refl _)

theorem steppingStonePass_none (t : transport)
    (h : (scanCells (fixDegenerateCase t)).move = none) :
    steppingStonePass t = (fixDegenerateCase t, false) := by
  simp only [steppingStonePass]
  rw [h]

theorem steppingStonePass_some (t : transport) (move : List shipment)
    (h : (scanCells (fixDegenerateCase t)).move = some move) :
    steppingStonePass t =
      ({ fixDegenerateCase t with
          matrix := rotate (scanCells (fixDegenerateCase t)).leaving.quantity move
            (fixDegenerateCase t).matrix }, true) := by
  simp only [steppingStonePass]
  rw [h]

theorem steppingStonePass_false (t : transport) (h : (steppingStonePass t).2 = false) :
    (steppingStonePass t).1 = fixDegenerateCase t ∧
      (scanCells (fixDegenerateCase t)).move = none := by
  cases hm : (scanCells (fixDegenerateCase t)).move with
  | none =>
    rw [steppingStonePass_none t hm]
    exact ⟨rfl, rfl⟩
  | some move =>
    rw [steppingStonePass_some t move hm] at h
    simp at h

/-- C15 (counterexample). Supplies `[300,400]`, demands `[250,450]`, costs
`0.4 0.5 / 0 0.1`. After the northwest-corner rule the closed path of the
non-basic cell `(1,0)` has the net delta `0 - 0.1 + 0.5 - 0.4`, which is
`-2^-55` for the float64 values of these costs; the program accumulates it in
float64 and obtains `0`, so the pass applies no rotation. -/
theorem roundingScenario_no_rotation :
    fixDegenerateCase (northWestCornerRule roundingScenario)
      = northWestCornerRule roundingScenario ∧
    cellAt (northWestCornerRule roundingScenario).matrix 1 0 = shipZero ∧
    netDelta (candidatePath (northWestCornerRule roundingScenario) 1 0)
      = -(1 / 36028797018963968) ∧
    netDelta (candidatePath (northWestCornerRule roundingScenario) 1 0) < 0 ∧
    floatDelta (candidatePath (northWestCornerRule roundingScenario) 1 0) = 0 ∧
    steppingStonePass (northWestCornerRule roundingScenario)
      = (northWestCornerRule roundingScenario, false) := by
  decide!

/-- C15 (amended). The net deltas are the ones the program accumulates in
float64.  In one pass of `steppingStone` in which no float64 operation
overflows, if some non-basic cell of the grid left by `fixDegenerateCase` has a
closed path with negative net delta, then a rotation is applied, and it runs
along the closed path of a non-basic cell whose net delta is the least over all
non-basic cells and strictly below the net delta of every non-basic cell that
comes before it in row-major order. -/
theorem steppingStonePass_first_minimum (t : transport) (_hfin : finitePass t = true)
    (h : ∃ r c, r < (fixDegenerateCase t).supply.length ∧
      c < (fixDegenerateCase t).demand.length ∧
      cellAt (fixDegenerateCase t).matrix r c = shipZero ∧
      floatDelta (candidatePath (fixDegenerateCase t) r c) < 0) :
    ∃ r c, r < (fixDegenerateCase t).supply.length ∧
      c < (fixDegenerateCase t).demand.length ∧
      cellAt (fixDegenerateCase t).matrix r c = shipZero ∧
      (steppingStonePass t).2 = true ∧
      (steppingStonePass t).1.matrix =
        rotate (evalPath (candidatePath (fixDegenerateCase t) r c)).leavingCandidate.quantity
          (candidatePath (fixDegenerateCase t) r c) (fixDegenerateCase t).matrix ∧
      (∀ r1 c1, r1 < (fixDegenerateCase t).supply.length →
        c1 < (fixDegenerateCase t).demand.length →
        cellAt (fixDegenerateCase t).matrix r1 c1 = shipZero →
        floatDelta (candidatePath (fixDegenerateCase t) r c)
          ≤ floatDelta (candidatePath (fixDegenerateCase t) r1 c1)) ∧
      ∀ r1 c1, r1 < (fixDegenerateCase t).supply.length →
        c1 < (fixDegenerateCase t).demand.length →
        cellAt (fixDegenerateCase t).matrix r1 c1 = shipZero → precedes r1 c1 r c →
        floatDelta (candidatePath (fixDegenerateCase t) r c)
          < floatDelta (candidatePath (fixDegenerateCase t) r1 c1) := by
  obtain ⟨ra, ca, hra, hca, hza, hnega⟩ := h
  rcases scanCells_best (fixDegenerateCase t) with
    ⟨_, _, h3⟩ | ⟨r0, c0, h0, hz0, h1, h2, _, _, h5, h6⟩
  · exact absurd hnega (not_lt.mpr (h3 ra ca ⟨hra, hca⟩ hza))
  · refine ⟨r0, c0, h0.1, h0.2, hz0, ?_, ?_, ?_, ?_⟩
    · rw [steppingStonePass_some t _ h1]
    · rw [steppingStonePass_some t _ h1, h2]
    · intro r1 c1 hr1 hc1 hz1
      exact h5 r1 c1 ⟨hr1, hc1⟩ hz1
    · intro r1 c1 hr1 hc1 hz1 hprec
      exact h6 r1 c1 ⟨hr1, hc1⟩ hz1 hprec

/-- On the scenario the cell `(1,0)` has net delta `-4` after the
northwest-corner rule. -/
theorem steppingStonePass_first_minimum_witness :
    ∃ r c, r < (fixDegenerateCase (northWestCornerRule scenario)).supply.length ∧
      c < (fixDegenerateCase (northWestCornerRule scenario)).demand.length ∧
      cellAt (fixDegenerateCase (northWestCornerRule scenario)).matrix r c = shipZero ∧
      (steppingStonePass (northWestCornerRule scenario)).2 = true ∧
      (steppingStonePass (northWestCornerRule scenario)).1.matrix =
        rotate (evalPath (candidatePath (fixDegenerateCase (northWestCornerRule scenario))
            r c)).leavingCandidate.quantity
          (candidatePath (fixDegenerateCase (northWestCornerRule scenario)) r c)
          (fixDegenerateCase (northWestCornerRule scenario)).matrix ∧
      (∀ r1 c1, r1 < (fixDegenerateCase (northWestCornerRule scenario)).supply.length →
        c1 < (fixDegenerateCase (northWestCornerRule scenario)).demand.length →
        cellAt (fixDegenerateCase (northWestCornerRule scenario)).matrix r1 c1 = shipZero →
        floatDelta (candidatePath (fixDegenerateCase (northWestCornerRule scenario)) r c)
          ≤ floatDelta (candidatePath (fixDegenerateCase (northWestCornerRule scenario)) r1 c1)) ∧
      ∀ r1 c1, r1 < (fixDegenerateCase (northWestCornerRule scenario)).supply.length →
        c1 < (fixDegenerateCase (northWestCornerRule scenario)).demand.length →
        cellAt (fixDegenerateCase (northWestCornerRule scenario)).matrix r1 c1 = shipZero →
        precedes r1 c1 r c →
        floatDelta (candidatePath (fixDegenerateCase (northWestCornerRule scenario)) r c)
          < floatDelta (candidatePath (fixDegenerateCase (northWestCornerRule scenario)) r1 c1) :=
  steppingStonePass_first_minimum (northWestCornerRule scenario) (by decide!)
    ⟨1, 0, by decide!, by decide!, by decide!, by decide!⟩

/-! ## Convergence -/

theorem steppingStone_final (fuel : Nat) :
    ∀ t tf : transport, steppingStone fuel t = some tf →
      ∃ t1, tf = fixDegenerateCase t1 ∧ (scanCells (fixDegenerateCase t1)).move = none := by
  induction fuel with
  | zero =>
    intro t tf h
    simp [steppingStone] at h
  | succ n ih =>
    intro t tf h
    cases hb : (steppingStonePass t).2 with
    | true =>
      rw [steppingStone_rotated t n hb] at h
      exact ih _ tf h
    | false =>
      rw [steppingStone_converged t n hb] at h
      obtain ⟨e1, e2⟩ := steppingStonePass_false t hb
      exact ⟨t, by rw [← Option.some.inj h, e1], e2⟩

/-- C16 (counterexample). Supplies `[300,400]`, demands `[250,450]`, costs
`0.4 0.5 / 0 0.1`. The run returns after one pass with the grid of the
northwest-corner rule, in which the closed path of the non-basic cell `(1,0)`
has the negative net delta `-2^-55`. -/
theorem roundingScenario_returns :
    steppingStone 1 (northWestCornerRule roundingScenario)
      = some (northWestCornerRule roundingScenario) ∧
    cellAt (northWestCornerRule roundingScenario).matrix 1 0 = shipZero ∧
    netDelta (getClosedPath (northWestCornerRule roundingScenario).matrix
        ⟨0, costAt (northWestCornerRule roundingScenario).costs 1 0, 1, 0⟩)
      = -(1 / 36028797018963968) ∧
    netDelta (getClosedPath (northWestCornerRule roundingScenario).matrix
        ⟨0, costAt (northWestCornerRule roundingScenario).costs 1 0, 1, 0⟩) < 0 := by
  decide!

/-- C16 (amended). The net deltas are the ones the program accumulates in
float64.  Whenever `steppingStone` returns from a run without float64 overflow,
every non-basic cell of the final grid has a closed path, as `getClosedPath`
computes it, whose net delta is not negative.  A pass without overflow in which
no non-basic cell of the grid left by `fixDegenerateCase` has a negative net
delta applies no rotation and is the last one: `steppingStone` returns that
grid. -/
theorem steppingStone_converges (t : transport) :
    (∀ fuel tf, finiteRun fuel t = true → steppingStone fuel t = some tf →
      ∀ r, r < tf.supply.length → ∀ c, c < tf.demand.length →
        cellAt tf.matrix r c = shipZero → 0 ≤ floatDelta (candidatePath tf r c)) ∧
    (finitePass t = true →
      (∀ r, r < (fixDegenerateCase t).supply.length →
        ∀ c, c < (fixDegenerateCase t).demand.length →
          cellAt (fixDegenerateCase t).matrix r c = shipZero →
          0 ≤ floatDelta (candidatePath (fixDegenerateCase t) r c)) →
      steppingStonePass t = (fixDegenerateCase t, false) ∧
      ∀ fuel, steppingStone (fuel + 1) t = some (fixDegenerateCase t)) := by
  constructor
  · intro fuel tf _ h r hr c hc hz
    obtain ⟨t1, e1, e2⟩ := steppingStone_final fuel t tf h
    rw [← e1] at e2
    rcases scanCells_best tf with ⟨_, _, h3⟩ | ⟨r0, c0, _, _, h1, _⟩
    · exact h3 r c ⟨hr, hc⟩ hz
    · rw [e2] at h1
      simp at h1
  · intro _ h
    have hnone : (scanCells (fixDegenerateCase t)).move = none := by
      rcases scanCells_best (fixDegenerateCase t) with
        ⟨h1, _, _⟩ | ⟨r0, c0, h0, hz0, _, _, _, h4, _, _⟩
      · exact h1
      · exact absurd h4 (not_lt.mpr (h r0 h0.1 c0 h0.2 hz0))
    have hpass := steppingStonePass_none t hnone
    refine ⟨hpass, ?_⟩
    intro fuel
    rw [steppingStone_converged t fuel (by rw [hpass]), hpass]

/-- The scenario: the run returns after two passes, and the second pass finds
no non-basic cell with a negative net delta. -/
theorem steppingStone_converges_witness :
    (∀ r, r < 2 → ∀ c, c < 2 →
      cellAt [[shipZero, ⟨300, 1, 0, 1⟩], [⟨250, 2, 1, 0⟩, ⟨150, 4, 1, 1⟩]] r c = shipZero →
      0 ≤ floatDelta (candidatePath ⟨[0, 0], [0, 0], [[3, 1], [2, 4]],
        [[shipZero, ⟨300, 1, 0, 1⟩], [⟨250, 2, 1, 0⟩, ⟨150, 4, 1, 1⟩]]⟩ r c)) ∧
    steppingStonePass (steppingStonePass (northWestCornerRule scenario)).1 =
      (fixDegenerateCase (steppingStonePass (northWestCornerRule scenario)).1, false) :=
  ⟨(steppingStone_converges (northWestCornerRule scenario)).1 2 _ (by decide!) (scenario_run 0),
    ((steppingStone_converges (steppingStonePass (northWestCornerRule scenario)).1).2
      (by decide!) (by decide!)).1⟩

/-! ## Feasibility of a rotation -/

theorem acyclic_of_noCycle (m : List (List shipment)) (h : noCycle (matrixToList m)) :
    acyclic m := by
  classical
  intro S hS hcl
  by_contra hne
  obtain ⟨p, hp⟩ := Finset.nonempty_iff_ne_empty.mpr hne
  have hmem : ∀ q ∈ S, ∃ y ∈ (matrixToList m).filter (fun x => decide (position x ∈ S)),
      position y = q := by
    intro q hq
    have := hS hq
    unfold basicPositions at this
    obtain ⟨y, hy, e⟩ := List.mem_map.mp (List.mem_toFinset.mp this)
    exact ⟨y, List.mem_filter.mpr ⟨hy, by simpa [e] using hq⟩, e⟩
  have hnil := h ((matrixToList m).filter (fun x => decide (position x ∈ S)))
    (List.mem_sublists.mpr (List.filter_sublist _)) (by
      intro x hx
      have hxS : position x ∈ S := by simpa using (List.mem_filter.mp hx).2
      obtain ⟨⟨q1, hq1, hne1, e1⟩, ⟨q2, hq2, hne2, e2⟩⟩ := hcl _ hxS
      obtain ⟨y1, hy1, rfl⟩ := hmem q1 hq1
      obtain ⟨y2, hy2, rfl⟩ := hmem q2 hq2
      exact ⟨⟨y1, hy1, fun e => hne1 (by rw [e]), e1⟩, ⟨y2, hy2, fun e => hne2 (by rw [e]), e2⟩⟩)
  obtain ⟨y, hy, _⟩ := hmem p hp
  rw [hnil] at hy
  simp at hy

theorem cell_quantity_nonneg (m : List (List shipment))
    (hpos : ∀ x ∈ matrixToList m, 0 < x.quantity) (r c : Nat) :
    0 ≤ (cellAt m r c).quantity := by
  by_cases hz : cellAt m r c = shipZero
  · rw [hz]
    exact le_refl _
  · exact le_of_lt (hpos _ (mem_matrixToList_of_cell m r c hz))

/-- C14 (counterexample). Supplies `[1,3]`, demands `[4,3]`, costs `2 2 / 3 1`.
The first pass of `steppingStone` leaves the grid `1 - / 3 eps / - 3`, `eps` the
smallest positive float64: four basic cells in a grid of three rows and two
columns, without a cycle, all positive. The second pass rotates along the
closed path of the cell `(2,0)` by the quantity three, and the cell `(1,1)`
receives `eps + 3`, which is `3` in float64: the quantities of row one add up
to `3 + eps` before the pass and to `3` after it. -/
theorem placeholderScenario_row_changes :
    (steppingStonePass (northWestCornerRule placeholderScenario)).1.matrix
      = [[⟨1, 2, 0, 0⟩, shipZero], [⟨3, 3, 1, 0⟩, ⟨eps, 1, 1, 1⟩], [shipZero, ⟨3, 0, 2, 1⟩]] ∧
    gridShaped (steppingStonePass (northWestCornerRule placeholderScenario)).1 ∧
    wellFormed (steppingStonePass (northWestCornerRule placeholderScenario)).1.matrix ∧
    (basicCount (steppingStonePass (northWestCornerRule placeholderScenario)).1.matrix : Int)
      = (steppingStonePass (northWestCornerRule placeholderScenario)).1.supply.length
        + (steppingStonePass (northWestCornerRule placeholderScenario)).1.demand.length - 1 ∧
    noCycle (matrixToList
      (steppingStonePass (northWestCornerRule placeholderScenario)).1.matrix) ∧
    (∀ x ∈ matrixToList (steppingStonePass (northWestCornerRule placeholderScenario)).1.matrix,
      0 < x.quantity) ∧
    (steppingStonePass (steppingStonePass (northWestCornerRule placeholderScenario)).1).2
      = true ∧
    (steppingStonePass (steppingStonePass (northWestCornerRule placeholderScenario)).1).1.matrix
      = [[⟨1, 2, 0, 0⟩, shipZero], [shipZero, ⟨3, 1, 1, 1⟩], [⟨3, 0, 2, 0⟩, shipZero]] ∧
    rowSum (steppingStonePass (northWestCornerRule placeholderScenario)).1 1 = 3 + eps ∧
    rowSum (steppingStonePass (steppingStonePass
      (northWestCornerRule placeholderScenario)).1).1 1 = 3 := by
  decide!

/-- C14 (amended). On a grid with the dimensions of the capacity vectors whose
basic cells record their own position, number `rows + cols - 1` and contain no
cycle, in which every basic quantity is whole or a placeholder (a whole
multiple, between one and `2^f` with `f` at most 1019, of the smallest positive
float64) and the whole quantities of each row add up to at most `2^53`, in a
pass without float64 overflow `fixDegenerateCase` changes nothing and the
rotation keeps, in every row and every column, the sum of the basic quantities
of at least one, and no cell holds a negative quantity after it. When every
basic quantity is whole, every row sum and every column sum of the basic
quantities is the same after the pass as before it. -/
theorem steppingStonePass_feasible (t : transport) (f : Nat) (hf : f ≤ 1019)
    (hshape : gridShaped t) (hwf : wellFormed t.matrix)
    (hcount : (basicCount t.matrix : Int) = t.supply.length + t.demand.length - 1)
    (hacyc : noCycle (matrixToList t.matrix))
    (htyped : ∀ x ∈ matrixToList t.matrix, whole x.quantity ∨ tiny f x.quantity)
    (hcap : ∀ r, r < t.supply.length → wholeRowSum t r ≤ 2 ^ 53)
    (_hfin : finitePass t = true) :
    fixDegenerateCase t = t ∧
    (∀ r, wholeRowSum (steppingStonePass t).1 r = wholeRowSum t r) ∧
    (∀ c, wholeColSum (steppingStonePass t).1 c = wholeColSum t c) ∧
    (∀ r c, 0 ≤ (cellAt (steppingStonePass t).1.matrix r c).quantity) ∧
    ((∀ x ∈ matrixToList t.matrix, whole x.quantity) →
      (∀ r, rowSum (steppingStonePass t).1 r = rowSum t r) ∧
      (∀ c, colSum (steppingStonePass t).1 c = colSum t c)) := by
  have hfix : fixDegenerateCase t = t := by
    unfold fixDegenerateCase
    have : ¬ ((t.supply.length : Int) + t.demand.length - 1 ≠ (matrixToList t.matrix).length) := by
      unfold basicCount at hcount
      omega
    rw [if_neg this]
  have hb : typedInv true f t :=
    { shaped := hshape
      wf := hwf
      typed := fun x hx => (htyped x hx).imp id (fun e => ⟨rfl, e⟩)
      acyc := acyclic_of_noCycle _ hacyc
      row_cap := hcap }
  have hpos : ∀ x ∈ matrixToList t.matrix, 0 < x.quantity :=
    fun x hx => typed_pos true f _ (hb.typed x hx)
  refine ⟨hfix, ?_⟩
  have hsel := scanCells_selected (fixDegenerateCase t)
  rw [hfix] at hsel
  rcases hsel with hn | ⟨r, c, hr, hc, hz, hmove, hleave, hneg⟩
  · have hp := steppingStonePass_none t (by rw [hfix]; exact hn)
    rw [hp, hfix]
    exact ⟨fun _ => rfl, fun _ => rfl, cell_quantity_nonneg _ hpos,
      fun _ => ⟨fun _ => rfl, fun _ => rfl⟩⟩
  · have hp := steppingStonePass_some t _ (by rw [hfix]; exact hmove)
    rw [hfix, hleave] at hp
    obtain ⟨hb1, hrow, hcol⟩ := typedInv_rotate true f hf t hb r c hr hc hz hneg
    rw [hp]
    refine ⟨hrow, hcol,
      cell_quantity_nonneg _ (fun x hx => typed_pos true (f + 1) _ (hb1.typed x hx)), ?_⟩
    intro hwh
    have hbw : typedInv false f t :=
      { shaped := hshape
        wf := hwf
        typed := fun x hx => Or.inl (hwh x hx)
        acyc := acyclic_of_noCycle _ hacyc
        row_cap := hcap }
    obtain ⟨hb2, _, _⟩ := typedInv_rotate false f hf t hbw r c hr hc hz hneg
    have hwh2 := fun x hx => whole_of_typed_false (f + 1) _ (hb2.typed x hx)
    constructor
    · intro r1
      rw [← wholeRowSum_eq_rowSum _ hwh2, ← wholeRowSum_eq_rowSum _ hwh]
      exact hrow r1
    · intro c1
      rw [← wholeColSum_eq_colSum _ hwh2, ← wholeColSum_eq_colSum _ hwh]
      exact hcol c1

/-- The grid of the scenario after the northwest-corner rule has `2 + 2 - 1`
basic cells without a cycle, all whole. -/
theorem steppingStonePass_feasible_witness :
    (steppingStonePass (northWestCornerRule scenario)).2 = true ∧
    (∀ r, rowSum (steppingStonePass (northWestCornerRule scenario)).1 r
      = rowSum (northWestCornerRule scenario) r) ∧
    (∀ c, colSum (steppingStonePass (northWestCornerRule scenario)).1 c
      = colSum (northWestCornerRule scenario) c) :=
  ⟨by decide!,
    (steppingStonePass_feasible (northWestCornerRule scenario) 0 (by decide) (by decide!)
      (by decide!) (by decide!) (by decide!) (by decide!) (by decide!) (by decide!)).2.2.2.2
      (by decide!)⟩

/-! ## The order of a closed path -/

theorem nwStair_weaken (t0 t : transport) (rb cb rb1 cb1 : Nat) (h : nwStair t0 t rb cb)
    (hr : rb ≤ rb1) (hc : cb ≤ cb1) : nwStair t0 t rb1 cb1 :=
  { h with
    bound := h.bound.imp
      (fun b r c hne => ⟨le_trans (b r c hne).1 hr, le_trans (b r c hne).2 hc⟩) id }

theorem nwStair_dead (t0 t : transport) (rb cb rb1 cb1 : Nat) (h : nwStair t0 t rb cb)
    (hdead : ∀ j, t.demand.getD j 0 ≤ 0) : nwStair t0 t rb1 cb1 :=
  { h with bound := Or.inr hdead }

theorem nwStair_allocate (t0 t : transport) (r c : Nat) (h : nwStair t0 t r c)
    (hr : r < t0.supply.length) (hc : c < t0.demand.length)
    (hq : minOf (t.supply.getD r 0) (t.demand.getD c 0) > 0) :
    nwStair t0 (allocate t r c (minOf (t.supply.getD r 0) (t.demand.getD c 0))) r c := by
  have hle1 := minOf_le_left (t.supply.getD r 0) (t.demand.getD c 0)
  have hle2 := minOf_le_right (t.supply.getD r 0) (t.demand.getD c 0)
  generalize minOf (t.supply.getD r 0) (t.demand.getD c 0) = q at hq hle1 hle2
  have hbound : ∀ r1 c1, cellAt t.matrix r1 c1 ≠ shipZero → r1 ≤ r ∧ c1 ≤ c := by
    rcases h.bound with b | d
    · exact b
    · have := d c
      omega
  have hcell : ∀ r1 c1, cellAt (allocate t r c q).matrix r1 c1 =
      if r1 = r ∧ c1 = c then ⟨ofInt q, costAt t.costs r c, r, c⟩
      else cellAt t.matrix r1 c1 := by
    intro r1 c1
    simp only [allocate]
    rw [cellAt_setCell]
    have h1 : r < t.matrix.length := by rw [h.rows]; exact hr
    have h2 : c < (t.matrix.getD r []).length := by rw [h.cols r hr]; exact hc
    by_cases hrc : r1 = r ∧ c1 = c
    · rw [if_pos hrc, if_pos ⟨hrc.1, hrc.2, h1, h2⟩]
    · rw [if_neg hrc, if_neg (fun hh => hrc ⟨hh.1, hh.2.1⟩)]
  have hnew : ∀ r1 c1, cellAt (allocate t r c q).matrix r1 c1 ≠ shipZero →
      (r1 = r ∧ c1 = c) ∨ cellAt t.matrix r1 c1 ≠ shipZero := by
    intro r1 c1 hne
    rw [hcell] at hne
    by_cases e : r1 = r ∧ c1 = c
    · exact Or.inl e
    · rw [if_neg e] at hne
      exact Or.inr hne
  refine
    { supply_len := by simp only [allocate, List.length_set]; exact h.supply_len
      demand_len := by simp only [allocate, List.length_set]; exact h.demand_len
      rows := by simp only [allocate]; rw [length_setCell]; exact h.rows
      cols := fun r1 hr1 => by
        simp only [allocate]
        rw [rowLength_setCell]
        exact h.cols r1 hr1
      costs := h.costs
      cell := ?_
      mono := ?_
      bound := ?_ }
  · intro r1 c1
    rw [hcell]
    by_cases e : r1 = r ∧ c1 = c
    · rw [if_pos e]
      right
      refine ⟨e.1.symm, e.2.symm, ?_, ?_⟩
      · show (0 : ℚ) < ofInt q
        exact ofInt_pos q hq
      · show costAt t.costs r c = costAt t0.costs r1 c1
        rw [h.costs, e.1, e.2]
    · rw [if_neg e]
      exact h.cell r1 c1
  · intro r1 c1 r2 c2 h1 h2 hlt
    rcases hnew r1 c1 h1 with e1 | e1
    · rcases hnew r2 c2 h2 with e2 | e2
      · omega
      · have := (hbound r2 c2 e2).1
        omega
    · rcases hnew r2 c2 h2 with e2 | e2
      · have := (hbound r1 c1 e1).2
        omega
      · exact h.mono r1 c1 r2 c2 e1 e2 hlt
  · left
    intro r1 c1 hne
    rcases hnew r1 c1 hne with e | e
    · exact ⟨le_of_eq e.1, le_of_eq e.2⟩
    · exact hbound r1 c1 e

theorem nwInner_stair (t0 : transport) (r nw : Nat) (hr : r < t0.supply.length)
    (hnw : nw ≤ t0.demand.length) :
    ∀ (n c : Nat) (t : transport), nwStair t0 t r c → c + n = t0.demand.length → nw ≤ c →
      ((t.supply.getD r 0 ≤ 0 ∧ nwStair t0 t r nw ∧ ∀ j, j < nw → t.demand.getD j 0 ≤ 0) ∨
        (0 < t.supply.getD r 0 ∧ ∀ j, j < c → t.demand.getD j 0 ≤ 0)) →
      nwStair t0 (nwInner r n c nw t).1 r (nwInner r n c nw t).2 ∧
      (∀ j, j < (nwInner r n c nw t).2 → (nwInner r n c nw t).1.demand.getD j 0 ≤ 0) ∧
      (nwInner r n c nw t).2 ≤ t0.demand.length := by
  intro n
  induction n with
  | zero =>
    intro c t h hcn _ hq
    have e : nwInner r 0 c nw t = (t, nw) := rfl
    rw [e]
    rcases hq with ⟨_, a, b⟩ | ⟨_, b⟩
    · exact ⟨a, b, hnw⟩
    · have hdead : ∀ j, t.demand.getD j 0 ≤ 0 := by
        intro j
        by_cases hj : j < c
        · exact b j hj
        · rw [List.getD_eq_default _ _ (by rw [h.demand_len]; omega)]
      exact ⟨nwStair_dead t0 t r c r nw h hdead, fun j _ => hdead j, hnw⟩
  | succ n ih =>
    intro c t h hcn hnwc hq
    have hcC : c < t0.demand.length := by omega
    by_cases hpos : minOf (t.supply.getD r 0) (t.demand.getD c 0) > 0
    · have hle1 := minOf_le_left (t.supply.getD r 0) (t.demand.getD c 0)
      have hB : 0 < t.supply.getD r 0 ∧ ∀ j, j < c → t.demand.getD j 0 ≤ 0 := by
        rcases hq with ⟨a, _⟩ | b
        · omega
        · exact b
      have h1 := nwStair_allocate t0 t r c h hr hcC hpos
      have hsup : (allocate t r c (minOf (t.supply.getD r 0) (t.demand.getD c 0))).supply.getD r 0
          = t.supply.getD r 0 - minOf (t.supply.getD r 0) (t.demand.getD c 0) := by
        rw [supply_allocate, if_pos ⟨rfl, by rw [h.supply_len]; exact hr⟩]
      have hdem : ∀ j, j < c →
          (allocate t r c (minOf (t.supply.getD r 0) (t.demand.getD c 0))).demand.getD j 0 ≤ 0 := by
        intro j hj
        rw [demand_allocate, if_neg (fun e => by omega)]
        exact hB.2 j hj
      by_cases h0 : (allocate t r c (minOf (t.supply.getD r 0) (t.demand.getD c 0))).supply.getD r 0
          = 0
      · rw [nwInner_break r n c nw t hpos h0]
        exact ⟨h1, hdem, le_of_lt hcC⟩
      · rw [nwInner_continue r n c nw t hpos h0]
        refine ih (c + 1) _ (nwStair_weaken t0 _ r c r (c + 1) h1 (le_refl r) (by omega))
          (by omega) (by omega) (Or.inr ⟨?_, ?_⟩)
        · rw [hsup] at h0 ⊢
          omega
        · intro j hj
          by_cases e : j = c
          · subst e
            rw [demand_allocate, if_pos ⟨rfl, by rw [h.demand_len]; exact hcC⟩]
            rw [hsup] at h0
            rcases minOf_eq (t.supply.getD r 0) (t.demand.getD j 0) with e1 | e1
            · omega
            · omega
          · exact hdem j (by omega)
    · rw [nwInner_skip r n c nw t hpos]
      refine ih (c + 1) t (nwStair_weaken t0 t r c r (c + 1) h (le_refl r) (by omega))
        (by omega) (by omega) ?_
      rcases hq with a | ⟨b1, b2⟩
      · exact Or.inl a
      · refine Or.inr ⟨b1, ?_⟩
        intro j hj
        by_cases e : j = c
        · subst e
          unfold minOf at hpos
          split_ifs at hpos <;> omega
        · exact b2 j (by omega)

theorem nwOuter_stair (t0 : transport) :
    ∀ (n r nw : Nat) (t : transport), nwStair t0 t r nw → r + n = t0.supply.length →
      nw ≤ t0.demand.length → (∀ j, j < nw → t.demand.getD j 0 ≤ 0) →
      ∃ rb cb, nwStair t0 (nwOuter n r nw t) rb cb := by
  intro n
  induction n with
  | zero =>
    intro r nw t h _ _ _
    exact ⟨r, nw, h⟩
  | succ n ih =>
    intro r nw t h hrn hnw hz
    have hr : r < t0.supply.length := by omega
    simp only [nwOuter]
    have hq : (t.supply.getD r 0 ≤ 0 ∧ nwStair t0 t r nw ∧
          ∀ j, j < nw → t.demand.getD j 0 ≤ 0) ∨
        (0 < t.supply.getD r 0 ∧ ∀ j, j < nw → t.demand.getD j 0 ≤ 0) := by
      by_cases e : t.supply.getD r 0 ≤ 0
      · exact Or.inl ⟨e, h, hz⟩
      · exact Or.inr ⟨by omega, hz⟩
    obtain ⟨a1, a2, a3⟩ := nwInner_stair t0 r nw hr hnw (t.demand.length - nw) nw t h
      (by rw [h.demand_len]; omega) (le_refl nw) hq
    exact ih (r + 1) _ _ (nwStair_weaken t0 _ r _ (r + 1) _ a1 (by omega) (le_refl _))
      (by omega) a3 a2

/-- The northwest-corner rule builds a staircase from every empty grid,
whatever the capacities. -/
theorem northWestCornerRule_stair (t : transport) (hshape : gridShaped t)
    (hempty : matrixToList t.matrix = []) :
    ∃ rb cb, nwStair t (northWestCornerRule t) rb cb := by
  unfold northWestCornerRule
  refine nwOuter_stair t t.supply.length 0 0 t ?_ (by omega) (by omega) (fun j hj => by omega)
  exact
    { supply_len := rfl
      demand_len := rfl
      rows := hshape.1
      cols := hshape.2
      costs := rfl
      cell := fun r c => Or.inl (cellAt_of_no_basic _ hempty r c)
      mono := fun r1 c1 _ _ hne _ _ => absurd (cellAt_of_no_basic _ hempty r1 c1) hne
      bound := Or.inl (fun r c hne => absurd (cellAt_of_no_basic _ hempty r c) hne) }

theorem card_basicPositions (m : List (List shipment)) (hwf : wellFormed m) :
    (basicPositions m).card = basicCount m := by
  unfold basicPositions basicCount
  rw [List.toFinset_card_of_nodup, List.length_map]
  refine List.Nodup.map_on ?_ (nodup_matrixToList m hwf)
  intro x hx y hy e
  have e1 : x.r = y.r := congrArg Prod.fst e
  have e2 : x.c = y.c := congrArg Prod.snd e
  rw [← cellAt_of_mem m hwf x hx, ← cellAt_of_mem m hwf y hy, e1, e2]

theorem staircase_count (m : List (List shipment)) (R C : Nat) (hwf : wellFormed m)
    (hrows : m.length = R) (hcols : ∀ r, r < R → (m.getD r []).length = C)
    (hR : 0 < R)
    (hmono : ∀ r1 c1 r2 c2, cellAt m r1 c1 ≠ shipZero → cellAt m r2 c2 ≠ shipZero →
      r1 < r2 → c1 ≤ c2) :
    basicCount m + 1 ≤ R + C := by
  rw [← card_basicPositions m hwf]
  by_cases hne : (basicPositions m).Nonempty
  · have hforest : forestIn Prod.fst Prod.snd (basicPositions m) := by
      apply forest_of_staircase
      intro p hp q hq hlt
      rw [mem_basicPositions m hwf] at hp hq
      exact hmono p.1 p.2 q.1 q.2 hp.2.2 hq.2.2 hlt
    have hb := forest_card_bound Prod.fst Prod.snd _ (basicPositions m) rfl hne hforest
    have h1 : ((basicPositions m).image Prod.fst).card ≤ R := by
      rw [← Finset.card_range R]
      apply Finset.card_le_card
      intro a ha
      obtain ⟨p, hp, rfl⟩ := Finset.mem_image.mp ha
      rw [mem_basicPositions m hwf] at hp
      rw [Finset.mem_range, ← hrows]
      exact hp.1
    have h2 : ((basicPositions m).image Prod.snd).card ≤ C := by
      rw [← Finset.card_range C]
      apply Finset.card_le_card
      intro a ha
      obtain ⟨p, hp, rfl⟩ := Finset.mem_image.mp ha
      rw [mem_basicPositions m hwf] at hp
      rw [Finset.mem_range, ← hcols p.1 (by rw [← hrows]; exact hp.1)]
      exact hp.2.1
    omega
  · rw [Finset.not_nonempty_iff_eq_empty] at hne
    rw [hne, Finset.card_empty]
    omega

/-- C20. On every grid without basic cells that has at least one row (it may
have any number of columns) and non-negative capacities, balanced or not, the
northwest-corner rule records at most `rows + cols - 1` basic cells; each holds a positive quantity,
the unit cost `costs[r][c]` and the coordinates of its position; and the basic
cells form a staircase: of two basic cells the one that comes first in
row-major order has the smaller or equal row index and the smaller or equal
column index. -/
theorem northWestCornerRule_staircase (t : transport) (hshape : gridShaped t)
    (hempty : matrixToList t.matrix = [])
    (_hs : ∀ x ∈ t.supply, 0 ≤ x) (_hd : ∀ x ∈ t.demand, 0 ≤ x)
    (hrow : 0 < t.supply.length) :
    basicCount (northWestCornerRule t).matrix + 1 ≤ t.supply.length + t.demand.length ∧
    (∀ r c, cellAt (northWestCornerRule t).matrix r c = shipZero ∨
      (0 < (cellAt (northWestCornerRule t).matrix r c).quantity ∧
        (cellAt (northWestCornerRule t).matrix r c).costPerUnit = costAt t.costs r c ∧
        (cellAt (northWestCornerRule t).matrix r c).r = r ∧
        (cellAt (northWestCornerRule t).matrix r c).c = c)) ∧
    (∀ r1 c1 r2 c2, cellAt (northWestCornerRule t).matrix r1 c1 ≠ shipZero →
      cellAt (northWestCornerRule t).matrix r2 c2 ≠ shipZero → precedes r1 c1 r2 c2 →
      r1 ≤ r2 ∧ c1 ≤ c2) := by
  obtain ⟨rb, cb, h⟩ := northWestCornerRule_stair t hshape hempty
  have hwf : wellFormed (northWestCornerRule t).matrix :=
    fun r _ c _ => (h.cell r c).imp id (fun e => ⟨e.1, e.2.1⟩)
  refine ⟨staircase_count _ _ _ hwf h.rows h.cols hrow h.mono, ?_, ?_⟩
  · intro r c
    exact (h.cell r c).imp id (fun e => ⟨e.2.2.1, e.2.2.2, e.1, e.2.1⟩)
  · intro r1 c1 r2 c2 h1 h2 hprec
    rcases hprec with hlt | ⟨e, hlt⟩
    · exact ⟨le_of_lt hlt, h.mono r1 c1 r2 c2 h1 h2 hlt⟩
    · exact ⟨le_of_eq e, le_of_lt hlt⟩

/-- An instance that is not balanced: supplies `[1,5]` against demands `[3,2]`
on an empty grid with unit costs one. -/
theorem northWestCornerRule_staircase_witness :
    (northWestCornerRule ⟨[1, 5], [3, 2], [[1, 1], [1, 1]],
      [[shipZero, shipZero], [shipZero, shipZero]]⟩).matrix =
      [[⟨1, 1, 0, 0⟩, shipZero], [⟨2, 1, 1, 0⟩, ⟨2, 1, 1, 1⟩]] ∧
    (basicCount (northWestCornerRule ⟨[1, 5], [3, 2], [[1, 1], [1, 1]],
      [[shipZero, shipZero], [shipZero, shipZero]]⟩).matrix + 1 ≤ 2 + 2 ∧
    (∀ r c, cellAt (northWestCornerRule ⟨[1, 5], [3, 2], [[1, 1], [1, 1]],
        [[shipZero, shipZero], [shipZero, shipZero]]⟩).matrix r c = shipZero ∨
      (0 < (cellAt (northWestCornerRule ⟨[1, 5], [3, 2], [[1, 1], [1, 1]],
          [[shipZero, shipZero], [shipZero, shipZero]]⟩).matrix r c).quantity ∧
        (cellAt (northWestCornerRule ⟨[1, 5], [3, 2], [[1, 1], [1, 1]],
          [[shipZero, shipZero], [shipZero, shipZero]]⟩).matrix r c).costPerUnit
          = costAt [[1, 1], [1, 1]] r c ∧
        (cellAt (northWestCornerRule ⟨[1, 5], [3, 2], [[1, 1], [1, 1]],
          [[shipZero, shipZero], [shipZero, shipZero]]⟩).matrix r c).r = r ∧
        (cellAt (northWestCornerRule ⟨[1, 5], [3, 2], [[1, 1], [1, 1]],
          [[shipZero, shipZero], [shipZero, shipZero]]⟩).matrix r c).c = c)) ∧
    (∀ r1 c1 r2 c2,
      cellAt (northWestCornerRule ⟨[1, 5], [3, 2], [[1, 1], [1, 1]],
        [[shipZero, shipZero], [shipZero, shipZero]]⟩).matrix r1 c1 ≠ shipZero →
      cellAt (northWestCornerRule ⟨[1, 5], [3, 2], [[1, 1], [1, 1]],
        [[shipZero, shipZero], [shipZero, shipZero]]⟩).matrix r2 c2 ≠ shipZero →
      precedes r1 c1 r2 c2 → r1 ≤ r2 ∧ c1 ≤ c2)) :=
  ⟨by decide!,
    northWestCornerRule_staircase ⟨[1, 5], [3, 2], [[1, 1], [1, 1]],
      [[shipZero, shipZero], [shipZero, shipZero]]⟩ (by decide!) (by decide!) (by decide!)
      (by decide!) (by decide!)⟩

/-! ## Square instances with two basic cells -/

/-- The grid after a pass of `steppingStone` is a grid of the program. -/
theorem programGrid_pass (t : transport) (h : programGrid t) :
    programGrid (steppingStonePass t).1 := by
  have h1 := programGrid.repair t h
  have hsel := scanCells_selected (fixDegenerateCase t)
  simp only [steppingStonePass]
  rcases hsel with hn | ⟨r, c, hr, hc, hz, hmove, hleave, hneg⟩
  · rw [hn]
    exact h1
  · rw [hmove, hleave]
    refine programGrid.rotation _ r c h1 hr hc hz ?_
    intro e
    unfold candidatePath at e
    rw [e, evalPath_nil] at hneg
    exact lt_irrefl _ hneg

end Transportation
